import Mathlib

/-!
# Expense tracker dashboard (`src/App.js`): ledger, validation, view pipeline, aggregator

A shallow embedding of the logic of `ExpenseTrackerDashboard` and its helper
components, followed by the properties of the ledger store, the validation, the view
pipeline, the aggregator and the notification timer.

Modelling conventions

* A JavaScript number is a `JSNum`: `NaN`, `-Infinity`, `+Infinity` or a finite binary64
  value carried as the rational it denotes.  Every arithmetic operation and every
  conversion of a decimal text rounds the exact result to the nearest binary64 value, ties
  to even (`JSNum.ofRat`): 53 significant bits, overflow to an infinity from `2 ^ 1024`,
  gradual underflow on the grid of spacing `2 ^ (-1074)`.  The sign of zero is not
  modelled.  A number literal of the source such as `75.40` is `JSNum.ofRat 75.40`.
* A JavaScript string is a Lean `String`, processed through its list of characters;
  strings compare by code point.  `Number(text)` and `parseFloat(text)` follow the
  grammars `StringNumericLiteral` and `StrDecimalLiteral` of ECMAScript.
  `String.prototype.toLowerCase` is a parameter `lc` of the view pipeline.
* A plain object used as a dictionary (`newErrors`, the accumulator of `categoryTotals`)
  is an association list in insertion order holding own properties only.
* `Array.prototype.sort` is the stable insertion sort driven by the comparator.
* React state is an explicit record; every handler is a function from state to state.
  `Date.now()` and `new Date().toISOString()` are passed in as arguments, time is counted
  in milliseconds, and the callbacks scheduled with `setTimeout` are listed in the state
  by due time.
-/

namespace ExpenseTracker

/-! ## JavaScript numbers -/

/-- A JavaScript number value. -/
inductive JSNum where
  | nan
  | negInf
  | fin (q : ℚ)
  | posInf
  deriving DecidableEq

namespace JSNum

/-- The position of the leading binary digit of `n`, found in at most `fuel` halvings. -/
def log2Aux : Nat → Nat → Nat
  | 0, _ => 0
  | fuel + 1, n => if 2 ≤ n then log2Aux fuel (n / 2) + 1 else 0

/-- The position of the leading binary digit of a natural number (`0` for `0` and `1`). -/
def log2 (n : Nat) : Nat := log2Aux n n

/-- The binary exponent of a positive rational: the `e` with `2 ^ e ≤ q < 2 ^ (e + 1)`. -/
def binade (q : ℚ) : ℤ :=
  if (2 : ℚ) ^ ((log2 q.num.natAbs : ℤ) - (log2 q.den : ℤ)) ≤ q
  then (log2 q.num.natAbs : ℤ) - (log2 q.den : ℤ)
  else (log2 q.num.natAbs : ℤ) - (log2 q.den : ℤ) - 1

/-- The nearest integer, a tie going to the even one. -/
def roundHalfEven (q : ℚ) : ℤ :=
  if q - ⌊q⌋ < 1 / 2 then ⌊q⌋
  else if 1 / 2 < q - ⌊q⌋ then ⌊q⌋ + 1
  else if ⌊q⌋ % 2 = 0 then ⌊q⌋ else ⌊q⌋ + 1

/-- The exponent of the unit in the last place of binary64 at a positive rational: 53
significant bits, and the spacing `2 ^ (-1074)` below the least normal value. -/
def ulpExponent (q : ℚ) : ℤ := max (binade q) (-1022) - 52

/-- A positive rational rounded to 53 significant bits (ties to even), exponent unbounded
above. -/
def roundMagnitude (q : ℚ) : ℚ := roundHalfEven (q / 2 ^ ulpExponent q) * 2 ^ ulpExponent q

/-- The binary64 value of a rational number: round to nearest, ties to even; a magnitude
that rounds to `2 ^ 1024` or more overflows to an infinity. -/
def ofRat (q : ℚ) : JSNum :=
  if q = 0 then fin 0
  else if 0 < q then
    (if roundMagnitude q < 2 ^ 1024 then fin (roundMagnitude q) else posInf)
  else
    (if roundMagnitude (-q) < 2 ^ 1024 then fin (-roundMagnitude (-q)) else negInf)

/-- JavaScript `x + y` on numbers. -/
def add : JSNum → JSNum → JSNum
  | nan, _ => nan
  | _, nan => nan
  | posInf, negInf => nan
  | negInf, posInf => nan
  | posInf, _ => posInf
  | _, posInf => posInf
  | negInf, _ => negInf
  | _, negInf => negInf
  | fin a, fin b => ofRat (a + b)

/-- The infinity with the sign of `s * t`, for non-zero signs. -/
def infOfSigns (s t : Bool) : JSNum := if s = t then posInf else negInf

/-- Whether a value is strictly positive, for the sign rules of `*` and `/`. -/
def isPos : JSNum → Bool
  | posInf => true
  | fin a => decide (0 < a)
  | _ => false

/-- JavaScript `x * y` on numbers. -/
def mul : JSNum → JSNum → JSNum
  | nan, _ => nan
  | _, nan => nan
  | fin a, fin b => ofRat (a * b)
  | fin a, y => if a = 0 then nan else infOfSigns (decide (0 < a)) (isPos y)
  | x, fin b => if b = 0 then nan else infOfSigns (isPos x) (decide (0 < b))
  | x, y => infOfSigns (isPos x) (isPos y)

/-- JavaScript `x / y` on numbers (a zero divisor counts as `+0`). -/
def div : JSNum → JSNum → JSNum
  | nan, _ => nan
  | _, nan => nan
  | fin a, fin b =>
    if b = 0 then (if a = 0 then nan else if 0 < a then posInf else negInf)
    else ofRat (a / b)
  | fin _, _ => fin 0
  | x, fin b => infOfSigns (isPos x) (decide (0 ≤ b))
  | _, _ => nan

/-- JavaScript `x < y` on numbers: false as soon as one side is `NaN`. -/
def lt : JSNum → JSNum → Bool
  | nan, _ => false
  | _, nan => false
  | negInf, negInf => false
  | negInf, _ => true
  | _, negInf => false
  | posInf, _ => false
  | fin _, posInf => true
  | fin a, fin b => decide (a < b)

/-- JavaScript `x > y` on numbers. -/
def gt (x y : JSNum) : Bool := lt y x

/-- JavaScript `x <= y` on numbers: false as soon as one side is `NaN`. -/
def le : JSNum → JSNum → Bool
  | nan, _ => false
  | _, nan => false
  | x, y => !(lt y x)

/-- Whether the value is `NaN`. -/
def isNaN : JSNum → Bool
  | nan => true
  | _ => false

/-- Whether the value is finite. -/
def isFinite : JSNum → Bool
  | fin _ => true
  | _ => false

/-- Whether the value is neither `NaN` nor `-Infinity`. -/
def isRegular : JSNum → Bool
  | nan => false
  | negInf => false
  | _ => true

/-- JavaScript truthiness of a number: `0` and `NaN` are falsy. -/
def truthy : JSNum → Bool
  | nan => false
  | fin a => decide (a ≠ 0)
  | _ => true

/-- The number of a natural count such as `expenses.length`. -/
def ofNat (n : Nat) : JSNum := fin (n : ℚ)

end JSNum

/-! ## JavaScript strings: trimming, `Number(text)`, `parseFloat(text)` -/

/-- The code points of `WhiteSpace` and `LineTerminator` (ECMAScript `StrWhiteSpaceChar`). -/
def whiteSpaceCodes : List Nat :=
  [0x09, 0x0A, 0x0B, 0x0C, 0x0D, 0x20, 0xA0, 0x1680,
   0x2000, 0x2001, 0x2002, 0x2003, 0x2004, 0x2005, 0x2006, 0x2007, 0x2008, 0x2009, 0x200A,
   0x2028, 0x2029, 0x202F, 0x205F, 0x3000, 0xFEFF]

/-- Whether a character is stripped by `trim` and skipped by the numeric conversions. -/
def isWhiteSpace (c : Char) : Bool := whiteSpaceCodes.contains c.toNat

/-- Characters of `String.prototype.trimStart`. -/
def trimStartChars (s : List Char) : List Char := s.dropWhile isWhiteSpace

/-- Characters of `String.prototype.trimEnd`. -/
def trimEndChars (s : List Char) : List Char := (s.reverse.dropWhile isWhiteSpace).reverse

/-- Characters of `String.prototype.trim`. -/
def trimChars (s : List Char) : List Char := trimEndChars (trimStartChars s)

/-- JavaScript `s.trim()`. -/
def trim (s : String) : String := String.mk (trimChars s.toList)

/-- A numeric literal as read from text, before it becomes a number. -/
inductive NumLit where
  | inf (negative : Bool)
  | dec (negative : Bool) (mantissa : Nat) (exponent : Int)
  deriving DecidableEq

/-- The number denoted by a literal: `±Infinity`, or the binary64 value nearest to
`±mantissa * 10 ^ exponent`. -/
def NumLit.value : NumLit → JSNum
  | .inf false => JSNum.posInf
  | .inf true => JSNum.negInf
  | .dec negative m e =>
    JSNum.ofRat ((if negative then -1 else 1) * (m : ℚ) * (10 : ℚ) ^ e)

/-- The literal with the opposite sign. -/
def NumLit.negate : NumLit → NumLit
  | .inf b => .inf (!b)
  | .dec b m e => .dec (!b) m e

/-- Whether a character is a decimal digit. -/
def isDecDigit (c : Char) : Bool := decide (48 ≤ c.toNat) && decide (c.toNat ≤ 57)

/-- The value of a digit character in base up to 16, if it is one. -/
def hexDigitVal (c : Char) : Option Nat :=
  let n := c.toNat
  if 48 ≤ n ∧ n ≤ 57 then some (n - 48)
  else if 97 ≤ n ∧ n ≤ 102 then some (n - 87)
  else if 65 ≤ n ∧ n ≤ 70 then some (n - 55)
  else none

/-- The value of a run of decimal digits. -/
def decDigitsVal (ds : List Char) : Nat := ds.foldl (fun n c => 10 * n + (c.toNat - 48)) 0

/-- The value of a run of digits in the given base, `none` if a character is not a digit of it. -/
def digitsValBase (base : Nat) (ds : List Char) : Option Nat :=
  ds.foldl (fun acc c =>
    match acc, hexDigitVal c with
    | some n, some d => if d < base then some (base * n + d) else none
    | _, _ => none) (some 0)

/-- The grammar `NonDecimalIntegerLiteral`: `0x`, `0o` or `0b` followed by one or more
digits of that base, and nothing else. -/
def nonDecimalLiteral : List Char → Option Nat
  | '0' :: c :: d :: ds =>
    if c = 'x' ∨ c = 'X' then digitsValBase 16 (d :: ds)
    else if c = 'o' ∨ c = 'O' then digitsValBase 8 (d :: ds)
    else if c = 'b' ∨ c = 'B' then digitsValBase 2 (d :: ds)
    else none
  | _ => none

/-- A `SignedInteger` at the head of the text: an optional sign and one or more digits.
Returns its value and the rest of the text. -/
def scanSignedInteger : List Char → Option (Int × List Char)
  | [] => none
  | c :: u =>
    if c = '+' then
      (if u.takeWhile isDecDigit = [] then none
        else some ((decDigitsVal (u.takeWhile isDecDigit) : Int), u.dropWhile isDecDigit))
    else if c = '-' then
      (if u.takeWhile isDecDigit = [] then none
        else some (-(decDigitsVal (u.takeWhile isDecDigit) : Int), u.dropWhile isDecDigit))
    else
      (if (c :: u).takeWhile isDecDigit = [] then none
        else some ((decDigitsVal ((c :: u).takeWhile isDecDigit) : Int),
          (c :: u).dropWhile isDecDigit))

/-- An `ExponentPart` at the head of the text: `e` or `E` and a signed integer.  Returns
the exponent and the rest of the text. -/
def scanExponent : List Char → Option (Int × List Char)
  | [] => none
  | c :: t => if c = 'e' ∨ c = 'E' then scanSignedInteger t else none

/-- The decimal literal with the given integer digits, fraction digits and the optional
exponent part found at the head of `rest`. -/
def withExponent (ip fp rest : List Char) : NumLit × List Char :=
  match scanExponent rest with
  | some (e, rest2) => (.dec false (decDigitsVal (ip ++ fp)) (e - fp.length), rest2)
  | none => (.dec false (decDigitsVal (ip ++ fp)) (-(fp.length : Int)), rest)

/-- The digits and optional exponent of a decimal literal whose integer digits `ip` have
been read, with `r` the text after them: fraction digits follow a `.`, and a literal
needs a digit on one side of the point at least. -/
def scanFraction (ip r : List Char) : Option (NumLit × List Char) :=
  match r with
  | [] => if ip = [] then none else some (withExponent ip [] [])
  | c :: r2 =>
    if c = '.' then
      (if ip = [] ∧ r2.takeWhile isDecDigit = [] then none
        else some (withExponent ip (r2.takeWhile isDecDigit) (r2.dropWhile isDecDigit)))
    else if ip = [] then none
    else some (withExponent ip [] (c :: r2))

/-- The longest prefix that is a `StrUnsignedDecimalLiteral`, with the rest of the text. -/
def scanUnsigned (s : List Char) : Option (NumLit × List Char) :=
  if "Infinity".toList.isPrefixOf s then some (.inf false, s.drop 8)
  else scanFraction (s.takeWhile isDecDigit) (s.dropWhile isDecDigit)

/-- The longest prefix that is a `StrDecimalLiteral` (an optional sign and an unsigned
decimal literal), with the rest of the text. -/
def scanDecimal : List Char → Option (NumLit × List Char)
  | [] => none
  | c :: t =>
    if c = '+' then scanUnsigned t
    else if c = '-' then (scanUnsigned t).map (fun p => (p.1.negate, p.2))
    else scanUnsigned (c :: t)

/-- The literal read by `StringToNumber`, `none` when the text is not a
`StringNumericLiteral`. -/
def stringToLit (s : List Char) : Option NumLit :=
  let t := trimChars s
  if t = [] then some (.dec false 0 0)
  else
    match nonDecimalLiteral t with
    | some n => some (.dec false n 0)
    | none =>
      match scanDecimal t with
      | some (l, []) => some l
      | _ => none

/-- The literal read by `parseFloat`, `none` when no prefix of the text is a decimal
literal. -/
def parseFloatLit (s : List Char) : Option NumLit :=
  (scanDecimal (trimStartChars s)).map (fun p => p.1)

/-- The number of an optional literal: `NaN` when there is none. -/
def litValue : Option NumLit → JSNum
  | some l => l.value
  | none => JSNum.nan

/-- JavaScript `Number(text)` (`ToNumber` applied to a string). -/
def Number (s : String) : JSNum := litValue (stringToLit s.toList)

/-- JavaScript `parseFloat(text)`. -/
def parseFloat (s : String) : JSNum := litValue (parseFloatLit s.toList)

/-- JavaScript global `isNaN(text)`: the text converts to `NaN`. -/
def isNaN (s : String) : Bool := (Number s).isNaN

/-! ## Plain objects used as dictionaries -/

/-- A plain object: own properties in insertion order. -/
abbrev Obj (α : Type) := List (String × α)

namespace Obj

/-- The property read `o[k]`; `none` is `undefined`. -/
def get {α : Type} (o : Obj α) (k : String) : Option α :=
  match o with
  | [] => none
  | (k1, v) :: rest => if k1 = k then some v else get rest k

/-- The property write `o[k] = v`: overwrites in place or appends a new key. -/
def set {α : Type} (o : Obj α) (k : String) (v : α) : Obj α :=
  match o with
  | [] => [(k, v)]
  | (k1, v1) :: rest => if k1 = k then (k1, v) :: rest else (k1, v1) :: set rest k v

/-- The result of `Object.keys(o)`. -/
def keys {α : Type} (o : Obj α) : List String := o.map (fun p => p.1)

/-- The result of `Object.values(o)`. -/
def values {α : Type} (o : Obj α) : List α := o.map (fun p => p.2)

end Obj

/-! ## Data model -/

/-- An expense record `{ id, description, amount, category, date }`. -/
structure Expense where
  id : Nat
  description : String
  amount : JSNum
  category : String
  date : String
  deriving DecidableEq

/-- The keys of the `CATEGORIES` catalog, in declaration order. -/
def CATEGORIES : List String := ["food", "transport", "bills", "other"]

/-- The seed ledger. -/
def initialExpenses : List Expense :=
  [ { id := 1, description := "Groceries", amount := .ofRat 75.40, category := "food",
      date := "2023-10-26T10:00:00Z" },
    { id := 2, description := "Train Ticket", amount := .ofRat 22.50, category := "transport",
      date := "2023-10-25T14:30:00Z" },
    { id := 3, description := "Internet Bill", amount := .ofRat 59.99, category := "bills",
      date := "2023-10-24T09:00:00Z" },
    { id := 4, description := "Coffee with friend", amount := .ofRat 8.75, category := "food",
      date := "2023-10-23T16:00:00Z" },
    { id := 5, description := "Movie Tickets", amount := .ofRat 32.00, category := "other",
      date := "2023-10-22T20:15:00Z" },
    { id := 6, description := "Gasoline", amount := .ofRat 45.10, category := "transport",
      date := "2023-10-21T08:00:00Z" },
    { id := 7, description := "Electricity Bill", amount := .ofRat 120.34, category := "bills",
      date := "2023-10-20T11:00:00Z" } ]

/-- The page size. -/
def ITEMS_PER_PAGE : Nat := 5

/-- The delay of the notification timer, in milliseconds. -/
def NOTIFICATION_DELAY : Nat := 3000

/-- The field a view is sorted by. -/
inductive SortKey where
  | date
  | amount
  deriving DecidableEq

/-- The direction of a sort. -/
inductive SortDirection where
  | asc
  | desc
  deriving DecidableEq

/-- The sort specification `{ key, direction }`. -/
structure SortConfig where
  key : SortKey
  direction : SortDirection
  deriving DecidableEq

/-- A toast `{ message, type }`. -/
structure Notification where
  message : String
  type : String
  deriving DecidableEq

/-- The error object of a form: field name to message, `none` for a `null` entry. -/
abbrev ErrorSet := Obj (Option String)

/-- The state of `ExpenseTrackerDashboard`, with the pending `setTimeout` callbacks
(each one `() => setNotification(null)`) listed by due time in scheduling order. -/
structure State where
  expenses : List Expense
  description : String
  amount : String
  category : String
  searchTerm : String
  filterCategory : String
  sortConfig : SortConfig
  errors : ErrorSet
  notification : Option Notification
  theme : String
  editingExpense : Option Expense
  visibleCount : Nat
  timers : List Nat

/-- The state the component starts in. -/
def initialState : State :=
  { expenses := initialExpenses
    description := ""
    amount := ""
    category := "food"
    searchTerm := ""
    filterCategory := "all"
    sortConfig := { key := .date, direction := .desc }
    errors := []
    notification := none
    theme := "dark"
    editingExpense := none
    visibleCount := ITEMS_PER_PAGE
    timers := [] }

/-! ## Notifications -/

/-- The handler `showNotification(message, type)` called at time `now`: shows the toast and
schedules a callback clearing the notification `NOTIFICATION_DELAY` later.  Nothing
already scheduled is cancelled. -/
def showNotification (now : Nat) (message type : String) (s : State) : State :=
  { s with
    notification := some { message := message, type := type }
    timers := s.timers ++ [now + NOTIFICATION_DELAY] }

/-- The state at time `t` once every callback due by then has run: each one sets the
notification to `null`. -/
def fireDue (t : Nat) (s : State) : State :=
  if s.timers.any (fun d => decide (d ≤ t)) then
    { s with notification := none, timers := s.timers.filter (fun d => decide (t < d)) }
  else s

/-! ## Validation -/

/-- The function `validateForm(currentDescription, currentAmount)`. -/
def validateForm (currentDescription currentAmount : String) : ErrorSet :=
  let e0 : ErrorSet := []
  let e1 : ErrorSet :=
    if trim currentDescription = "" then e0.set "description" (some "Description is required.")
    else e0
  if currentAmount = "" then e1.set "amount" (some "Amount is required.")
  else if isNaN currentAmount || (Number currentAmount).le (.fin 0) then
    e1.set "amount" (some "Please enter a valid positive number.")
  else e1

/-! ## Ledger store -/

/-- The handler `handleAddExpense`, run at time `now` with `iso` the text of
`new Date().toISOString()`. -/
def handleAddExpense (now : Nat) (iso : String) (s : State) : State :=
  let validationErrors := validateForm s.description s.amount
  if validationErrors.keys.length > 0 then { s with errors := validationErrors }
  else
    let newExpense : Expense :=
      { id := now
        description := s.description
        amount := parseFloat s.amount
        category := s.category
        date := iso }
    showNotification now "Expense added successfully!" "success"
      { s with
        expenses := newExpense :: s.expenses
        description := ""
        amount := ""
        category := "food"
        errors := [] }

/-- The ledger update of `handleUpdateExpense`: every record with the id of
`updatedExpense` is replaced by it. -/
def updateLedger (updatedExpense : Expense) (prev : List Expense) : List Expense :=
  prev.map (fun exp => if exp.id = updatedExpense.id then updatedExpense else exp)

/-- The handler `handleUpdateExpense(updatedExpense)`, run at time `now`. -/
def handleUpdateExpense (now : Nat) (updatedExpense : Expense) (s : State) : State :=
  showNotification now "Expense updated successfully!" "success"
    { s with
      expenses := updateLedger updatedExpense s.expenses
      editingExpense := none }

/-- The ledger update of `handleDeleteExpense`: the records with another id are kept. -/
def deleteFromLedger (id : Nat) (prev : List Expense) : List Expense :=
  prev.filter (fun exp => decide (exp.id ≠ id))

/-- The handler `handleDeleteExpense(id)`, run at time `now`. -/
def handleDeleteExpense (now : Nat) (id : Nat) (s : State) : State :=
  showNotification now "Expense deleted." "error"
    { s with expenses := deleteFromLedger id s.expenses }

/-- The record `{ ...expense, description, amount: parseFloat(amount), category }` built
by the edit form. -/
def patchedExpense (expense : Expense) (description amount category : String) : Expense :=
  { expense with
    description := description
    amount := parseFloat amount
    category := category }

/-- The handler `EditExpenseModal.handleSubmit`, run at time `now` on the form fields
`description`, `amount`, `category` of the modal; the modal is mounted only while
`editingExpense` is set, and its own error state is not part of `State`. -/
def handleSubmit (now : Nat) (description amount category : String) (s : State) : State :=
  match s.editingExpense with
  | none => s
  | some expense =>
    if (validateForm description amount).keys.length > 0 then s
    else handleUpdateExpense now (patchedExpense expense description amount category) s

/-! ## View pipeline -/

/-- Whether `needle` occurs in `hay` as a run of consecutive characters. -/
def includesChars : List Char → List Char → Bool
  | [], needle => needle.isEmpty
  | c :: t, needle => needle.isPrefixOf (c :: t) || includesChars t needle

/-- JavaScript `hay.includes(needle)`. -/
def includes (hay needle : String) : Bool := includesChars hay.toList needle.toList

/-- The test `a[key] < b[key]` of the comparator: dates compare as strings, amounts as
numbers. -/
def keyLt (key : SortKey) (a b : Expense) : Bool :=
  match key with
  | .date => decide (a.date.toList < b.date.toList)
  | .amount => JSNum.lt a.amount b.amount

/-- The comparator handed to `sort` in `filteredAndSortedExpenses`. -/
def compareExpenses (cfg : SortConfig) (a b : Expense) : Int :=
  if keyLt cfg.key a b then (if cfg.direction = .asc then -1 else 1)
  else if keyLt cfg.key b a then (if cfg.direction = .asc then 1 else -1)
  else 0

/-- One insertion of the stable sort: `x` goes in front of the first element it does not
have to follow. -/
def insertByCompare {α : Type} (cmp : α → α → Int) (x : α) : List α → List α
  | [] => [x]
  | y :: ys => if cmp x y ≤ 0 then x :: y :: ys else y :: insertByCompare cmp x ys

/-- The method `Array.prototype.sort(cmp)`, a stable sort (ECMAScript 2019), as the
stable insertion sort. -/
def jsSort {α : Type} (cmp : α → α → Int) : List α → List α
  | [] => []
  | x :: xs => insertByCompare cmp x (jsSort cmp xs)

/-- The search filter `exp.description.toLowerCase().includes(searchTerm.toLowerCase())`;
`lc` is `String.prototype.toLowerCase`. -/
def matchesSearch (lc : String → String) (searchTerm : String) (exp : Expense) : Bool :=
  includes (lc exp.description) (lc searchTerm)

/-- The category filter `filterCategory === 'all' || exp.category === filterCategory`. -/
def matchesCategory (filterCategory : String) (exp : Expense) : Bool :=
  decide (filterCategory = "all") || decide (exp.category = filterCategory)

/-- The two `filter` calls of `filteredAndSortedExpenses`, before the sort. -/
def filteredExpenses (lc : String → String) (s : State) : List Expense :=
  (s.expenses.filter (matchesSearch lc s.searchTerm)).filter (matchesCategory s.filterCategory)

/-- The memo `filteredAndSortedExpenses`; `lc` is `String.prototype.toLowerCase`. -/
def filteredAndSortedExpenses (lc : String → String) (s : State) : List Expense :=
  jsSort (compareExpenses s.sortConfig) (filteredExpenses lc s)

/-- JavaScript `xs.slice(0, n)` for a count `n`. -/
def slice0 {α : Type} (xs : List α) (n : Nat) : List α := xs.take n

/-- The memo `paginatedExpenses`. -/
def paginatedExpenses (lc : String → String) (s : State) : List Expense :=
  slice0 (filteredAndSortedExpenses lc s) s.visibleCount

/-- Whether the "Load More" control is rendered:
`filteredAndSortedExpenses.length > visibleCount`. -/
def loadMoreVisible (lc : String → String) (s : State) : Bool :=
  decide ((filteredAndSortedExpenses lc s).length > s.visibleCount)

/-- The click handler of "Load More". -/
def loadMore (s : State) : State :=
  { s with visibleCount := s.visibleCount + ITEMS_PER_PAGE }

/-- The function `clearFilters`. -/
def clearFilters (s : State) : State :=
  { s with
    searchTerm := ""
    filterCategory := "all"
    sortConfig := { key := .date, direction := .desc } }

/-! ## Aggregator -/

/-- The value `{ total, count, average }`. -/
structure SummaryStats where
  total : JSNum
  count : Nat
  average : JSNum
  deriving DecidableEq

/-- The sum `expenses.reduce((sum, exp) => sum + exp.amount, 0)`. -/
def totalOf (expenses : List Expense) : JSNum :=
  expenses.foldl (fun sum exp => JSNum.add sum exp.amount) (.fin 0)

/-- The memo `summaryStats`. -/
def summaryStats (s : State) : SummaryStats :=
  let total := totalOf s.expenses
  let count := s.expenses.length
  let average := if count > 0 then JSNum.div total (JSNum.ofNat count) else .fin 0
  { total := total, count := count, average := average }

/-- JavaScript truthiness of a property that may be `undefined`. -/
def truthyProp : Option JSNum → Bool
  | none => false
  | some v => v.truthy

/-- The number a property converts to in arithmetic: `undefined` gives `NaN`. -/
def propToNumber : Option JSNum → JSNum
  | none => .nan
  | some v => v

/-- The reducer of `categoryTotals`. -/
def categoryStep (acc : Obj JSNum) (expense : Expense) : Obj JSNum :=
  let acc1 := if !truthyProp (acc.get expense.category) then acc.set expense.category (.fin 0)
    else acc
  acc1.set expense.category (JSNum.add (propToNumber (acc1.get expense.category)) expense.amount)

/-- The accumulation of `categoryTotals` over a ledger. -/
def categoryTotalsOf (expenses : List Expense) : Obj JSNum :=
  expenses.foldl categoryStep []

/-- The memo `categoryTotals`. -/
def categoryTotals (s : State) : Obj JSNum := categoryTotalsOf s.expenses

/-- The total computed by `CategoryChart`:
`Object.values(data).reduce((sum, val) => sum + val, 0)`. -/
def chartTotal (data : Obj JSNum) : JSNum :=
  data.values.foldl (fun sum val => JSNum.add sum val) (.fin 0)

/-- The `percentage` of one catalog key inside `CategoryChart`, for the chart total
`total`: `data[key] || 0`, then `total > 0 ? (amount / total) * 100 : 0`. -/
def chartPercentage (data : Obj JSNum) (total : JSNum) (key : String) : JSNum :=
  let amount := if truthyProp (data.get key) then propToNumber (data.get key) else .fin 0
  if JSNum.gt total (.fin 0) then JSNum.mul (JSNum.div amount total) (.fin 100) else .fin 0

/-- The component `CategoryChart`: `none` when it renders nothing (`total === 0`),
otherwise the percentage of each catalog category, before `toFixed(0)`. -/
def CategoryChart (data : Obj JSNum) : Option (List (String × JSNum)) :=
  let total := chartTotal data
  if total = .fin 0 then none
  else some (CATEGORIES.map (fun key => (key, chartPercentage data total key)))

/-! ## Events -/

/-- JavaScript truthiness of an entry of the error object. -/
def truthyError : Option (Option String) → Bool
  | some (some msg) => decide (msg ≠ "")
  | _ => false

/-- The `onChange` handler of the description input. -/
def changeDescription (v : String) (s : State) : State :=
  let s1 := { s with description := v }
  if truthyError (s.errors.get "description") then
    { s1 with errors := s.errors.set "description" none }
  else s1

/-- The `onChange` handler of the amount input. -/
def changeAmount (v : String) (s : State) : State :=
  let s1 := { s with amount := v }
  if truthyError (s.errors.get "amount") then { s1 with errors := s.errors.set "amount" none }
  else s1

/-- The click handler of the theme button. -/
def toggleTheme (s : State) : State :=
  { s with theme := if s.theme = "dark" then "light" else "dark" }

/-- What the user can do. -/
inductive Action where
  | changeDescription (v : String)
  | changeAmount (v : String)
  | changeCategory (v : String)
  | submitAdd (iso : String)
  | changeSearchTerm (v : String)
  | changeFilterCategory (v : String)
  | changeSort (cfg : SortConfig)
  | clearFilters
  | loadMore
  | toggleTheme
  | beginEdit (exp : Expense)
  | cancelEdit
  | submitEdit (description amount category : String)
  | deleteExpense (id : Nat)

/-- The effect of one action performed at time `now`. -/
def step (now : Nat) (a : Action) (s : State) : State :=
  match a with
  | .changeDescription v => changeDescription v s
  | .changeAmount v => changeAmount v s
  | .changeCategory v => { s with category := v }
  | .submitAdd iso => handleAddExpense now iso s
  | .changeSearchTerm v => { s with searchTerm := v }
  | .changeFilterCategory v => { s with filterCategory := v }
  | .changeSort cfg => { s with sortConfig := cfg }
  | .clearFilters => clearFilters s
  | .loadMore => loadMore s
  | .toggleTheme => toggleTheme s
  | .beginEdit exp => { s with editingExpense := some exp }
  | .cancelEdit => { s with editingExpense := none }
  | .submitEdit description amount category => handleSubmit now description amount category s
  | .deleteExpense id => handleDeleteExpense now id s

/-- A session: each action happens at its clock reading, after the timer callbacks due
by then have run. -/
def run : List (Nat × Action) → State → State
  | [], s => s
  | (t, a) :: rest, s => run rest (step t a (fireDue t s))

/-- The clock readings of a session, in order. -/
def clockReadings (events : List (Nat × Action)) : List Nat := events.map (fun e => e.1)

/-! ## Vocabulary of the statements -/

/-- No amount of the ledger is `NaN` or `-Infinity`. -/
def regularAmounts (l : List Expense) : Bool := l.all (fun e => e.amount.isRegular)

/-- The records of a ledger that have the given category, in ledger order. -/
def recordsOfCategory (c : String) (l : List Expense) : List Expense :=
  l.filter (fun e => decide (e.category = c))

/-- Every record of the ledger has a category of the catalog. -/
def catalogCategories (l : List Expense) : Bool := l.all (fun e => CATEGORIES.contains e.category)

/-- Whether an action is a click on "Load More". -/
def isLoadMore : Action → Bool
  | .loadMore => true
  | _ => false

/-- The number of clicks on "Load More" in a session. -/
def loadMoreCalls (events : List (Nat × Action)) : Nat :=
  (events.filter (fun e => isLoadMore e.2)).length

/-- The rational carried by a finite number, `0` for the others. -/
def JSNum.toRat : JSNum → ℚ
  | .fin q => q
  | _ => 0

/-- The place of a number in the order of the extended rationals: `+Infinity` is the top
(as are, unused, `NaN` and `-Infinity`). -/
def JSNum.toExtended : JSNum → WithTop ℚ
  | .fin q => (q : WithTop ℚ)
  | _ => ⊤

/-- Whether `a` may stand before `b` in a view sorted by `cfg`: `a[key] <= b[key]` when
ascending, `a[key] >= b[key]` when descending. -/
def inOrder (cfg : SortConfig) (a b : Expense) : Bool :=
  match cfg.direction with
  | .asc => !keyLt cfg.key b a
  | .desc => !keyLt cfg.key a b

/-- Whether two records have equal sort keys: neither is below the other. -/
def sameKey (key : SortKey) (a b : Expense) : Bool := !keyLt key a b && !keyLt key b a

/-- The key of `a` is at most the key of `b`: dates in the order of strings, amounts in the
order of the rationals with `+Infinity` on top. -/
def keyLe (key : SortKey) (a b : Expense) : Prop :=
  match key with
  | .date => a.date ≤ b.date
  | .amount => a.amount.toExtended ≤ b.amount.toExtended

/-- Whether the keys of `a` and `b` are equal: the same date string, the same amount. -/
def keyEq (key : SortKey) (a b : Expense) : Bool :=
  match key with
  | .date => decide (a.date = b.date)
  | .amount => decide (a.amount = b.amount)

/-- The pair `a`, `b` is in the order of the sort configuration: keys non-decreasing when
ascending, non-increasing when descending. -/
def ordered (cfg : SortConfig) (a b : Expense) : Prop :=
  match cfg.direction with
  | .asc => keyLe cfg.key a b
  | .desc => keyLe cfg.key b a

/-- A text that is empty or starts with white space. -/
def startsBlank (w : List Char) : Prop := ∀ c ∈ w.head?, isWhiteSpace c = true

/-- Whether an amount text is not a `0x`, `0o` or `0b` integer literal. -/
def decimalText (a : String) : Bool := (nonDecimalLiteral (trimChars a.toList)).isNone

/-- Whether every amount text typed in a session is not a `0x`, `0o` or `0b` integer
literal, as is every value of an `<input type="number">`. -/
def numberInputs (events : List (Nat × Action)) : Bool :=
  events.all (fun e =>
    match e.2 with
    | .changeAmount v => decimalText v
    | .submitEdit _ a _ => decimalText a
    | _ => true)

/-- The ledger invariant: every amount is above `0` and no description is blank. -/
def validLedger (l : List Expense) : Bool :=
  l.all (fun e => JSNum.gt e.amount (JSNum.fin 0) && decide (trim e.description ≠ ""))

/-- The ids of a ledger, in ledger order. -/
def idsOf (l : List Expense) : List Nat := l.map (fun e => e.id)

/-- Whether an action is a submit of the add form. -/
def isSubmitAdd : Action → Bool
  | .submitAdd _ => true
  | _ => false

/-- The clock readings at which the add form is submitted, in order. -/
def addClockReadings (events : List (Nat × Action)) : List Nat :=
  (events.filter (fun e => isSubmitAdd e.2)).map (fun e => e.1)

/-- The seed record "Gasoline". -/
def gasoline : Expense :=
  { id := 6, description := "Gasoline", amount := .ofRat 45.10, category := "transport",
    date := "2023-10-21T08:00:00Z" }

/-- The unit roundoff of binary64, `2 ^ (-53)`. -/
def JSNum.unitRoundoff : ℚ := 1 / 2 ^ 53

/-- Half the spacing of the smallest binary64 values, `2 ^ (-1075)`. -/
def JSNum.halfSpacing : ℚ := 1 / 2 ^ 1075

/-- Whether a rational is an integer multiple of `2 ^ (-1074)`, as every finite binary64
value is. -/
def JSNum.onGrid (q : ℚ) : Bool := decide ((q * 2 ^ 1074).den = 1)

/-- Whether a number is `+Infinity` or a finite value that is not negative. -/
def JSNum.isNonneg : JSNum → Bool
  | .posInf => true
  | .fin q => decide (0 ≤ q)
  | _ => false

/-- Whether a number, when finite, is an integer multiple of `2 ^ (-1074)`. -/
def JSNum.isBinary : JSNum → Bool
  | .fin q => JSNum.onGrid q
  | _ => true

/-- Every amount of the ledger is `+Infinity` or a finite binary64 value that is not
negative. -/
def nonnegAmounts (l : List Expense) : Bool :=
  l.all (fun e => e.amount.isNonneg && e.amount.isBinary)

/-- The exact sum of the finite amounts of a ledger, with no rounding. -/
def exactTotal (l : List Expense) : ℚ := (l.map (fun e => e.amount.toRat)).sum

/-- A number is finite and within `k` roundings of the rational `q`: it lies between
`(1 - 2 ^ (-53)) ^ k * q` and `(1 + 2 ^ (-53)) ^ k * q`. -/
def JSNum.within (k : Nat) (x : JSNum) (q : ℚ) : Prop :=
  ∃ r : ℚ, x = JSNum.fin r ∧ (1 - JSNum.unitRoundoff) ^ k * q ≤ r ∧
    r ≤ (1 + JSNum.unitRoundoff) ^ k * q

/-- The widest gap between two numbers that are both within `k` roundings of the same
rational `1`: `(1 + 2 ^ (-53)) ^ k - (1 - 2 ^ (-53)) ^ k`, about `k * 2.2e-16`. -/
def JSNum.roundingSlack (k : Nat) : ℚ :=
  (1 + JSNum.unitRoundoff) ^ k - (1 - JSNum.unitRoundoff) ^ k

/-! ## Rounding to binary64 -/

theorem JSNum.ofRat_zero : JSNum.ofRat 0 = JSNum.fin 0 := by
  simp [JSNum.ofRat]

/-- Rounding at work: a tie goes to the even significand, the largest finite value is
`2 ^ 1024 - 2 ^ 971`, half a unit above it overflows, values below the normal range keep
the spacing `2 ^ (-1074)`, and a tie at half that spacing goes to `0`. -/
theorem JSNum.ofRat_values :
    JSNum.ofRat (2 ^ 53 + 1) = JSNum.fin (2 ^ 53) ∧
    JSNum.ofRat (2 ^ 53 + 3) = JSNum.fin (2 ^ 53 + 4) ∧
    JSNum.ofRat (2 ^ 1024 - 2 ^ 970 - 1) = JSNum.fin (2 ^ 1024 - 2 ^ 971) ∧
    JSNum.ofRat (2 ^ 1024 - 2 ^ 970) = JSNum.posInf ∧
    JSNum.ofRat (-(2 ^ 1024)) = JSNum.negInf ∧
    JSNum.ofRat (3 / 2 ^ 1075) = JSNum.fin (2 / 2 ^ 1074) ∧
    JSNum.ofRat (1 / 2 ^ 1075) = JSNum.fin 0 ∧
    JSNum.ofRat (1 / 10) = JSNum.fin (3602879701896397 / 36028797018963968) ∧
    JSNum.add (JSNum.ofRat 0.1) (JSNum.ofRat 0.2) = JSNum.ofRat 0.30000000000000004 ∧
    JSNum.add (JSNum.ofRat 0.1) (JSNum.ofRat 0.2) ≠ JSNum.ofRat 0.3 := by
  decide!

theorem JSNum.log2Aux_spec : ∀ (fuel n : Nat), n ≤ fuel → n ≠ 0 →
    2 ^ log2Aux fuel n ≤ n ∧ n < 2 ^ (log2Aux fuel n + 1)
  | 0, n, h, h0 => by omega
  | fuel + 1, n, h, h0 => by
    unfold log2Aux
    split_ifs with h2
    · have ih := JSNum.log2Aux_spec fuel (n / 2) (by omega) (by omega)
      simp only [pow_succ] at ih ⊢
      generalize 2 ^ log2Aux fuel (n / 2) = p at ih ⊢
      omega
    · simp
      omega

theorem JSNum.log2_spec (n : Nat) (h0 : n ≠ 0) : 2 ^ log2 n ≤ n ∧ n < 2 ^ (log2 n + 1) :=
  JSNum.log2Aux_spec n n le_rfl h0

theorem JSNum.binade_spec (q : ℚ) (hq : 0 < q) :
    (2 : ℚ) ^ binade q ≤ q ∧ q < (2 : ℚ) ^ (binade q + 1) := by
  have hnum : 0 < q.num := Rat.num_pos.mpr hq
  have hn0 : q.num.natAbs ≠ 0 := by omega
  have hd0 : q.den ≠ 0 := q.den_nz
  obtain ⟨ha1, ha2⟩ := JSNum.log2_spec q.num.natAbs hn0
  obtain ⟨hb1, hb2⟩ := JSNum.log2_spec q.den hd0
  have hqd : q * (q.den : ℚ) = (q.num.natAbs : ℚ) := by
    have h2 : (q.num.natAbs : ℚ) = (q.num : ℚ) := by
      rw [Nat.cast_natAbs, abs_of_pos hnum]
    rw [h2]
    exact Rat.mul_den_eq_num q
  have ha1q : (2 : ℚ) ^ log2 q.num.natAbs ≤ (q.num.natAbs : ℚ) := by exact_mod_cast ha1
  have ha2q : (q.num.natAbs : ℚ) < (2 : ℚ) ^ (log2 q.num.natAbs + 1) := by exact_mod_cast ha2
  have hb1q : (2 : ℚ) ^ log2 q.den ≤ (q.den : ℚ) := by exact_mod_cast hb1
  have hb2q : (q.den : ℚ) < (2 : ℚ) ^ (log2 q.den + 1) := by exact_mod_cast hb2
  have hE : (2 : ℚ) ^ ((log2 q.num.natAbs : ℤ) - (log2 q.den : ℤ))
      = (2 : ℚ) ^ log2 q.num.natAbs / (2 : ℚ) ^ log2 q.den := by
    rw [zpow_sub₀ (by norm_num), zpow_natCast, zpow_natCast]
  have hA : (0 : ℚ) < (2 : ℚ) ^ log2 q.num.natAbs := by positivity
  have hB : (0 : ℚ) < (2 : ℚ) ^ log2 q.den := by positivity
  -- q < 2 E and E / 2 < q
  have hup : q < 2 * ((2 : ℚ) ^ log2 q.num.natAbs / (2 : ℚ) ^ log2 q.den) := by
    rw [← mul_div_assoc, lt_div_iff₀ hB]
    calc q * (2 : ℚ) ^ log2 q.den ≤ q * (q.den : ℚ) := by
          exact mul_le_mul_of_nonneg_left hb1q hq.le
      _ = (q.num.natAbs : ℚ) := hqd
      _ < (2 : ℚ) ^ (log2 q.num.natAbs + 1) := ha2q
      _ = 2 * (2 : ℚ) ^ log2 q.num.natAbs := by rw [pow_succ]; ring
  have hlo : ((2 : ℚ) ^ log2 q.num.natAbs / (2 : ℚ) ^ log2 q.den) / 2 < q := by
    rw [div_div, div_lt_iff₀ (by positivity)]
    calc (2 : ℚ) ^ log2 q.num.natAbs ≤ (q.num.natAbs : ℚ) := ha1q
      _ = q * (q.den : ℚ) := hqd.symm
      _ < q * ((2 : ℚ) ^ (log2 q.den + 1)) := by
          exact mul_lt_mul_of_pos_left hb2q hq
      _ = q * ((2 : ℚ) ^ log2 q.den * 2) := by rw [pow_succ]
  unfold binade
  split_ifs with h
  · refine ⟨h, ?_⟩
    rw [zpow_add_one₀ (by norm_num), hE]
    linarith
  · constructor
    · rw [zpow_sub_one₀ (by norm_num), hE]
      have : ((2 : ℚ) ^ log2 q.num.natAbs / (2 : ℚ) ^ log2 q.den) * 2⁻¹
          = ((2 : ℚ) ^ log2 q.num.natAbs / (2 : ℚ) ^ log2 q.den) / 2 := by ring
      rw [this]
      exact hlo.le
    · rw [sub_add_cancel]
      exact not_le.mp h

theorem JSNum.roundHalfEven_error (q : ℚ) : |(roundHalfEven q : ℚ) - q| ≤ 1 / 2 := by
  have h1 := Int.floor_le q
  have h2 := Int.lt_floor_add_one q
  unfold roundHalfEven
  split_ifs with a b c
  · rw [abs_le]; constructor <;> linarith
  · rw [abs_le]; push_cast; constructor <;> linarith
  · rw [abs_le]; constructor <;> linarith
  · rw [abs_le]; push_cast; constructor <;> linarith

theorem JSNum.roundHalfEven_intCast (n : ℤ) : roundHalfEven (n : ℚ) = n := by
  unfold roundHalfEven
  simp

theorem JSNum.roundHalfEven_nonneg (q : ℚ) (hq : 0 ≤ q) : 0 ≤ roundHalfEven q := by
  have h0 : 0 ≤ ⌊q⌋ := Int.floor_nonneg.mpr hq
  unfold roundHalfEven
  split_ifs <;> omega

theorem JSNum.onGrid_iff (q : ℚ) : onGrid q = true ↔ ∃ k : ℤ, q = k * (2 : ℚ) ^ (-1074 : ℤ) := by
  unfold onGrid
  rw [decide_eq_true_iff, Rat.den_eq_one_iff]
  constructor
  · intro h
    refine ⟨(q * 2 ^ 1074).num, ?_⟩
    rw [h, zpow_neg, mul_assoc]
    have : ((2 : ℚ) ^ 1074) * ((2 : ℚ) ^ (1074 : ℤ))⁻¹ = 1 := by
      rw [zpow_ofNat]
      exact mul_inv_cancel₀ (by positivity)
    rw [this, mul_one]
  · rintro ⟨k, rfl⟩
    have : (k : ℚ) * (2 : ℚ) ^ (-1074 : ℤ) * 2 ^ 1074 = k := by
      rw [zpow_neg, mul_assoc, zpow_ofNat]
      rw [inv_mul_cancel₀ (by positivity), mul_one]
    rw [this]
    simp

theorem JSNum.ulpExponent_ge (q : ℚ) : -1074 ≤ ulpExponent q := by
  unfold ulpExponent
  have := le_max_right (binade q) (-1022)
  omega

theorem JSNum.roundMagnitude_error (q : ℚ) :
    |roundMagnitude q - q| ≤ (2 : ℚ) ^ ulpExponent q / 2 := by
  have hp : (0 : ℚ) < (2 : ℚ) ^ ulpExponent q := by positivity
  have h := JSNum.roundHalfEven_error (q / 2 ^ ulpExponent q)
  unfold roundMagnitude
  have e : (roundHalfEven (q / 2 ^ ulpExponent q) : ℚ) * 2 ^ ulpExponent q - q
      = ((roundHalfEven (q / 2 ^ ulpExponent q) : ℚ) - q / 2 ^ ulpExponent q)
        * 2 ^ ulpExponent q := by
    field_simp
  rw [e, abs_mul, abs_of_pos hp]
  calc |(roundHalfEven (q / 2 ^ ulpExponent q) : ℚ) - q / 2 ^ ulpExponent q| * 2 ^ ulpExponent q
      ≤ 1 / 2 * 2 ^ ulpExponent q := mul_le_mul_of_nonneg_right h hp.le
    _ = 2 ^ ulpExponent q / 2 := by ring

theorem JSNum.roundMagnitude_nonneg (q : ℚ) (hq : 0 ≤ q) : 0 ≤ roundMagnitude q := by
  unfold roundMagnitude
  have hp : (0 : ℚ) < (2 : ℚ) ^ ulpExponent q := by positivity
  have h := JSNum.roundHalfEven_nonneg (q / 2 ^ ulpExponent q) (div_nonneg hq hp.le)
  have h2 : (0 : ℚ) ≤ (roundHalfEven (q / 2 ^ ulpExponent q) : ℚ) := by exact_mod_cast h
  exact mul_nonneg h2 hp.le

theorem JSNum.roundMagnitude_onGrid (q : ℚ) : onGrid (roundMagnitude q) = true := by
  rw [JSNum.onGrid_iff]
  have hge := JSNum.ulpExponent_ge q
  obtain ⟨n, hn⟩ : ∃ n : ℕ, ulpExponent q = (n : ℤ) + (-1074) :=
    ⟨(ulpExponent q + 1074).toNat, by omega⟩
  refine ⟨roundHalfEven (q / 2 ^ ulpExponent q) * 2 ^ n, ?_⟩
  unfold roundMagnitude
  rw [hn, zpow_add₀ (by norm_num), zpow_natCast]
  push_cast
  ring

/-- On a positive rational in the normal range the rounding error is at most the unit
roundoff times the value. -/
theorem JSNum.roundMagnitude_error_normal (q : ℚ) (hq : 0 < q)
    (hn : (2 : ℚ) ^ (-1022 : ℤ) ≤ q) : |roundMagnitude q - q| ≤ unitRoundoff * q := by
  obtain ⟨h1, h2⟩ := JSNum.binade_spec q hq
  have hb : -1022 ≤ binade q := by
    by_contra hlt
    push_neg at hlt
    have : binade q + 1 ≤ -1022 := by omega
    have := zpow_le_zpow_right₀ (by norm_num : (1 : ℚ) ≤ 2) this
    linarith
  have hu : ulpExponent q = binade q - 52 := by
    unfold ulpExponent
    rw [max_eq_left hb]
  have h := JSNum.roundMagnitude_error q
  rw [hu] at h
  have e : (2 : ℚ) ^ (binade q - 52) / 2 = unitRoundoff * 2 ^ binade q := by
    unfold unitRoundoff
    rw [zpow_sub₀ (by norm_num)]
    norm_num
    ring
  rw [e] at h
  have hu0 : (0 : ℚ) ≤ unitRoundoff := by unfold unitRoundoff; positivity
  exact h.trans (mul_le_mul_of_nonneg_left h1 hu0)

/-- Below the normal range a multiple of the spacing is a binary64 value: no error. -/
theorem JSNum.roundMagnitude_exact_subnormal (q : ℚ) (hq : 0 < q)
    (hs : q < (2 : ℚ) ^ (-1022 : ℤ)) (hg : onGrid q = true) : roundMagnitude q = q := by
  obtain ⟨h1, h2⟩ := JSNum.binade_spec q hq
  have hb : binade q ≤ -1022 := by
    by_contra hlt
    push_neg at hlt
    have := zpow_le_zpow_right₀ (by norm_num : (1 : ℚ) ≤ 2) hlt.le
    linarith
  have hu : ulpExponent q = -1074 := by
    unfold ulpExponent
    rw [max_eq_right hb]
    norm_num
  obtain ⟨k, hk⟩ := (JSNum.onGrid_iff q).mp hg
  unfold roundMagnitude
  rw [hu]
  have hp : (0 : ℚ) < (2 : ℚ) ^ (-1074 : ℤ) := by positivity
  have e : q / (2 : ℚ) ^ (-1074 : ℤ) = (k : ℚ) := by
    rw [hk]
    field_simp
  rw [e, JSNum.roundHalfEven_intCast, ← hk]

theorem JSNum.roundMagnitude_error_grid (q : ℚ) (hq : 0 < q) (hg : onGrid q = true) :
    |roundMagnitude q - q| ≤ unitRoundoff * q := by
  by_cases hn : (2 : ℚ) ^ (-1022 : ℤ) ≤ q
  · exact JSNum.roundMagnitude_error_normal q hq hn
  · rw [JSNum.roundMagnitude_exact_subnormal q hq (not_le.mp hn) hg]
    simp
    have hu0 : (0 : ℚ) ≤ unitRoundoff := by unfold unitRoundoff; positivity
    exact mul_nonneg hu0 hq.le

theorem JSNum.roundMagnitude_error_general (q : ℚ) (hq : 0 < q) :
    |roundMagnitude q - q| ≤ unitRoundoff * q + halfSpacing := by
  have hu0 : (0 : ℚ) ≤ unitRoundoff := by unfold unitRoundoff; positivity
  have hh0 : (0 : ℚ) ≤ halfSpacing := by unfold halfSpacing; positivity
  by_cases hn : (2 : ℚ) ^ (-1022 : ℤ) ≤ q
  · have := JSNum.roundMagnitude_error_normal q hq hn
    linarith
  · obtain ⟨h1, h2⟩ := JSNum.binade_spec q hq
    have hb : binade q ≤ -1022 := by
      by_contra hlt
      push_neg at hlt
      have := zpow_le_zpow_right₀ (by norm_num : (1 : ℚ) ≤ 2) hlt.le
      linarith
    have hu : ulpExponent q = -1074 := by
      unfold ulpExponent
      rw [max_eq_right hb]
      norm_num
    have h := JSNum.roundMagnitude_error q
    rw [hu] at h
    have e : (2 : ℚ) ^ (-1074 : ℤ) / 2 = halfSpacing := by
      unfold halfSpacing
      have h1 : (2 : ℚ) ^ (1074 + 1) = 2 ^ 1074 * 2 := pow_succ 2 1074
      have h2 : (2 : ℚ) ^ (-1074 : ℤ) = 1 / 2 ^ 1074 := by
        rw [zpow_neg, zpow_ofNat, one_div]
      rw [h2, div_div, ← h1]
    rw [e] at h
    have := mul_nonneg hu0 hq.le
    linarith

/-! ## Facts about dictionaries -/

theorem Obj.get_set_same {α : Type} (o : Obj α) (k : String) (v : α) :
    (o.set k v).get k = some v := by
  induction o with
  | nil => simp [Obj.set, Obj.get]
  | cons p rest ih =>
    obtain ⟨k1, v1⟩ := p
    by_cases h : k1 = k
    · simp [Obj.set, Obj.get, h]
    · simp [Obj.set, Obj.get, h, ih]

theorem Obj.get_set_other {α : Type} (o : Obj α) (k k2 : String) (v : α) (hne : k2 ≠ k) :
    (o.set k v).get k2 = o.get k2 := by
  induction o with
  | nil => simp [Obj.set, Obj.get, Ne.symm hne]
  | cons p rest ih =>
    obtain ⟨k1, v1⟩ := p
    by_cases h : k1 = k
    · subst h
      simp [Obj.set, Obj.get, Ne.symm hne]
    · by_cases h2 : k1 = k2
      · subst h2
        simp [Obj.set, Obj.get, h]
      · simp [Obj.set, Obj.get, h, h2, ih]

theorem Obj.set_set {α : Type} (o : Obj α) (k : String) (v w : α) :
    (o.set k v).set k w = o.set k w := by
  induction o with
  | nil => simp [Obj.set]
  | cons p rest ih =>
    obtain ⟨k1, v1⟩ := p
    by_cases h : k1 = k
    · simp [Obj.set, h]
    · simp [Obj.set, h, ih]

theorem Obj.get_eq_none_iff {α : Type} (o : Obj α) (k : String) :
    o.get k = none ↔ k ∉ o.keys := by
  induction o with
  | nil => simp [Obj.get, Obj.keys]
  | cons p rest ih =>
    obtain ⟨k1, v1⟩ := p
    by_cases h : k1 = k
    · simp [Obj.get, Obj.keys, h]
    · have h2 : ¬ k = k1 := fun e => h e.symm
      simp only [Obj.keys] at ih
      simp [Obj.get, Obj.keys, h, h2, ih]

theorem Obj.keys_set_of_mem {α : Type} (o : Obj α) (k : String) (v : α) (hk : k ∈ o.keys) :
    (o.set k v).keys = o.keys := by
  induction o with
  | nil => simp [Obj.keys] at hk
  | cons p rest ih =>
    obtain ⟨k1, v1⟩ := p
    by_cases h : k1 = k
    · simp [Obj.set, Obj.keys, h]
    · have h2 : ¬ k = k1 := fun e => h e.symm
      simp only [Obj.keys, List.map_cons, List.mem_cons, h2, false_or] at hk
      simp only [Obj.keys] at ih
      simp [Obj.set, Obj.keys, h, ih hk]

theorem Obj.keys_set_of_not_mem {α : Type} (o : Obj α) (k : String) (v : α)
    (hk : k ∉ o.keys) : (o.set k v).keys = o.keys ++ [k] := by
  induction o with
  | nil => simp [Obj.set, Obj.keys]
  | cons p rest ih =>
    obtain ⟨k1, v1⟩ := p
    simp only [Obj.keys, List.map_cons, List.mem_cons, not_or] at hk
    have h : ¬ k1 = k := fun e => hk.1 e.symm
    simp only [Obj.keys] at ih
    simp [Obj.set, Obj.keys, h, ih hk.2]

/-! ## Rounded sums -/

theorem JSNum.onGrid_zero : JSNum.onGrid 0 = true := by
  simp [JSNum.onGrid]

theorem JSNum.onGrid_neg (q : ℚ) : JSNum.onGrid (-q) = JSNum.onGrid q := by
  unfold JSNum.onGrid
  rw [neg_mul, Rat.neg_den]

theorem JSNum.onGrid_add {a b : ℚ} (ha : JSNum.onGrid a = true) (hb : JSNum.onGrid b = true) :
    JSNum.onGrid (a + b) = true := by
  rw [JSNum.onGrid_iff] at *
  obtain ⟨k, rfl⟩ := ha
  obtain ⟨m, rfl⟩ := hb
  exact ⟨k + m, by push_cast; ring⟩

theorem JSNum.unitRoundoff_pos : 0 < JSNum.unitRoundoff := by
  unfold JSNum.unitRoundoff
  positivity

theorem JSNum.unitRoundoff_lt_one : JSNum.unitRoundoff < 1 := by
  unfold JSNum.unitRoundoff
  rw [div_lt_one (by positivity)]
  exact one_lt_pow₀ (by norm_num) (by norm_num)

theorem JSNum.halfSpacing_pos : 0 < JSNum.halfSpacing := by
  unfold JSNum.halfSpacing
  positivity

/-- Rounding a rational that is not negative gives `+Infinity` or a finite value that is
not negative, on the grid, and close to the rational. -/
theorem JSNum.ofRat_of_nonneg (q : ℚ) (hq : 0 ≤ q) :
    JSNum.ofRat q = JSNum.posInf ∨
    ∃ r : ℚ, JSNum.ofRat q = JSNum.fin r ∧ 0 ≤ r ∧ JSNum.onGrid r = true ∧
      |r - q| ≤ JSNum.unitRoundoff * q + JSNum.halfSpacing ∧
      (JSNum.onGrid q = true → |r - q| ≤ JSNum.unitRoundoff * q) := by
  rcases hq.eq_or_lt with h0 | hpos
  · right
    subst h0
    exact ⟨0, JSNum.ofRat_zero, le_refl _, JSNum.onGrid_zero,
      by simpa using JSNum.halfSpacing_pos.le, fun _ => by simp⟩
  · unfold JSNum.ofRat
    rw [if_neg (ne_of_gt hpos), if_pos hpos]
    by_cases hlt : JSNum.roundMagnitude q < 2 ^ 1024
    · right
      rw [if_pos hlt]
      exact ⟨_, rfl, JSNum.roundMagnitude_nonneg q hpos.le, JSNum.roundMagnitude_onGrid q,
        JSNum.roundMagnitude_error_general q hpos,
        fun hg => JSNum.roundMagnitude_error_grid q hpos hg⟩
    · left
      rw [if_neg hlt]

theorem JSNum.ofRat_isBinary (q : ℚ) : (JSNum.ofRat q).isBinary = true := by
  unfold JSNum.ofRat
  split_ifs
  · exact JSNum.onGrid_zero
  · exact JSNum.roundMagnitude_onGrid q
  · rfl
  · show JSNum.onGrid (-JSNum.roundMagnitude (-q)) = true
    rw [JSNum.onGrid_neg]
    exact JSNum.roundMagnitude_onGrid (-q)
  · rfl

theorem JSNum.isNonneg_iff (x : JSNum) :
    x.isNonneg = true ↔ x = JSNum.posInf ∨ ∃ q : ℚ, x = JSNum.fin q ∧ 0 ≤ q := by
  cases x <;> simp [JSNum.isNonneg]

/-- The sum of two numbers that are not negative is not negative: it is never `NaN`. -/
theorem JSNum.isNonneg_add {x y : JSNum} (hx : x.isNonneg = true) (hy : y.isNonneg = true) :
    (JSNum.add x y).isNonneg = true := by
  rcases (JSNum.isNonneg_iff x).1 hx with rfl | ⟨a, rfl, ha⟩ <;>
    rcases (JSNum.isNonneg_iff y).1 hy with rfl | ⟨b, rfl, hb⟩
  · rfl
  · rfl
  · rfl
  · show (JSNum.ofRat (a + b)).isNonneg = true
    rcases JSNum.ofRat_of_nonneg (a + b) (add_nonneg ha hb) with h | ⟨r, h, hr, _⟩
    · rw [h]; rfl
    · rw [h]; simpa [JSNum.isNonneg] using hr

theorem JSNum.isBinary_add (x y : JSNum) : (JSNum.add x y).isBinary = true := by
  cases x <;> cases y <;> first | rfl | exact JSNum.ofRat_isBinary _

theorem JSNum.within_mono {k m : Nat} {x : JSNum} {q : ℚ} (h : JSNum.within k x q)
    (hkm : k ≤ m) (hq : 0 ≤ q) : JSNum.within m x q := by
  obtain ⟨r, hx, h1, h2⟩ := h
  have hu := JSNum.unitRoundoff_pos
  have hu1 := JSNum.unitRoundoff_lt_one
  refine ⟨r, hx, le_trans ?_ h1, le_trans h2 ?_⟩
  · apply mul_le_mul_of_nonneg_right _ hq
    exact pow_le_pow_of_le_one (by linarith) (by linarith) hkm
  · apply mul_le_mul_of_nonneg_right _ hq
    exact pow_le_pow_right₀ (by linarith) hkm

theorem JSNum.within_self (a : ℚ) : JSNum.within 0 (JSNum.fin a) a :=
  ⟨a, rfl, by simp, by simp⟩

/-- Adding a number that is not negative to `+Infinity` gives `+Infinity`. -/
theorem JSNum.foldl_add_posInf (ys : List JSNum) (h : ∀ y ∈ ys, y.isNonneg = true) :
    ys.foldl JSNum.add JSNum.posInf = JSNum.posInf := by
  induction ys with
  | nil => rfl
  | cons y ys ih =>
    have hy := h y (List.mem_cons_self _ _)
    have hstep : JSNum.add JSNum.posInf y = JSNum.posInf := by
      rcases (JSNum.isNonneg_iff y).1 hy with rfl | ⟨a, rfl, _⟩ <;> rfl
    rw [List.foldl_cons, hstep]
    exact ih (fun z hz => h z (List.mem_cons_of_mem _ hz))

/-- One rounded addition of two finite values on the grid, neither negative: the sum stays
within one more rounding of the exact values. -/
theorem JSNum.add_within {K j : Nat} {s a Q q : ℚ} (hQ : 0 ≤ Q) (hq : 0 ≤ q)
    (hs : JSNum.within (K + j) (JSNum.fin s) Q) (hsg : JSNum.onGrid s = true)
    (ha : JSNum.within K (JSNum.fin a) q) (hag : JSNum.onGrid a = true) :
    JSNum.add (JSNum.fin s) (JSNum.fin a) = JSNum.posInf ∨
    ∃ r : ℚ, JSNum.add (JSNum.fin s) (JSNum.fin a) = JSNum.fin r ∧ JSNum.onGrid r = true ∧
      JSNum.within (K + (j + 1)) (JSNum.fin r) (Q + q) := by
  have hu := JSNum.unitRoundoff_pos
  have hu1 := JSNum.unitRoundoff_lt_one
  obtain ⟨s', hs', hs1, hs2⟩ := hs
  obtain ⟨a', ha', ha1, ha2⟩ := ha
  simp only [JSNum.fin.injEq] at hs' ha'
  subst hs' ha'
  have hm0 : (0 : ℚ) ≤ (1 - JSNum.unitRoundoff) ^ (K + j) := pow_nonneg (by linarith) _
  have hmK : (0 : ℚ) ≤ (1 - JSNum.unitRoundoff) ^ K := pow_nonneg (by linarith) _
  have hs0 : 0 ≤ s := le_trans (mul_nonneg hm0 hQ) hs1
  have ha0 : 0 ≤ a := le_trans (mul_nonneg hmK hq) ha1
  have hlow : (1 - JSNum.unitRoundoff) ^ (K + j) * q ≤ a := by
    refine le_trans ?_ ha1
    apply mul_le_mul_of_nonneg_right _ hq
    exact pow_le_pow_of_le_one (by linarith) (by linarith) (Nat.le_add_right K j)
  have hup : a ≤ (1 + JSNum.unitRoundoff) ^ (K + j) * q := by
    refine le_trans ha2 ?_
    apply mul_le_mul_of_nonneg_right _ hq
    exact pow_le_pow_right₀ (by linarith) (Nat.le_add_right K j)
  show JSNum.ofRat (s + a) = JSNum.posInf ∨ _
  rcases JSNum.ofRat_of_nonneg (s + a) (add_nonneg hs0 ha0) with h | ⟨r, h, hr, hrg, _, herr⟩
  · exact Or.inl h
  · right
    have he := herr (JSNum.onGrid_add hsg hag)
    rw [abs_le] at he
    refine ⟨r, h, hrg, r, rfl, ?_, ?_⟩
    · have e : (1 - JSNum.unitRoundoff) ^ (K + (j + 1)) * (Q + q)
          = (1 - JSNum.unitRoundoff) * ((1 - JSNum.unitRoundoff) ^ (K + j) * Q
            + (1 - JSNum.unitRoundoff) ^ (K + j) * q) := by
        rw [← add_assoc, pow_succ]
        ring
      rw [e]
      have h1 : (1 - JSNum.unitRoundoff) * ((1 - JSNum.unitRoundoff) ^ (K + j) * Q
            + (1 - JSNum.unitRoundoff) ^ (K + j) * q) ≤ (1 - JSNum.unitRoundoff) * (s + a) :=
        mul_le_mul_of_nonneg_left (add_le_add hs1 hlow) (by linarith)
      linarith [he.1]
    · have e : (1 + JSNum.unitRoundoff) ^ (K + (j + 1)) * (Q + q)
          = (1 + JSNum.unitRoundoff) * ((1 + JSNum.unitRoundoff) ^ (K + j) * Q
            + (1 + JSNum.unitRoundoff) ^ (K + j) * q) := by
        rw [← add_assoc, pow_succ]
        ring
      rw [e]
      have h1 : (1 + JSNum.unitRoundoff) * (s + a) ≤ (1 + JSNum.unitRoundoff)
          * ((1 + JSNum.unitRoundoff) ^ (K + j) * Q + (1 + JSNum.unitRoundoff) ^ (K + j) * q) :=
        mul_le_mul_of_nonneg_left (add_le_add hs2 hup) (by linarith)
      linarith [he.2]

theorem JSNum.isNonneg_of_within {K : Nat} {y : JSNum} {q : ℚ} (hq : 0 ≤ q)
    (h : y = JSNum.posInf ∨ JSNum.within K y q) : y.isNonneg = true := by
  rcases h with rfl | ⟨r, rfl, h1, _⟩
  · rfl
  · have hu1 := JSNum.unitRoundoff_lt_one
    have : (0 : ℚ) ≤ (1 - JSNum.unitRoundoff) ^ K := pow_nonneg (by linarith) _
    simpa [JSNum.isNonneg] using le_trans (mul_nonneg this hq) h1

/-- A left-to-right rounded sum of numbers, each `+Infinity` or within `K` roundings of a
rational that is not negative: when the result is finite it is within `K + j + n` roundings
of the exact sum, `n` being the number of terms. -/
theorem JSNum.foldl_add_within {α : Type} (f : α → JSNum) (g : α → ℚ) (K : Nat) :
    ∀ (xs : List α) (acc : JSNum) (Q : ℚ) (j : Nat),
      (∀ x ∈ xs, 0 ≤ g x ∧ (f x).isBinary = true ∧
        (f x = JSNum.posInf ∨ JSNum.within K (f x) (g x))) →
      0 ≤ Q → acc.isBinary = true → JSNum.within (K + j) acc Q →
      ∀ T : ℚ, xs.foldl (fun sum x => JSNum.add sum (f x)) acc = JSNum.fin T →
        JSNum.within (K + j + xs.length) (JSNum.fin T) (Q + (xs.map g).sum) ∧
        JSNum.onGrid T = true := by
  intro xs
  induction xs with
  | nil =>
    intro acc Q j _ hQ hbin hacc T hT
    simp only [List.foldl_nil] at hT
    subst hT
    exact ⟨by simpa using hacc, hbin⟩
  | cons x xs ih =>
    intro acc Q j hall hQ hbin hacc T hT
    obtain ⟨hq, hyb, hy⟩ := hall x (List.mem_cons_self _ _)
    have hrest : ∀ z ∈ xs, 0 ≤ g z ∧ (f z).isBinary = true ∧
        (f z = JSNum.posInf ∨ JSNum.within K (f z) (g z)) :=
      fun z hz => hall z (List.mem_cons_of_mem _ hz)
    have hnn : ∀ y ∈ xs.map f, y.isNonneg = true := by
      intro y hy2
      obtain ⟨z, hz, rfl⟩ := List.mem_map.1 hy2
      exact JSNum.isNonneg_of_within (hrest z hz).1 (hrest z hz).2.2
    have hinf : xs.foldl (fun sum x => JSNum.add sum (f x)) JSNum.posInf = JSNum.posInf := by
      have := JSNum.foldl_add_posInf (xs.map f) hnn
      rwa [List.foldl_map] at this
    obtain ⟨s, hs, hs1, hs2⟩ := hacc
    subst hs
    simp only [List.foldl_cons] at hT
    rcases hy with hyinf | hyw
    · rw [hyinf] at hT
      have : JSNum.add (JSNum.fin s) JSNum.posInf = JSNum.posInf := rfl
      rw [this, hinf] at hT
      exact absurd hT (by simp)
    · obtain ⟨a, hfa, ha1, ha2⟩ := hyw
      rw [hfa] at hT hyb
      rcases JSNum.add_within (K := K) (j := j) hQ hq ⟨s, rfl, hs1, hs2⟩ hbin
          ⟨a, rfl, ha1, ha2⟩ hyb with h | ⟨r, h, hrg, hw⟩
      · rw [h, hinf] at hT
        exact absurd hT (by simp)
      · rw [h] at hT
        have := ih (JSNum.fin r) (Q + g x) (j + 1) hrest (add_nonneg hQ hq) hrg hw T hT
        have e1 : K + (j + 1) + xs.length = K + j + (x :: xs).length := by
          simp only [List.length_cons]
          omega
        have e2 : Q + g x + (xs.map g).sum = Q + ((x :: xs).map g).sum := by
          simp only [List.map_cons, List.sum_cons]
          ring
        rw [e1, e2] at this
        exact this

/-- The total of a ledger of amounts that are not negative, when finite, is within `n`
roundings of the exact sum of the amounts, `n` being the number of records. -/
theorem totalOf_within (l : List Expense) (hnn : nonnegAmounts l = true) (T : ℚ)
    (hT : totalOf l = JSNum.fin T) :
    JSNum.within l.length (JSNum.fin T) (exactTotal l) ∧ JSNum.onGrid T = true := by
  have h := JSNum.foldl_add_within (fun e : Expense => e.amount) (fun e => e.amount.toRat) 0 l
    (JSNum.fin 0) 0 0 (by
      intro e he
      simp only [nonnegAmounts, List.all_eq_true, Bool.and_eq_true] at hnn
      obtain ⟨h1, h2⟩ := hnn e he
      show 0 ≤ e.amount.toRat ∧ e.amount.isBinary = true ∧
        (e.amount = JSNum.posInf ∨ JSNum.within 0 e.amount e.amount.toRat)
      rcases (JSNum.isNonneg_iff _).1 h1 with h | ⟨a, h, ha⟩
      · rw [h]
        exact ⟨le_refl _, rfl, Or.inl rfl⟩
      · rw [h]
        exact ⟨ha, by rw [h] at h2; exact h2, Or.inr (JSNum.within_self a)⟩)
    (le_refl _) JSNum.onGrid_zero ⟨0, rfl, by simp, by simp⟩ T hT
  simpa [exactTotal] using h

/-! ## Category totals -/

/-- On a dictionary whose entry for the category is not `NaN`, one step of the reducer
writes the old entry (or `0`) plus the amount. -/
theorem categoryStep_eq (acc : Obj JSNum) (e : Expense)
    (hacc : ∀ v, acc.get e.category = some v → v ≠ JSNum.nan) :
    categoryStep acc e
      = acc.set e.category (JSNum.add ((acc.get e.category).getD (JSNum.fin 0)) e.amount) := by
  unfold categoryStep
  cases hg : acc.get e.category with
  | none =>
    simp only [truthyProp, Bool.not_false, if_true, Obj.get_set_same, propToNumber,
      Obj.set_set, Option.getD_none]
  | some v =>
    have hv := hacc v hg
    cases v with
    | nan => exact absurd rfl hv
    | negInf =>
      simp only [truthyProp, JSNum.truthy, Bool.not_true, Bool.false_eq_true, if_false, hg,
        propToNumber, Option.getD_some]
    | posInf =>
      simp only [truthyProp, JSNum.truthy, Bool.not_true, Bool.false_eq_true, if_false, hg,
        propToNumber, Option.getD_some]
    | fin q =>
      by_cases hq : q = 0
      · subst hq
        simp only [truthyProp, JSNum.truthy, ne_eq, not_true_eq_false, decide_False,
          Bool.not_false, if_true, Obj.get_set_same, propToNumber, Obj.set_set,
          Option.getD_some]
      · simp only [truthyProp, JSNum.truthy, ne_eq, hq, not_false_eq_true, decide_True,
          Bool.not_true, Bool.false_eq_true, if_false, hg, propToNumber, Option.getD_some]

theorem categoryStep_get (acc : Obj JSNum) (e : Expense)
    (hacc : ∀ v, acc.get e.category = some v → v ≠ JSNum.nan) (c : String) :
    (categoryStep acc e).get c =
      if c = e.category then some (JSNum.add ((acc.get c).getD (JSNum.fin 0)) e.amount)
      else acc.get c := by
  rw [categoryStep_eq acc e hacc]
  by_cases hc : c = e.category
  · subst hc
    simp [Obj.get_set_same]
  · simp [Obj.get_set_other _ _ _ _ hc, hc]

theorem categoryStep_keys (acc : Obj JSNum) (e : Expense)
    (hacc : ∀ v, acc.get e.category = some v → v ≠ JSNum.nan) :
    (categoryStep acc e).keys =
      if e.category ∈ acc.keys then acc.keys else acc.keys ++ [e.category] := by
  rw [categoryStep_eq acc e hacc]
  by_cases hk : e.category ∈ acc.keys
  · simp [hk, Obj.keys_set_of_mem _ _ _ hk]
  · simp [hk, Obj.keys_set_of_not_mem _ _ _ hk]

theorem JSNum.ne_nan_of_isNonneg {v : JSNum} (h : v.isNonneg = true) : v ≠ JSNum.nan := by
  intro hv
  rw [hv] at h
  exact absurd h (by decide)

theorem nonnegAmounts_cons (e : Expense) (l : List Expense) :
    nonnegAmounts (e :: l) = true ↔
      (e.amount.isNonneg = true ∧ e.amount.isBinary = true) ∧ nonnegAmounts l = true := by
  simp [nonnegAmounts]

theorem nonnegAmounts_filter (p : Expense → Bool) (l : List Expense)
    (h : nonnegAmounts l = true) : nonnegAmounts (l.filter p) = true := by
  simp only [nonnegAmounts, List.all_eq_true, List.mem_filter] at *
  exact fun e he => h e he.1

/-- What the accumulation of `categoryTotals` does to a dictionary whose entries are not
negative, on a ledger whose amounts are not negative. -/
theorem foldl_categoryStep_spec (l : List Expense) :
    ∀ acc : Obj JSNum, (∀ k v, acc.get k = some v → v.isNonneg = true) →
      (∀ e ∈ l, e.amount.isNonneg = true) →
      (∀ k v, (l.foldl categoryStep acc).get k = some v → v.isNonneg = true) ∧
      (∀ c, (l.foldl categoryStep acc).get c =
        if c ∈ l.map (fun e => e.category) then
          some ((recordsOfCategory c l).foldl (fun sum e => JSNum.add sum e.amount)
            ((acc.get c).getD (JSNum.fin 0)))
        else acc.get c) ∧
      (acc.keys.Nodup → (l.foldl categoryStep acc).keys.Nodup) := by
  induction l with
  | nil =>
    intro acc hacc _
    refine ⟨by simpa using hacc, by simp, by simp⟩
  | cons x xs ih =>
    intro acc hacc hnn
    have hx := hnn x (List.mem_cons_self _ _)
    have hxs : ∀ e ∈ xs, e.amount.isNonneg = true :=
      fun e he => hnn e (List.mem_cons_of_mem _ he)
    have hnan : ∀ v, acc.get x.category = some v → v ≠ JSNum.nan :=
      fun v hv => JSNum.ne_nan_of_isNonneg (hacc _ v hv)
    have hstep : ∀ k v, (categoryStep acc x).get k = some v → v.isNonneg = true := by
      intro k v hk
      rw [categoryStep_get acc x hnan] at hk
      by_cases hkc : k = x.category
      · simp only [hkc, if_true, Option.some.injEq] at hk
        rw [← hk]
        refine JSNum.isNonneg_add ?_ hx
        cases hg : acc.get x.category with
        | none => rfl
        | some w => exact hacc _ _ hg
      · simp only [hkc, if_false] at hk
        exact hacc _ _ hk
    obtain ⟨h1, h3, h4⟩ := ih (categoryStep acc x) hstep hxs
    simp only [List.foldl_cons]
    refine ⟨h1, ?_, ?_⟩
    · intro c
      rw [h3 c, categoryStep_get acc x hnan]
      by_cases hcx : c = x.category
      · subst hcx
        have hS : recordsOfCategory x.category (x :: xs)
            = x :: recordsOfCategory x.category xs := by
          simp [recordsOfCategory, List.filter_cons]
        have hin : x.category ∈ (x :: xs).map (fun e => e.category) := by simp
        rw [if_pos hin, hS, if_pos rfl, Option.getD_some, List.foldl_cons]
        by_cases hmem : x.category ∈ xs.map (fun e => e.category)
        · rw [if_pos hmem]
        · have hnone : recordsOfCategory x.category xs = [] := by
            simp only [recordsOfCategory, List.filter_eq_nil_iff, decide_eq_true_eq]
            intro e he hec
            exact hmem (List.mem_map.2 ⟨e, he, hec⟩)
          rw [if_neg hmem, hnone]
          simp
      · have hxc : ¬ x.category = c := fun e => hcx e.symm
        have hS : recordsOfCategory c (x :: xs) = recordsOfCategory c xs := by
          simp [recordsOfCategory, List.filter_cons, hxc]
        have hin : c ∈ (x :: xs).map (fun e => e.category) ↔ c ∈ xs.map (fun e => e.category) := by
          simp [hcx]
        rw [hS, if_neg hcx]
        by_cases hmem : c ∈ xs.map (fun e => e.category)
        · rw [if_pos hmem, if_pos (hin.2 hmem)]
        · rw [if_neg hmem, if_neg (fun h => hmem (hin.1 h))]
    · intro hnd
      apply h4
      rw [categoryStep_keys acc x hnan]
      by_cases hk : x.category ∈ acc.keys
      · simpa [hk] using hnd
      · simp only [hk, if_false]
        exact List.Nodup.append hnd (List.nodup_singleton _) (by simpa using hk)

theorem nonnegAmounts_isNonneg (l : List Expense) (h : nonnegAmounts l = true) :
    ∀ e ∈ l, e.amount.isNonneg = true := by
  simp only [nonnegAmounts, List.all_eq_true, Bool.and_eq_true] at h
  exact fun e he => (h e he).1

/-- The keys of `categoryTotals` are the categories present, each once, and the value at a
key is the total of the records of that category, added in ledger order. -/
theorem categoryTotalsOf_spec (l : List Expense) (hnn : nonnegAmounts l = true) :
    (categoryTotalsOf l).keys.Nodup ∧
    (∀ c, c ∈ (categoryTotalsOf l).keys ↔ ∃ e ∈ l, e.category = c) ∧
    (∀ c, c ∈ (categoryTotalsOf l).keys →
      (categoryTotalsOf l).get c = some (totalOf (recordsOfCategory c l))) := by
  obtain ⟨_, h3, h4⟩ :=
    foldl_categoryStep_spec l [] (by intro k v h; simp [Obj.get] at h)
      (nonnegAmounts_isNonneg l hnn)
  have hkeys : ∀ c, c ∈ (categoryTotalsOf l).keys ↔ ∃ e ∈ l, e.category = c := by
    intro c
    have hg := h3 c
    constructor
    · intro hc
      by_contra hne
      have hnm : c ∉ l.map (fun e => e.category) := by
        intro hm
        obtain ⟨e, he, hec⟩ := List.mem_map.1 hm
        exact hne ⟨e, he, hec⟩
      rw [if_neg hnm] at hg
      exact (Obj.get_eq_none_iff _ c).1 (by simpa [Obj.get] using hg) hc
    · rintro ⟨e, he, hec⟩
      have hm : c ∈ l.map (fun e => e.category) := List.mem_map.2 ⟨e, he, hec⟩
      rw [if_pos hm] at hg
      by_contra hc
      have := (Obj.get_eq_none_iff _ c).2 hc
      simp [categoryTotalsOf, hg] at this
  refine ⟨h4 (by simp [Obj.keys]), hkeys, ?_⟩
  intro c hc
  obtain ⟨e, he, hec⟩ := (hkeys c).1 hc
  have hm : c ∈ l.map (fun e => e.category) := List.mem_map.2 ⟨e, he, hec⟩
  have hg := h3 c
  rw [if_pos hm] at hg
  simpa [categoryTotalsOf, Obj.get, totalOf] using hg

/-- The values of a dictionary with distinct keys are what its keys read. -/
theorem Obj.values_eq_map_keys {α : Type} (o : Obj α) (d : α) (hnd : o.keys.Nodup) :
    o.values = o.keys.map (fun k => (o.get k).getD d) := by
  induction o with
  | nil => rfl
  | cons p rest ih =>
    obtain ⟨k1, v1⟩ := p
    simp only [Obj.keys, List.map_cons, List.nodup_cons] at hnd
    simp only [Obj.values, Obj.keys, List.map_cons, Obj.get, if_true, Option.getD_some,
      List.map_map, List.cons.injEq, true_and]
    simp only [Obj.values, Obj.keys, List.map_map] at ih
    rw [ih hnd.2]
    apply List.map_congr_left
    intro p hp
    have hne : ¬ k1 = p.1 := by
      intro h
      exact hnd.1 (List.mem_map.2 ⟨p, hp, h.symm⟩)
    simp [Function.comp, hne]

/-- Each amount is counted under exactly one key of a list of distinct keys that holds
every category of the ledger. -/
theorem exactTotal_regroup (keys : List String) (hnd : keys.Nodup) (l : List Expense)
    (hall : ∀ e ∈ l, e.category ∈ keys) :
    (keys.map (fun k => exactTotal (recordsOfCategory k l))).sum = exactTotal l := by
  induction l with
  | nil =>
    simp [exactTotal, recordsOfCategory]
  | cons x xs ih =>
    have ih2 := ih (fun e he => hall e (List.mem_cons_of_mem _ he))
    have hx := hall x (List.mem_cons_self _ _)
    have hsplit : ∀ k, exactTotal (recordsOfCategory k (x :: xs))
        = (if x.category = k then x.amount.toRat else 0) + exactTotal (recordsOfCategory k xs) := by
      intro k
      by_cases hk : x.category = k
      · simp [exactTotal, recordsOfCategory, List.filter_cons, hk]
      · simp [exactTotal, recordsOfCategory, List.filter_cons, hk]
    have hone : ∀ (ks : List String), ks.Nodup → x.category ∈ ks →
        (ks.map (fun k => if x.category = k then x.amount.toRat else 0)).sum = x.amount.toRat := by
      intro ks
      induction ks with
      | nil => intro _ h; simp at h
      | cons k ks ihk =>
        intro hnd2 hmem
        simp only [List.nodup_cons] at hnd2
        by_cases hk : x.category = k
        · have hzero : (ks.map (fun k => if x.category = k then x.amount.toRat else 0)).sum = 0 := by
            apply List.sum_eq_zero
            intro y hy
            obtain ⟨k2, hk2, rfl⟩ := List.mem_map.1 hy
            have : ¬ x.category = k2 := by
              intro h
              rw [hk] at h
              exact hnd2.1 (h ▸ hk2)
            simp [this]
          rw [List.map_cons, List.sum_cons, hzero, if_pos hk, add_zero]
        · have hmem2 : x.category ∈ ks := by
            rcases List.mem_cons.1 hmem with h | h
            · exact absurd h hk
            · exact h
          simp [hk, ihk hnd2.2 hmem2]
    simp only [hsplit]
    rw [List.sum_map_add, hone keys hnd hx, ih2]
    simp [exactTotal]

theorem JSNum.abs_sub_le_of_within {k : Nat} {T V q : ℚ}
    (hT : JSNum.within k (JSNum.fin T) q) (hV : JSNum.within k (JSNum.fin V) q) :
    |T - V| ≤ JSNum.roundingSlack k * q := by
  obtain ⟨t, ht, ht1, ht2⟩ := hT
  obtain ⟨v, hv, hv1, hv2⟩ := hV
  simp only [JSNum.fin.injEq] at ht hv
  subst ht hv
  unfold JSNum.roundingSlack
  rw [abs_le]
  constructor <;> nlinarith

theorem exactTotal_nonneg (l : List Expense) (h : ∀ e ∈ l, e.amount.isNonneg = true) :
    0 ≤ exactTotal l := by
  unfold exactTotal
  apply List.sum_nonneg
  intro q hq
  obtain ⟨e, he, rfl⟩ := List.mem_map.1 hq
  rcases (JSNum.isNonneg_iff _).1 (h e he) with h1 | ⟨a, h1, ha⟩
  · rw [h1]; exact le_refl _
  · rw [h1]; exact ha

theorem foldl_add_isNonneg (l : List Expense) (h : ∀ e ∈ l, e.amount.isNonneg = true) :
    ∀ acc : JSNum, acc.isNonneg = true →
      (l.foldl (fun sum e => JSNum.add sum e.amount) acc).isNonneg = true := by
  induction l with
  | nil => intro acc hacc; exact hacc
  | cons x xs ih =>
    intro acc hacc
    exact ih (fun e he => h e (List.mem_cons_of_mem _ he)) _
      (JSNum.isNonneg_add hacc (h x (List.mem_cons_self _ _)))

theorem foldl_add_isBinary (l : List Expense) :
    ∀ acc : JSNum, acc.isBinary = true →
      (l.foldl (fun sum e => JSNum.add sum e.amount) acc).isBinary = true := by
  induction l with
  | nil => intro acc hacc; exact hacc
  | cons x xs ih =>
    intro acc _
    exact ih _ (JSNum.isBinary_add _ _)

theorem totalOf_isNonneg (l : List Expense) (h : ∀ e ∈ l, e.amount.isNonneg = true) :
    (totalOf l).isNonneg = true :=
  foldl_add_isNonneg l h (JSNum.fin 0) (by simp [JSNum.isNonneg])

theorem totalOf_isBinary (l : List Expense) : (totalOf l).isBinary = true :=
  foldl_add_isBinary l (JSNum.fin 0) JSNum.onGrid_zero

/-- The chart total is the rounded sum, in key order, of the category totals. -/
theorem chartTotal_categoryTotalsOf (l : List Expense) (hnn : nonnegAmounts l = true) :
    chartTotal (categoryTotalsOf l)
      = (categoryTotalsOf l).keys.foldl
          (fun sum k => JSNum.add sum (totalOf (recordsOfCategory k l))) (JSNum.fin 0) := by
  obtain ⟨hnd, _, hget⟩ := categoryTotalsOf_spec l hnn
  unfold chartTotal
  rw [Obj.values_eq_map_keys _ (JSNum.fin 0) hnd, List.foldl_map]
  apply List.foldl_ext
  intro acc k hk
  rw [hget k hk]
  rfl

/-- The chart total, when finite, is within `2 n` roundings of the exact sum of the `n`
amounts. -/
theorem chartTotal_within (l : List Expense) (hnn : nonnegAmounts l = true) (V : ℚ)
    (hV : chartTotal (categoryTotalsOf l) = JSNum.fin V) :
    JSNum.within (2 * l.length) (JSNum.fin V) (exactTotal l) ∧ JSNum.onGrid V = true := by
  obtain ⟨hnd, hkeys, _⟩ := categoryTotalsOf_spec l hnn
  have hpos := nonnegAmounts_isNonneg l hnn
  rw [chartTotal_categoryTotalsOf l hnn] at hV
  have h := JSNum.foldl_add_within (fun k => totalOf (recordsOfCategory k l))
    (fun k => exactTotal (recordsOfCategory k l)) l.length (categoryTotalsOf l).keys
    (JSNum.fin 0) 0 0 (by
      intro k _
      have hsub : ∀ e ∈ recordsOfCategory k l, e.amount.isNonneg = true :=
        fun e he => hpos e (List.mem_filter.1 he).1
      refine ⟨exactTotal_nonneg _ hsub, totalOf_isBinary _, ?_⟩
      rcases (JSNum.isNonneg_iff _).1 (totalOf_isNonneg _ hsub) with h | ⟨T, hT, _⟩
      · exact Or.inl h
      · right
        show JSNum.within l.length (totalOf (recordsOfCategory k l))
          (exactTotal (recordsOfCategory k l))
        rw [hT]
        have hw := (totalOf_within (recordsOfCategory k l)
          (nonnegAmounts_filter _ l hnn) T hT).1
        exact JSNum.within_mono hw (List.length_filter_le _ _) (exactTotal_nonneg _ hsub))
    (le_refl _) JSNum.onGrid_zero ⟨0, rfl, by simp, by simp⟩ V hV
  rw [zero_add, exactTotal_regroup _ hnd l (fun e he => (hkeys _).2 ⟨e, he, rfl⟩)] at h
  refine ⟨JSNum.within_mono h.1 ?_ (exactTotal_nonneg l hpos), h.2⟩
  have hlen : (categoryTotalsOf l).keys.length ≤ l.length := by
    have hsub : (categoryTotalsOf l).keys ⊆ l.map (fun e => e.category) := by
      intro c hc
      obtain ⟨e, he, hec⟩ := (hkeys c).1 hc
      exact List.mem_map.2 ⟨e, he, hec⟩
    have := (List.subperm_of_subset hnd hsub).length_le
    simpa using this
  omega

/-! ## The category chart -/

/-- Rounding a rational between `0` and `1000` gives a finite value, not negative and
close to the rational. -/
theorem JSNum.ofRat_of_small (q : ℚ) (h0 : 0 ≤ q) (h1 : q ≤ 1000) :
    ∃ r : ℚ, JSNum.ofRat q = JSNum.fin r ∧ 0 ≤ r ∧
      |r - q| ≤ JSNum.unitRoundoff * q + JSNum.halfSpacing := by
  rcases JSNum.ofRat_of_nonneg q h0 with h | ⟨r, h, hr, _, he, _⟩
  · exfalso
    rcases h0.eq_or_lt with hz | hpos
    · rw [← hz, JSNum.ofRat_zero] at h
      exact absurd h (by simp)
    · unfold JSNum.ofRat at h
      rw [if_neg (ne_of_gt hpos), if_pos hpos] at h
      have herr := JSNum.roundMagnitude_error_general q hpos
      rw [abs_le] at herr
      have hu1 := JSNum.unitRoundoff_lt_one
      have hh : JSNum.halfSpacing ≤ 1 := by
        unfold JSNum.halfSpacing
        rw [div_le_one (by positivity)]
        exact one_le_pow₀ (by norm_num)
      have hlt : JSNum.roundMagnitude q < 2 ^ 1024 := by
        have h2 : JSNum.roundMagnitude q ≤ 2001 := by nlinarith [herr.2]
        have h3 : (2001 : ℚ) < 2 ^ 11 := by norm_num
        have h4 : (2 : ℚ) ^ 11 ≤ 2 ^ 1024 := pow_le_pow_right₀ (by norm_num) (by norm_num)
        linarith
      rw [if_pos hlt] at h
      exact absurd h (by simp)
  · exact ⟨r, h, hr, he⟩

theorem JSNum.isFinite_iff (x : JSNum) : x.isFinite = true ↔ ∃ q, x = JSNum.fin q := by
  cases x <;> simp [JSNum.isFinite]

/-- A finite rounded sum of numbers that are not negative has finite terms only. -/
theorem JSNum.isFinite_of_foldl_add (ys : List JSNum) (h : ∀ y ∈ ys, y.isNonneg = true) :
    ∀ (acc : JSNum) (T : ℚ), acc.isNonneg = true → ys.foldl JSNum.add acc = JSNum.fin T →
      ∀ y ∈ ys, y.isFinite = true := by
  induction ys with
  | nil => intro _ _ _ _ y hy; simp at hy
  | cons y ys ih =>
    intro acc T hacc hT
    have hy := h y (List.mem_cons_self _ _)
    have hys : ∀ z ∈ ys, z.isNonneg = true := fun z hz => h z (List.mem_cons_of_mem _ hz)
    simp only [List.foldl_cons] at hT
    have hyfin : y.isFinite = true := by
      rcases (JSNum.isNonneg_iff y).1 hy with rfl | ⟨a, rfl, _⟩
      · exfalso
        have : JSNum.add acc JSNum.posInf = JSNum.posInf := by
          rcases (JSNum.isNonneg_iff acc).1 hacc with rfl | ⟨b, rfl, _⟩ <;> rfl
        rw [this, JSNum.foldl_add_posInf ys hys] at hT
        exact absurd hT (by simp)
      · rfl
    intro z hz
    rcases List.mem_cons.1 hz with rfl | hz2
    · exact hyfin
    · exact ih hys _ T (JSNum.isNonneg_add hacc hy) hT z hz2

/-- The two roundings of one percentage `x * 100`, `x` being a quotient between `0` and
`2` before its own rounding: the result is finite and close to `100 x`. -/
theorem JSNum.percentage_bounds (x : ℚ) (hx0 : 0 ≤ x) (hx2 : x ≤ 2) :
    ∃ p : ℚ, JSNum.mul (JSNum.ofRat x) (JSNum.fin 100) = JSNum.fin p ∧
      100 * (1 - JSNum.unitRoundoff) ^ 2 * x - 101 * JSNum.halfSpacing ≤ p ∧
      p ≤ 100 * (1 + JSNum.unitRoundoff) ^ 2 * x + 201 * JSNum.halfSpacing := by
  have hu := JSNum.unitRoundoff_pos
  have hu1 := JSNum.unitRoundoff_lt_one
  have hη := JSNum.halfSpacing_pos
  have hη1 : JSNum.halfSpacing ≤ 1 := by
    unfold JSNum.halfSpacing
    rw [div_le_one (by positivity)]
    exact one_le_pow₀ (by norm_num)
  obtain ⟨d, hd, hd0, hde⟩ := JSNum.ofRat_of_small x hx0 (by linarith)
  rw [abs_le] at hde
  have hd5 : d ≤ 5 := by nlinarith [hde.2]
  obtain ⟨p, hp, _, hpe⟩ := JSNum.ofRat_of_small (d * 100) (by positivity) (by linarith)
  rw [abs_le] at hpe
  refine ⟨p, ?_, ?_, ?_⟩
  · rw [hd]
    exact hp
  · have h1 : 100 * (1 - JSNum.unitRoundoff) * d - JSNum.halfSpacing ≤ p := by
      nlinarith [hpe.1]
    have h2 : (1 - JSNum.unitRoundoff) * x - JSNum.halfSpacing ≤ d := by nlinarith [hde.1]
    have h3 : 100 * (1 - JSNum.unitRoundoff) * ((1 - JSNum.unitRoundoff) * x
        - JSNum.halfSpacing) ≤ 100 * (1 - JSNum.unitRoundoff) * d :=
      mul_le_mul_of_nonneg_left h2 (by nlinarith)
    nlinarith
  · have h1 : p ≤ 100 * (1 + JSNum.unitRoundoff) * d + JSNum.halfSpacing := by
      nlinarith [hpe.2]
    have h2 : d ≤ (1 + JSNum.unitRoundoff) * x + JSNum.halfSpacing := by nlinarith [hde.2]
    have h3 : 100 * (1 + JSNum.unitRoundoff) * d ≤ 100 * (1 + JSNum.unitRoundoff)
        * ((1 + JSNum.unitRoundoff) * x + JSNum.halfSpacing) :=
      mul_le_mul_of_nonneg_left h2 (by nlinarith)
    nlinarith

theorem Obj.mem_values_of_get {α : Type} (o : Obj α) (k : String) (w : α)
    (h : o.get k = some w) : w ∈ o.values := by
  induction o with
  | nil => simp [Obj.get] at h
  | cons p rest ih =>
    obtain ⟨k1, v1⟩ := p
    by_cases hk : k1 = k
    · simp only [Obj.get, hk, if_true, Option.some.injEq] at h
      simp [Obj.values, h]
    · simp only [Obj.get, hk, if_false] at h
      have := ih h
      simp only [Obj.values] at this
      simp [Obj.values, this]

/-- The amount `data[key] || 0` read by the chart, when the entry is finite and not
negative or missing. -/
theorem chartAmount_eq (data : Obj JSNum) (k : String)
    (hfin : ∀ w, data.get k = some w → ∃ a : ℚ, w = JSNum.fin a ∧ 0 ≤ a) :
    (if truthyProp (data.get k) then propToNumber (data.get k) else JSNum.fin 0)
      = JSNum.fin ((data.get k).getD (JSNum.fin 0)).toRat := by
  cases hg : data.get k with
  | none => simp [truthyProp, JSNum.toRat]
  | some w =>
    obtain ⟨a, rfl, _⟩ := hfin w hg
    by_cases ha : a = 0
    · simp [truthyProp, JSNum.truthy, ha, JSNum.toRat]
    · simp [truthyProp, JSNum.truthy, ha, JSNum.toRat, propToNumber]

/-- The percentages of a list of keys against a finite positive total `v`: each is finite,
and their exact sum is `100` times the sum of the quotients up to two roundings each. -/
theorem chartPercentage_sum_bounds (data : Obj JSNum) (v : ℚ) (hv : 0 < v)
    (hfin : ∀ k w, data.get k = some w → ∃ a : ℚ, w = JSNum.fin a ∧ 0 ≤ a)
    (ks : List String)
    (hx : ∀ k ∈ ks, ((data.get k).getD (JSNum.fin 0)).toRat / v ≤ 2) :
    (∀ k ∈ ks, (chartPercentage data (JSNum.fin v) k).isFinite = true) ∧
    100 * (1 - JSNum.unitRoundoff) ^ 2
        * ((ks.map (fun k => ((data.get k).getD (JSNum.fin 0)).toRat)).sum / v)
        - 101 * JSNum.halfSpacing * ks.length
      ≤ (ks.map (fun k => (chartPercentage data (JSNum.fin v) k).toRat)).sum ∧
    (ks.map (fun k => (chartPercentage data (JSNum.fin v) k).toRat)).sum
      ≤ 100 * (1 + JSNum.unitRoundoff) ^ 2
        * ((ks.map (fun k => ((data.get k).getD (JSNum.fin 0)).toRat)).sum / v)
        + 201 * JSNum.halfSpacing * ks.length := by
  have hone : ∀ k, ((data.get k).getD (JSNum.fin 0)).toRat / v ≤ 2 →
      ∃ p : ℚ, chartPercentage data (JSNum.fin v) k = JSNum.fin p ∧
        100 * (1 - JSNum.unitRoundoff) ^ 2 * (((data.get k).getD (JSNum.fin 0)).toRat / v)
          - 101 * JSNum.halfSpacing ≤ p ∧
        p ≤ 100 * (1 + JSNum.unitRoundoff) ^ 2
          * (((data.get k).getD (JSNum.fin 0)).toRat / v) + 201 * JSNum.halfSpacing := by
    intro k hk2
    have ha0 : 0 ≤ ((data.get k).getD (JSNum.fin 0)).toRat := by
      cases hg : data.get k with
      | none => simp [JSNum.toRat]
      | some w =>
        obtain ⟨a, rfl, ha⟩ := hfin k w hg
        simpa [JSNum.toRat] using ha
    obtain ⟨p, hp, h1, h2⟩ := JSNum.percentage_bounds _ (div_nonneg ha0 hv.le) hk2
    refine ⟨p, ?_, h1, h2⟩
    unfold chartPercentage
    simp only [chartAmount_eq data k (hfin k)]
    have hgt : JSNum.gt (JSNum.fin v) (JSNum.fin 0) = true := by
      simp [JSNum.gt, JSNum.lt, hv]
    rw [if_pos hgt]
    have hdiv : JSNum.div (JSNum.fin ((data.get k).getD (JSNum.fin 0)).toRat) (JSNum.fin v)
        = JSNum.ofRat (((data.get k).getD (JSNum.fin 0)).toRat / v) := by
      simp [JSNum.div, ne_of_gt hv]
    rw [hdiv]
    exact hp
  induction ks with
  | nil => simp
  | cons k ks ih =>
    obtain ⟨ih1, ih2, ih3⟩ := ih (fun k2 hk2 => hx k2 (List.mem_cons_of_mem _ hk2))
    obtain ⟨p, hp, h1, h2⟩ := hone k (hx k (List.mem_cons_self _ _))
    refine ⟨?_, ?_, ?_⟩
    · intro k2 hk2
      rcases List.mem_cons.1 hk2 with rfl | h
      · rw [hp]; rfl
      · exact ih1 k2 h
    · have hpk : (chartPercentage data (JSNum.fin v) k).toRat = p := by rw [hp]; rfl
      rw [List.map_cons, List.sum_cons, List.map_cons, List.sum_cons, List.length_cons, hpk]
      push_cast
      rw [add_div]
      linarith
    · have hpk : (chartPercentage data (JSNum.fin v) k).toRat = p := by rw [hp]; rfl
      rw [List.map_cons, List.sum_cons, List.map_cons, List.sum_cons, List.length_cons, hpk]
      push_cast
      rw [add_div]
      linarith

/-- The catalog keys read from a dictionary whose keys are distinct catalog keys add up
to the sum of its values. -/
theorem catalog_sum_eq_values_sum (data : Obj JSNum) (hnd : data.keys.Nodup)
    (hsub : ∀ k ∈ data.keys, k ∈ CATEGORIES) :
    (CATEGORIES.map (fun k => ((data.get k).getD (JSNum.fin 0)).toRat)).sum
      = (data.values.map JSNum.toRat).sum := by
  have hcat : CATEGORIES.Nodup := by decide
  rw [Obj.values_eq_map_keys data (JSNum.fin 0) hnd, List.map_map,
    ← List.sum_toFinset _ hcat]
  have h2 : (data.keys.map (JSNum.toRat ∘ fun k => (data.get k).getD (JSNum.fin 0))).sum
      = data.keys.toFinset.sum (fun k => ((data.get k).getD (JSNum.fin 0)).toRat) := by
    rw [List.sum_toFinset _ hnd]
    rfl
  rw [h2]
  symm
  apply Finset.sum_subset
  · intro k hk
    rw [List.mem_toFinset] at hk ⊢
    exact hsub k hk
  · intro k _ hk
    rw [List.mem_toFinset] at hk
    rw [(Obj.get_eq_none_iff data k).2 hk]
    simp [JSNum.toRat]

theorem JSNum.percent_upper_numeric :
    100 * (1 + JSNum.unitRoundoff) ^ 2 * (1 / (1 - JSNum.unitRoundoff) ^ 4)
      + 201 * JSNum.halfSpacing * 4 ≤ 100 + 1 / 10 ^ 13 := by
  decide!

theorem JSNum.percent_lower_numeric :
    100 - 1 / 10 ^ 13 ≤ 100 * (1 - JSNum.unitRoundoff) ^ 2 * (1 / (1 + JSNum.unitRoundoff) ^ 4)
      - 101 * JSNum.halfSpacing * 4 := by
  decide!

theorem JSNum.quotient_numeric : 1 / (1 - JSNum.unitRoundoff) ^ 4 ≤ (2 : ℚ) := by
  decide!

/-- The chart of a dictionary whose keys are distinct catalog keys and whose values are
binary64 values that are not negative, with a finite positive total: one finite percentage
for each catalog key, and the percentages add up to `100` within `10 ^ (-13)`. -/
theorem categoryChart_near_100 (data : Obj JSNum) (hnd : data.keys.Nodup)
    (hsub : ∀ k ∈ data.keys, k ∈ CATEGORIES)
    (hval : ∀ w ∈ data.values, w.isNonneg = true ∧ w.isBinary = true)
    (v : ℚ) (hV : chartTotal data = JSNum.fin v) (hpos : 0 < v) :
    ∃ ps : List (String × JSNum), CategoryChart data = some ps ∧
      ps.map (fun p => p.1) = CATEGORIES ∧
      (∀ p ∈ ps, p.2.isFinite = true) ∧
      |(ps.map (fun p => p.2.toRat)).sum - 100| ≤ 1 / 10 ^ 13 := by
  have hu := JSNum.unitRoundoff_pos
  have hu1 := JSNum.unitRoundoff_lt_one
  have hvalfin : ∀ w ∈ data.values, w.isFinite = true :=
    JSNum.isFinite_of_foldl_add data.values (fun w hw => (hval w hw).1) (JSNum.fin 0) v
      (by simp [JSNum.isNonneg]) hV
  have hfin : ∀ k w, data.get k = some w → ∃ a : ℚ, w = JSNum.fin a ∧ 0 ≤ a := by
    intro k w hg
    have hw := Obj.mem_values_of_get data k w hg
    obtain ⟨a, ha⟩ := (JSNum.isFinite_iff w).1 (hvalfin w hw)
    refine ⟨a, ha, ?_⟩
    have := (hval w hw).1
    rw [ha] at this
    simpa [JSNum.isNonneg] using this
  -- the total is within `m ≤ 4` roundings of the exact sum of the values
  have hw := JSNum.foldl_add_within (fun y : JSNum => y) JSNum.toRat 0 data.values
    (JSNum.fin 0) 0 0 (by
      intro y hy
      obtain ⟨a, ha⟩ := (JSNum.isFinite_iff y).1 (hvalfin y hy)
      have hn := (hval y hy).1
      rw [ha] at hn
      show 0 ≤ y.toRat ∧ y.isBinary = true ∧ (y = JSNum.posInf ∨ JSNum.within 0 y y.toRat)
      refine ⟨?_, (hval y hy).2, Or.inr ?_⟩
      · rw [ha]; simpa [JSNum.isNonneg, JSNum.toRat] using hn
      · rw [ha]; exact JSNum.within_self a)
    (le_refl _) JSNum.onGrid_zero ⟨0, rfl, by simp, by simp⟩ v hV
  rw [zero_add, zero_add, zero_add] at hw
  have hlen : data.values.length ≤ 4 := by
    have h1 : data.values.length = data.keys.length := by simp [Obj.values, Obj.keys]
    have h2 := (List.subperm_of_subset hnd hsub).length_le
    rw [h1]
    exact h2
  have hS0 : 0 ≤ (data.values.map JSNum.toRat).sum := by
    apply List.sum_nonneg
    intro q hq
    obtain ⟨y, hy, rfl⟩ := List.mem_map.1 hq
    obtain ⟨a, ha⟩ := (JSNum.isFinite_iff y).1 (hvalfin y hy)
    have hn := (hval y hy).1
    rw [ha] at hn ⊢
    simpa [JSNum.isNonneg, JSNum.toRat] using hn
  obtain ⟨v', hv', hlo, hhi⟩ := JSNum.within_mono hw.1 hlen hS0
  simp only [JSNum.fin.injEq] at hv'
  subst hv'
  rw [← catalog_sum_eq_values_sum data hnd hsub] at hlo hhi hS0
  generalize hS : (CATEGORIES.map (fun k => ((data.get k).getD (JSNum.fin 0)).toRat)).sum = S
    at hlo hhi hS0
  have hm4 : (0 : ℚ) < (1 - JSNum.unitRoundoff) ^ 4 := pow_pos (by linarith) 4
  have hp4 : (0 : ℚ) < (1 + JSNum.unitRoundoff) ^ 4 := pow_pos (by linarith) 4
  have hSpos : 0 < S := by
    by_contra hneg
    have : S = 0 := le_antisymm (not_lt.1 hneg) hS0
    rw [this, mul_zero] at hhi
    linarith
  have hXhi : S / v ≤ 1 / (1 - JSNum.unitRoundoff) ^ 4 := by
    rw [div_le_div_iff₀ hpos hm4]
    linarith
  have hXlo : 1 / (1 + JSNum.unitRoundoff) ^ 4 ≤ S / v := by
    rw [div_le_div_iff₀ hp4 hpos]
    linarith
  have hterm : ∀ k ∈ CATEGORIES, ((data.get k).getD (JSNum.fin 0)).toRat / v ≤ 2 := by
    intro k hk
    have hnn : ∀ q ∈ CATEGORIES.map (fun k => ((data.get k).getD (JSNum.fin 0)).toRat),
        0 ≤ q := by
      intro q hq
      obtain ⟨k2, _, rfl⟩ := List.mem_map.1 hq
      cases hg : data.get k2 with
      | none => simp [JSNum.toRat]
      | some w =>
        obtain ⟨a, rfl, ha⟩ := hfin k2 w hg
        simpa [JSNum.toRat] using ha
    have hle := List.single_le_sum hnn _ (List.mem_map.2 ⟨k, hk, rfl⟩)
    rw [hS] at hle
    calc ((data.get k).getD (JSNum.fin 0)).toRat / v ≤ S / v :=
          div_le_div_of_nonneg_right hle hpos.le
      _ ≤ 1 / (1 - JSNum.unitRoundoff) ^ 4 := hXhi
      _ ≤ 2 := JSNum.quotient_numeric
  obtain ⟨hb1, hb2, hb3⟩ := chartPercentage_sum_bounds data v hpos hfin CATEGORIES hterm
  rw [hS] at hb2 hb3
  have hlen4 : ((CATEGORIES.length : ℕ) : ℚ) = 4 := by norm_num [CATEGORIES]
  rw [hlen4] at hb2 hb3
  refine ⟨CATEGORIES.map (fun key => (key, chartPercentage data (JSNum.fin v) key)),
    ?_, ?_, ?_, ?_⟩
  · unfold CategoryChart
    simp only [hV, JSNum.fin.injEq, ne_of_gt hpos, if_false]
  · simp [CATEGORIES]
  · intro p hp
    obtain ⟨k, hk, rfl⟩ := List.mem_map.1 hp
    exact hb1 k hk
  · have hmap : ((CATEGORIES.map (fun key => (key, chartPercentage data (JSNum.fin v) key))).map
        (fun p => p.2.toRat))
        = CATEGORIES.map (fun k => (chartPercentage data (JSNum.fin v) k).toRat) := by
      rw [List.map_map]
      rfl
    rw [hmap, abs_le]
    have hc1 : (0 : ℚ) ≤ 100 * (1 + JSNum.unitRoundoff) ^ 2 := by positivity
    have hc2 : (0 : ℚ) ≤ 100 * (1 - JSNum.unitRoundoff) ^ 2 := by positivity
    have hup := mul_le_mul_of_nonneg_left hXhi hc1
    have hdn := mul_le_mul_of_nonneg_left hXlo hc2
    have n1 := JSNum.percent_upper_numeric
    have n2 := JSNum.percent_lower_numeric
    constructor <;> linarith

/-- A ledger of finite amounts that are not negative and add up to `0` exactly has total
`0`. -/
theorem totalOf_eq_zero (l : List Expense) (hnn : ∀ e ∈ l, e.amount.isNonneg = true)
    (hfin : ∀ e ∈ l, e.amount.isFinite = true) (hzero : exactTotal l = 0) :
    totalOf l = JSNum.fin 0 := by
  have hall : ∀ e ∈ l, e.amount = JSNum.fin 0 := by
    intro e he
    obtain ⟨a, ha⟩ := (JSNum.isFinite_iff _).1 (hfin e he)
    have hq : ∀ q ∈ l.map (fun e => e.amount.toRat), 0 ≤ q := by
      intro q hq
      obtain ⟨e2, he2, rfl⟩ := List.mem_map.1 hq
      rcases (JSNum.isNonneg_iff _).1 (hnn e2 he2) with h | ⟨b, h, hb⟩
      · rw [h]; exact le_refl _
      · rw [h]; exact hb
    have hle := List.single_le_sum hq _ (List.mem_map.2 ⟨e, he, rfl⟩)
    have h0 := hq _ (List.mem_map.2 ⟨e, he, rfl⟩)
    unfold exactTotal at hzero
    rw [hzero, ha] at hle
    rw [ha] at h0
    rw [ha]
    congr 1
    exact le_antisymm hle h0
  unfold totalOf
  clear hnn hfin hzero
  induction l with
  | nil => rfl
  | cons x xs ih =>
    rw [List.foldl_cons, hall x (List.mem_cons_self _ _)]
    have : JSNum.add (JSNum.fin 0) (JSNum.fin 0) = JSNum.fin 0 := by
      simp [JSNum.add, JSNum.ofRat_zero]
    rw [this]
    exact ih (fun e he => hall e (List.mem_cons_of_mem _ he))

/-- A finite total of amounts that are not negative has finite amounts only. -/
theorem isFinite_of_totalOf (l : List Expense) (hnn : ∀ e ∈ l, e.amount.isNonneg = true)
    (T : ℚ) (hT : totalOf l = JSNum.fin T) : ∀ e ∈ l, e.amount.isFinite = true := by
  have h := JSNum.isFinite_of_foldl_add (l.map (fun e => e.amount)) (by
      intro y hy
      obtain ⟨e, he, rfl⟩ := List.mem_map.1 hy
      exact hnn e he) (JSNum.fin 0) T (by simp [JSNum.isNonneg]) (by
      rw [List.foldl_map]
      exact hT)
  exact fun e he => h _ (List.mem_map.2 ⟨e, he, rfl⟩)

/-- The values of `categoryTotals` on a ledger of amounts that are not negative. -/
theorem values_categoryTotalsOf (l : List Expense) (hnn : nonnegAmounts l = true) :
    ∀ w ∈ (categoryTotalsOf l).values,
      ∃ k ∈ (categoryTotalsOf l).keys, w = totalOf (recordsOfCategory k l) := by
  obtain ⟨hnd, _, hget⟩ := categoryTotalsOf_spec l hnn
  intro w hw
  rw [Obj.values_eq_map_keys _ (JSNum.fin 0) hnd] at hw
  obtain ⟨k, hk, rfl⟩ := List.mem_map.1 hw
  exact ⟨k, hk, by rw [hget k hk]; rfl⟩

/-- The chart of `categoryTotals` on a ledger of catalog categories and of amounts that are
not negative, with a finite chart total and a positive ledger total. -/
theorem categoryChart_categoryTotalsOf (l : List Expense) (hnn : nonnegAmounts l = true)
    (hcat : catalogCategories l = true)
    (hfin : (chartTotal (categoryTotalsOf l)).isFinite = true)
    (hpos : JSNum.gt (totalOf l) (JSNum.fin 0) = true) :
    ∃ ps : List (String × JSNum), CategoryChart (categoryTotalsOf l) = some ps ∧
      ps.map (fun p => p.1) = CATEGORIES ∧
      (∀ p ∈ ps, p.2.isFinite = true) ∧
      |(ps.map (fun p => p.2.toRat)).sum - 100| ≤ 1 / 10 ^ 13 := by
  have hu1 := JSNum.unitRoundoff_lt_one
  obtain ⟨hnd, hkeys, hget⟩ := categoryTotalsOf_spec l hnn
  have hpos1 := nonnegAmounts_isNonneg l hnn
  obtain ⟨v, hv⟩ := (JSNum.isFinite_iff _).1 hfin
  have hvals := values_categoryTotalsOf l hnn
  have hval : ∀ w ∈ (categoryTotalsOf l).values, w.isNonneg = true ∧ w.isBinary = true := by
    intro w hw
    obtain ⟨k, _, rfl⟩ := hvals w hw
    exact ⟨totalOf_isNonneg _ (fun e he => hpos1 e (List.mem_filter.1 he).1),
      totalOf_isBinary _⟩
  have hvalfin : ∀ w ∈ (categoryTotalsOf l).values, w.isFinite = true :=
    JSNum.isFinite_of_foldl_add _ (fun w hw => (hval w hw).1) (JSNum.fin 0) v
      (by simp [JSNum.isNonneg]) hv
  have hallfin : ∀ e ∈ l, e.amount.isFinite = true := by
    intro e he
    have hk : e.category ∈ (categoryTotalsOf l).keys := (hkeys _).2 ⟨e, he, rfl⟩
    have hmem : totalOf (recordsOfCategory e.category l) ∈ (categoryTotalsOf l).values :=
      Obj.mem_values_of_get _ _ _ (hget _ hk)
    obtain ⟨T, hT⟩ := (JSNum.isFinite_iff _).1 (hvalfin _ hmem)
    exact isFinite_of_totalOf _ (fun e2 he2 => hpos1 e2 (List.mem_filter.1 he2).1) T hT e
      (List.mem_filter.2 ⟨he, by simp⟩)
  have hS0 := exactTotal_nonneg l hpos1
  have hSpos : 0 < exactTotal l := by
    by_contra hneg
    have hz : exactTotal l = 0 := le_antisymm (not_lt.1 hneg) hS0
    rw [totalOf_eq_zero l hpos1 hallfin hz] at hpos
    exact absurd hpos (by simp [JSNum.gt, JSNum.lt])
  have hvpos : 0 < v := by
    obtain ⟨v', hv', hlo, _⟩ := (chartTotal_within l hnn v hv).1
    simp only [JSNum.fin.injEq] at hv'
    subst hv'
    have : (0 : ℚ) < (1 - JSNum.unitRoundoff) ^ (2 * l.length) := pow_pos (by linarith) _
    exact lt_of_lt_of_le (mul_pos this hSpos) hlo
  have hsub : ∀ k ∈ (categoryTotalsOf l).keys, k ∈ CATEGORIES := by
    intro k hk
    obtain ⟨e, he, rfl⟩ := (hkeys k).1 hk
    simp only [catalogCategories, List.all_eq_true] at hcat
    simpa using hcat e he
  exact categoryChart_near_100 _ hnd hsub hval v hv hvpos

/-! ## `Number` and `parseFloat` on decimal texts -/

/-- Facts about a white space character: it is no digit, point, sign, exponent mark or
letter of `Infinity`. -/
theorem isWhiteSpace_facts (c : Char) (h : isWhiteSpace c = true) :
    isDecDigit c = false ∧ c ≠ '.' ∧ c ≠ '+' ∧ c ≠ '-' ∧ c ≠ 'e' ∧ c ≠ 'E' ∧ c ≠ 'I' := by
  refine ⟨?_, ?_, ?_, ?_, ?_, ?_, ?_⟩
  · simp only [isWhiteSpace, whiteSpaceCodes, List.contains_eq_any_beq, List.any_cons,
      List.any_nil, Bool.or_false, Bool.or_eq_true, beq_iff_eq] at h
    simp only [isDecDigit, Bool.and_eq_false_imp, decide_eq_true_eq, decide_eq_false_iff_not]
    omega
  all_goals
    intro hc
    rw [hc] at h
    exact absurd h (by decide)

theorem takeWhile_append_blank (t w : List Char) (hw : startsBlank w) :
    (t ++ w).takeWhile isDecDigit = t.takeWhile isDecDigit := by
  induction t with
  | nil =>
    cases w with
    | nil => rfl
    | cons c w2 =>
      have := (isWhiteSpace_facts c (hw c (by simp))).1
      simp [List.takeWhile_cons, this]
  | cons x xs ih =>
    by_cases hx : isDecDigit x = true
    · simp [List.takeWhile_cons, hx, ih]
    · simp [List.takeWhile_cons, hx]

theorem dropWhile_append_blank (t w : List Char) (hw : startsBlank w) :
    (t ++ w).dropWhile isDecDigit = t.dropWhile isDecDigit ++ w := by
  induction t with
  | nil =>
    cases w with
    | nil => rfl
    | cons c w2 =>
      have := (isWhiteSpace_facts c (hw c (by simp))).1
      simp [List.dropWhile_cons, this]
  | cons x xs ih =>
    by_cases hx : isDecDigit x = true
    · simp [List.dropWhile_cons, hx, ih]
    · simp [List.dropWhile_cons, hx]

theorem scanSignedInteger_append (t w : List Char) (hw : startsBlank w) :
    scanSignedInteger (t ++ w) = (scanSignedInteger t).map (fun p => (p.1, p.2 ++ w)) := by
  cases t with
  | nil =>
    cases w with
    | nil => rfl
    | cons c w2 =>
      obtain ⟨h1, _, h3, h4, _⟩ := isWhiteSpace_facts c (hw c (by simp))
      simp [scanSignedInteger, h3, h4, List.takeWhile_cons, h1]
  | cons x xs =>
    have hcons : (x :: xs) ++ w = x :: (xs ++ w) := rfl
    have h1 := takeWhile_append_blank xs w hw
    have h2 := dropWhile_append_blank xs w hw
    have h3 := takeWhile_append_blank (x :: xs) w hw
    have h4 := dropWhile_append_blank (x :: xs) w hw
    rw [hcons] at h3 h4
    rw [hcons]
    simp only [scanSignedInteger, h1, h2, h3, h4]
    by_cases hp : x = '+'
    · rw [if_pos hp, if_pos hp]
      split <;> rfl
    · by_cases hm : x = '-'
      · rw [if_neg hp, if_pos hm, if_neg hp, if_pos hm]
        split <;> rfl
      · rw [if_neg hp, if_neg hm, if_neg hp, if_neg hm]
        split <;> rfl

theorem scanExponent_append (t w : List Char) (hw : startsBlank w) :
    scanExponent (t ++ w) = (scanExponent t).map (fun p => (p.1, p.2 ++ w)) := by
  cases t with
  | nil =>
    cases w with
    | nil => rfl
    | cons c w2 =>
      obtain ⟨_, _, _, _, h5, h6, _⟩ := isWhiteSpace_facts c (hw c (by simp))
      simp [scanExponent, h5, h6]
  | cons x xs =>
    have hcons : (x :: xs) ++ w = x :: (xs ++ w) := rfl
    rw [hcons]
    simp only [scanExponent]
    by_cases he : x = 'e' ∨ x = 'E'
    · rw [if_pos he, if_pos he]
      exact scanSignedInteger_append xs w hw
    · rw [if_neg he, if_neg he]
      rfl

theorem withExponent_append (ip fp r w : List Char) (hw : startsBlank w) :
    withExponent ip fp (r ++ w) = ((withExponent ip fp r).1, (withExponent ip fp r).2 ++ w) := by
  simp only [withExponent, scanExponent_append r w hw]
  cases scanExponent r with
  | none => rfl
  | some p => rfl

theorem scanFraction_append (ip r w : List Char) (hw : startsBlank w) :
    scanFraction ip (r ++ w) = (scanFraction ip r).map (fun p => (p.1, p.2 ++ w)) := by
  cases r with
  | nil =>
    cases w with
    | nil => simp [scanFraction]
    | cons c w2 =>
      obtain ⟨_, h2, _⟩ := isWhiteSpace_facts c (hw c (by simp))
      have hwe := withExponent_append ip [] [] (c :: w2) hw
      simp only [List.nil_append] at hwe
      simp only [List.nil_append, scanFraction, h2, if_false]
      by_cases hip : ip = []
      · simp [hip]
      · simp [hip, hwe]
  | cons x xs =>
    have hcons : (x :: xs) ++ w = x :: (xs ++ w) := rfl
    rw [hcons]
    simp only [scanFraction]
    by_cases hdot : x = '.'
    · rw [if_pos hdot, if_pos hdot, takeWhile_append_blank xs w hw,
        dropWhile_append_blank xs w hw]
      split
      · rfl
      · simp [withExponent_append _ _ _ w hw]
    · rw [if_neg hdot, if_neg hdot]
      by_cases hip : ip = []
      · simp [hip]
      · have hwe := withExponent_append ip [] (x :: xs) w hw
        rw [hcons] at hwe
        simp [hip, hwe]

theorem isPrefixOf_append_blank (p : List Char) (hp : ∀ c ∈ p, isWhiteSpace c = false)
    (w : List Char) (hw : startsBlank w) :
    ∀ t : List Char, p.isPrefixOf (t ++ w) = p.isPrefixOf t := by
  induction p with
  | nil => intro t; simp
  | cons c p2 ih =>
    intro t
    cases t with
    | nil =>
      cases w with
      | nil => rfl
      | cons d w2 =>
        have hd : isWhiteSpace d = true := hw d (by simp)
        have hc : isWhiteSpace c = false := hp c (by simp)
        have hne : c ≠ d := by
          intro h
          rw [h, hd] at hc
          exact absurd hc (by decide)
        simp [List.isPrefixOf, hne]
    | cons a t2 =>
      have hcons : (a :: t2) ++ w = a :: (t2 ++ w) := rfl
      rw [hcons]
      simp only [List.isPrefixOf, ih (fun c hc => hp c (List.mem_cons_of_mem _ hc)) t2]

theorem scanUnsigned_append (t w : List Char) (hw : startsBlank w) :
    scanUnsigned (t ++ w) = (scanUnsigned t).map (fun p => (p.1, p.2 ++ w)) := by
  have hpre := isPrefixOf_append_blank "Infinity".toList (by decide) w hw t
  unfold scanUnsigned
  rw [hpre]
  by_cases hinf : "Infinity".toList.isPrefixOf t = true
  · rw [if_pos hinf, if_pos hinf]
    have hlen : 8 ≤ t.length := by
      have := (List.isPrefixOf_iff_prefix.1 hinf).length_le
      simpa using this
    simp [List.drop_append_of_le_length hlen]
  · rw [if_neg hinf, if_neg hinf, takeWhile_append_blank t w hw, dropWhile_append_blank t w hw]
    exact scanFraction_append _ _ w hw

theorem scanDecimal_append (t w : List Char) (hw : startsBlank w) :
    scanDecimal (t ++ w) = (scanDecimal t).map (fun p => (p.1, p.2 ++ w)) := by
  cases t with
  | nil =>
    cases w with
    | nil => rfl
    | cons c w2 =>
      obtain ⟨_, _, h3, h4, _⟩ := isWhiteSpace_facts c (hw c (by simp))
      have h := scanUnsigned_append [] (c :: w2) hw
      simp only [List.nil_append] at h
      simp only [List.nil_append, scanDecimal, h3, h4, if_false, h]
      rfl
  | cons x xs =>
    have hcons : (x :: xs) ++ w = x :: (xs ++ w) := rfl
    rw [hcons]
    simp only [scanDecimal]
    by_cases hp : x = '+'
    · rw [if_pos hp, if_pos hp]
      exact scanUnsigned_append xs w hw
    · by_cases hm : x = '-'
      · rw [if_neg hp, if_pos hm, if_neg hp, if_pos hm, scanUnsigned_append xs w hw]
        cases scanUnsigned xs <;> rfl
      · rw [if_neg hp, if_neg hm, if_neg hp, if_neg hm, ← hcons]
        exact scanUnsigned_append (x :: xs) w hw

/-- The text without its leading white space is the trimmed text followed by the
trailing white space. -/
theorem trimStartChars_eq (s : List Char) :
    ∃ w : List Char, trimStartChars s = trimChars s ++ w ∧ startsBlank w := by
  refine ⟨((trimStartChars s).reverse.takeWhile isWhiteSpace).reverse, ?_, ?_⟩
  · unfold trimChars trimEndChars
    rw [← List.reverse_append, List.takeWhile_append_dropWhile, List.reverse_reverse]
  · intro c hc
    have hmem : c ∈ ((trimStartChars s).reverse.takeWhile isWhiteSpace).reverse :=
      List.mem_of_mem_head? hc
    rw [List.mem_reverse] at hmem
    exact List.mem_takeWhile_imp hmem

/-- On a text that `Number` reads as a decimal literal, `parseFloat` reads the same
literal. -/
theorem parseFloatLit_of_stringToLit (s : List Char) (l : NumLit)
    (hdec : nonDecimalLiteral (trimChars s) = none) (hne : trimChars s ≠ [])
    (hlit : stringToLit s = some l) : parseFloatLit s = some l := by
  unfold stringToLit at hlit
  simp only [hne, if_false, hdec] at hlit
  obtain ⟨w, hw1, hw2⟩ := trimStartChars_eq s
  unfold parseFloatLit
  rw [hw1, scanDecimal_append _ _ hw2]
  cases hscan : scanDecimal (trimChars s) with
  | none => rw [hscan] at hlit; exact absurd hlit (by simp)
  | some p =>
    obtain ⟨l2, rest⟩ := p
    rw [hscan] at hlit
    cases rest with
    | nil =>
      simp only [Option.some.injEq] at hlit
      simp [hlit]
    | cons c r => exact absurd hlit (by simp)

/-- On an accepted amount text that is not a `0x`, `0o` or `0b` literal, `parseFloat`
gives the number `Number` gives, which is above `0`. -/
theorem parseFloat_eq_Number_of_accepted (a : String) (hdec : decimalText a = true)
    (hpos : JSNum.gt (Number a) (JSNum.fin 0) = true) :
    parseFloat a = Number a ∧ JSNum.gt (parseFloat a) (JSNum.fin 0) = true := by
  have hdec2 : nonDecimalLiteral (trimChars a.toList) = none := by
    simpa [decimalText] using hdec
  have hne : trimChars a.toList ≠ [] := by
    intro h
    have h0 : stringToLit a.toList = some (.dec false 0 0) := by
      unfold stringToLit
      simp only [h, if_true]
    have h1 : Number a = JSNum.fin 0 := by
      unfold Number
      rw [h0]
      simp [litValue, NumLit.value, JSNum.ofRat_zero]
    rw [h1] at hpos
    exact absurd hpos (by simp [JSNum.gt, JSNum.lt])
  cases hlit : stringToLit a.toList with
  | none =>
    have h1 : Number a = JSNum.nan := by
      unfold Number
      rw [hlit]
      rfl
    rw [h1] at hpos
    exact absurd hpos (by simp [JSNum.gt, JSNum.lt])
  | some l =>
    have hpf := parseFloatLit_of_stringToLit a.toList l hdec2 hne hlit
    have heq : parseFloat a = Number a := by
      unfold parseFloat Number
      rw [hpf, hlit]
    exact ⟨heq, by rw [heq]; exact hpos⟩

/-- The conversions at work: decimal texts round to binary64, underflow to `0` and
overflow to `+Infinity`; `Number` reads a `0x` literal and rejects trailing text, where
`parseFloat` reads the longest decimal prefix. -/
theorem Number_parseFloat_values :
    Number "75.40" = JSNum.ofRat 75.40 ∧
    Number "  12.5 " = JSNum.fin 12.5 ∧
    Number "1e-400" = JSNum.fin 0 ∧
    Number "1e400" = JSNum.posInf ∧
    Number "-1e400" = JSNum.negInf ∧
    Number "" = JSNum.fin 0 ∧
    Number "0x10" = JSNum.fin 16 ∧
    Number "12abc" = JSNum.nan ∧
    Number ".5" = JSNum.fin 0.5 ∧
    Number "5." = JSNum.fin 5 ∧
    Number "Infinity" = JSNum.posInf ∧
    parseFloat "0x10" = JSNum.fin 0 ∧
    parseFloat "12abc" = JSNum.fin 12 ∧
    parseFloat "1e-400" = JSNum.fin 0 ∧
    parseFloat "" = JSNum.nan ∧
    parseFloat "0.1" = JSNum.fin (3602879701896397 / 36028797018963968) := by
  decide!

/-! ## Validation and adding -/

/-- The error object of `validateForm`, field by field. -/
theorem validateForm_eq (d a : String) :
    validateForm d a =
      (if trim d = "" then [("description", some "Description is required.")] else []) ++
      (if a = "" then [("amount", some "Amount is required.")]
        else if isNaN a = true ∨ (Number a).le (JSNum.fin 0) = true then
          [("amount", some "Please enter a valid positive number.")]
        else []) := by
  unfold validateForm
  by_cases hd : trim d = "" <;> by_cases ha : a = "" <;>
    by_cases hn : (isNaN a = true ∨ (Number a).le (JSNum.fin 0) = true) <;>
    simp [hd, ha, hn, Obj.set]

theorem JSNum.gt_zero_iff (x : JSNum) :
    JSNum.gt x (JSNum.fin 0) = true ↔ x.isNaN = false ∧ x.le (JSNum.fin 0) = false := by
  cases x <;> simp [JSNum.gt, JSNum.lt, JSNum.isNaN, JSNum.le]

/-- The form is accepted exactly when the description is not blank and the amount text is
not empty and converts to a number above `0`. -/
theorem validateForm_eq_nil_iff (d a : String) :
    validateForm d a = [] ↔
      trim d ≠ "" ∧ a ≠ "" ∧ JSNum.gt (Number a) (JSNum.fin 0) = true := by
  rw [validateForm_eq, JSNum.gt_zero_iff]
  by_cases hd : trim d = ""
  · simp [hd]
  by_cases ha : a = ""
  · simp [ha]
  by_cases hn : (isNaN a = true ∨ (Number a).le (JSNum.fin 0) = true)
  · simp only [hd, ha, hn, if_true, if_false, List.nil_append, ne_eq, not_false_eq_true,
      true_and, false_iff, not_and, reduceCtorEq, Bool.not_eq_false]
    intro h1
    rcases hn with h | h
    · rw [isNaN, h1] at h
      exact absurd h (by decide)
    · exact h
  · simp only [hd, ha, hn, if_false, List.nil_append, ne_eq, not_false_eq_true, true_and,
      true_iff]
    simp only [not_or, Bool.not_eq_true] at hn
    exact ⟨hn.1, hn.2⟩

/-! ## Removing -/

theorem length_split (id : Nat) (l : List Expense) :
    l.length = (deleteFromLedger id l).length
      + (l.filter (fun e => decide (e.id = id))).length := by
  simp only [deleteFromLedger]
  induction l with
  | nil => simp
  | cons x xs ih =>
    by_cases hx : x.id = id
    · simp only [List.filter_cons, hx, ne_eq, not_true_eq_false, decide_False,
        Bool.false_eq_true, if_false, decide_True, if_true, List.length_cons, ih]
      omega
    · simp only [List.filter_cons, hx, ne_eq, not_false_eq_true, decide_True, if_true,
        decide_False, Bool.false_eq_true, if_false, List.length_cons, ih]
      omega

/-! ## Pagination -/

theorem fireDue_visibleCount (t : Nat) (s : State) :
    (fireDue t s).visibleCount = s.visibleCount := by
  unfold fireDue
  split <;> rfl

theorem fireDue_expenses (t : Nat) (s : State) : (fireDue t s).expenses = s.expenses := by
  unfold fireDue
  split <;> rfl

/-- Only "Load More" changes the visible count, and it adds one page. -/
theorem step_visibleCount (now : Nat) (a : Action) (s : State) :
    (step now a s).visibleCount
      = s.visibleCount + (if isLoadMore a = true then ITEMS_PER_PAGE else 0) := by
  cases a with
  | changeDescription v => simp only [step, changeDescription, isLoadMore]; split <;> simp
  | changeAmount v => simp only [step, changeAmount, isLoadMore]; split <;> simp
  | submitAdd iso =>
    simp only [step, handleAddExpense, showNotification, isLoadMore]
    split <;> simp
  | submitEdit d am c =>
    simp only [step, handleSubmit, handleUpdateExpense, showNotification, isLoadMore]
    split
    · simp
    · split <;> simp
  | loadMore => simp [step, loadMore, isLoadMore]
  | _ => simp [step, isLoadMore, clearFilters, toggleTheme, handleDeleteExpense,
      showNotification]

theorem run_visibleCount (events : List (Nat × Action)) :
    ∀ s : State, (run events s).visibleCount
      = s.visibleCount + ITEMS_PER_PAGE * loadMoreCalls events := by
  induction events with
  | nil => intro s; simp [run, loadMoreCalls]
  | cons e rest ih =>
    intro s
    obtain ⟨t, a⟩ := e
    simp only [run]
    rw [ih, step_visibleCount, fireDue_visibleCount]
    by_cases h : isLoadMore a = true
    · simp only [h, if_true, loadMoreCalls, List.filter_cons, List.length_cons]
      ring
    · simp only [h, if_false, loadMoreCalls, List.filter_cons, Bool.false_eq_true]
      ring

/-! ## Editing -/

theorem idsOf_updateLedger (u : Expense) (l : List Expense) :
    idsOf (updateLedger u l) = idsOf l := by
  simp only [idsOf, updateLedger, List.map_map]
  apply List.map_congr_left
  intro e _
  by_cases h : e.id = u.id <;> simp [h]

theorem updateLedger_of_no_match (u : Expense) (l : List Expense)
    (h : ∀ e ∈ l, e.id ≠ u.id) : updateLedger u l = l := by
  unfold updateLedger
  conv_rhs => rw [← List.map_id l]
  apply List.map_congr_left
  intro e he
  simp [h e he]

/-! ## Ids -/

/-- An action either puts the clock reading in front of the ids (a submit of the add
form) or leaves a sublist of the ids. -/
theorem step_idsOf (now : Nat) (a : Action) (s : State) :
    (isSubmitAdd a = true ∧ idsOf (step now a s).expenses = now :: idsOf s.expenses) ∨
    (idsOf (step now a s).expenses).Sublist (idsOf s.expenses) := by
  cases a with
  | changeDescription v =>
    right
    simp only [step, changeDescription]
    split <;> exact List.Sublist.refl _
  | changeAmount v =>
    right
    simp only [step, changeAmount]
    split <;> exact List.Sublist.refl _
  | submitAdd iso =>
    simp only [step, handleAddExpense, showNotification, isSubmitAdd]
    split
    · right; exact List.Sublist.refl _
    · left; exact ⟨trivial, rfl⟩
  | submitEdit d am c =>
    right
    simp only [step, handleSubmit, handleUpdateExpense, showNotification]
    split
    · exact List.Sublist.refl _
    · split
      · exact List.Sublist.refl _
      · rw [idsOf_updateLedger]
  | deleteExpense id =>
    right
    simp only [step, handleDeleteExpense, showNotification, deleteFromLedger, idsOf]
    exact (List.filter_sublist _).map _
  | changeCategory v => right; exact List.Sublist.refl _
  | changeSearchTerm v => right; exact List.Sublist.refl _
  | changeFilterCategory v => right; exact List.Sublist.refl _
  | changeSort cfg => right; exact List.Sublist.refl _
  | clearFilters => right; exact List.Sublist.refl _
  | loadMore => right; exact List.Sublist.refl _
  | toggleTheme => right; exact List.Sublist.refl _
  | beginEdit exp => right; exact List.Sublist.refl _
  | cancelEdit => right; exact List.Sublist.refl _

/-- Distinct ids stay distinct along a session whose add clock readings increase strictly
and exceed every id already in the ledger. -/
theorem run_idsOf_nodup (events : List (Nat × Action)) :
    ∀ s : State, (idsOf s.expenses).Nodup →
      (addClockReadings events).Pairwise (fun x y => x < y) →
      (∀ t ∈ addClockReadings events, ∀ i ∈ idsOf s.expenses, i < t) →
      (idsOf (run events s).expenses).Nodup := by
  induction events with
  | nil => intro s h _ _; exact h
  | cons e rest ih =>
    intro s hnodup hinc hbound
    obtain ⟨t, a⟩ := e
    simp only [run]
    have hfd : idsOf (fireDue t s).expenses = idsOf s.expenses := by rw [fireDue_expenses]
    rcases step_idsOf t a (fireDue t s) with ⟨hadd, hids⟩ | hsub
    · have hclock : addClockReadings ((t, a) :: rest) = t :: addClockReadings rest := by
        simp [addClockReadings, List.filter_cons, hadd]
      rw [hclock] at hinc hbound
      rw [hfd] at hids
      apply ih
      · rw [hids, List.nodup_cons]
        refine ⟨?_, hnodup⟩
        intro hmem
        exact Nat.lt_irrefl _ (hbound t (List.mem_cons_self _ _) t hmem)
      · exact (List.pairwise_cons.1 hinc).2
      · intro t2 ht2 i hi
        rw [hids] at hi
        rcases List.mem_cons.1 hi with h | h
        · rw [h]
          exact (List.pairwise_cons.1 hinc).1 t2 ht2
        · exact hbound t2 (List.mem_cons_of_mem _ ht2) i h
    · rw [hfd] at hsub
      have hsubclock : (addClockReadings rest).Sublist (addClockReadings ((t, a) :: rest)) := by
        unfold addClockReadings
        exact ((List.sublist_cons_self _ _).filter _).map _
      apply ih
      · exact hnodup.sublist hsub
      · exact hinc.sublist hsubclock
      · intro t2 ht2 i hi
        exact hbound t2 (hsubclock.subset ht2) i (hsub.subset hi)

/-! ## Sorting -/

theorem insertByCompare_eq_orderedInsert {α : Type} (cmp : α → α → Int) (x : α) (l : List α) :
    insertByCompare cmp x l = List.orderedInsert (fun a b => cmp a b ≤ 0) x l := by
  induction l with
  | nil => rfl
  | cons y ys ih => simp only [insertByCompare, List.orderedInsert, ih]

theorem jsSort_eq_insertionSort {α : Type} (cmp : α → α → Int) (l : List α) :
    jsSort cmp l = List.insertionSort (fun a b => cmp a b ≤ 0) l := by
  induction l with
  | nil => rfl
  | cons x xs ih =>
    simp only [jsSort, List.insertionSort, ih, insertByCompare_eq_orderedInsert]

theorem jsSort_perm {α : Type} (cmp : α → α → Int) (l : List α) : (jsSort cmp l).Perm l := by
  rw [jsSort_eq_insertionSort]
  exact List.perm_insertionSort _ l

/-- Stability: a sublist in comparator order is still a sublist after the sort. -/
theorem jsSort_sublist {α : Type} (cmp : α → α → Int) {l c : List α}
    (hc : c.Pairwise (fun a b => cmp a b ≤ 0)) (hsub : c.Sublist l) :
    c.Sublist (jsSort cmp l) := by
  rw [jsSort_eq_insertionSort]
  exact List.sublist_insertionSort hc hsub

/-- When the comparator agrees on the list with a linear order on keys, the sorted list
has its keys in that order. -/
theorem jsSort_pairwise_of_key {α κ : Type} [LinearOrder κ] (K : α → κ) (cmp : α → α → Int)
    (l : List α) (hK : ∀ a ∈ l, ∀ b ∈ l, (cmp a b ≤ 0 ↔ K a ≤ K b)) :
    (jsSort cmp l).Pairwise (fun a b => K a ≤ K b) := by
  rw [jsSort_eq_insertionSort]
  have hmap := List.map_insertionSort (fun a b => cmp a b ≤ 0) (fun x y : κ => x ≤ y) K l hK
  have hsorted := List.sorted_insertionSort (fun x y : κ => x ≤ y) (l.map K)
  rw [← hmap] at hsorted
  exact List.pairwise_map.1 hsorted

theorem compareExpenses_asc_le (key : SortKey) (a b : Expense) :
    compareExpenses { key := key, direction := .asc } a b ≤ 0 ↔
      (keyLt key a b = true ∨ keyLt key b a = false) := by
  unfold compareExpenses
  by_cases h1 : keyLt key a b = true <;> by_cases h2 : keyLt key b a = true <;> simp [h1, h2]

theorem compareExpenses_desc_le (key : SortKey) (a b : Expense) :
    compareExpenses { key := key, direction := .desc } a b ≤ 0 ↔ keyLt key a b = false := by
  unfold compareExpenses
  by_cases h1 : keyLt key a b = true <;> by_cases h2 : keyLt key b a = true <;> simp [h1, h2]

/-- The ascending sort puts the keys in non-decreasing order. -/
theorem jsSort_asc_pairwise {κ : Type} [LinearOrder κ] (K : Expense → κ) (key : SortKey)
    (l : List Expense) (hK : ∀ a ∈ l, ∀ b ∈ l, (keyLt key a b = true ↔ K a < K b)) :
    (jsSort (compareExpenses { key := key, direction := .asc }) l).Pairwise
      (fun a b => K a ≤ K b) := by
  apply jsSort_pairwise_of_key K
  intro a ha b hb
  rw [compareExpenses_asc_le]
  have h1 := hK a ha b hb
  have h2 := hK b hb a ha
  constructor
  · rintro (h | h)
    · exact le_of_lt (h1.1 h)
    · apply le_of_not_lt
      intro hlt
      rw [h2.2 hlt] at h
      exact absurd h (by decide)
  · intro hle
    right
    cases hb2 : keyLt key b a with
    | false => rfl
    | true => exact absurd (h2.1 hb2) (not_lt_of_le hle)

/-- The descending sort puts the keys in non-increasing order. -/
theorem jsSort_desc_pairwise {κ : Type} [LinearOrder κ] (K : Expense → κ) (key : SortKey)
    (l : List Expense) (hK : ∀ a ∈ l, ∀ b ∈ l, (keyLt key a b = true ↔ K a < K b)) :
    (jsSort (compareExpenses { key := key, direction := .desc }) l).Pairwise
      (fun a b => K b ≤ K a) := by
  have h := jsSort_pairwise_of_key (fun e => OrderDual.toDual (K e))
    (compareExpenses { key := key, direction := .desc }) l (by
      intro a ha b hb
      rw [compareExpenses_desc_le, OrderDual.toDual_le_toDual]
      have h1 := hK a ha b hb
      constructor
      · intro h
        apply le_of_not_lt
        intro hlt
        rw [h1.2 hlt] at h
        exact absurd h (by decide)
      · intro hle
        cases hb2 : keyLt key a b with
        | false => rfl
        | true => exact absurd (h1.1 hb2) (not_lt_of_le hle))
  exact h.imp (fun hab => OrderDual.toDual_le_toDual.1 hab)

/-- Records with the key of `x` keep their relative order through the sort. -/
theorem jsSort_filter_sameKey {κ : Type} [LinearOrder κ] (K : Expense → κ) (cfg : SortConfig)
    (l : List Expense) (hK : ∀ a ∈ l, ∀ b ∈ l, (keyLt cfg.key a b = true ↔ K a < K b))
    (x : Expense) (hx : x ∈ l) :
    (jsSort (compareExpenses cfg) l).filter (sameKey cfg.key x)
      = l.filter (sameKey cfg.key x) := by
  have hkey : ∀ a ∈ l, sameKey cfg.key x a = true → K a = K x := by
    intro a ha hs
    simp only [sameKey, Bool.and_eq_true, Bool.not_eq_true'] at hs
    apply le_antisymm
    · apply le_of_not_lt
      intro hlt
      rw [(hK x hx a ha).2 hlt] at hs
      exact absurd hs.1 (by decide)
    · apply le_of_not_lt
      intro hlt
      rw [(hK a ha x hx).2 hlt] at hs
      exact absurd hs.2 (by decide)
  have hpair : (l.filter (sameKey cfg.key x)).Pairwise
      (fun a b => compareExpenses cfg a b ≤ 0) := by
    apply List.Pairwise.imp_of_mem (R := fun _ _ => True) _ (List.pairwise_of_forall (by simp))
    intro a b ha hb _
    obtain ⟨ha1, ha2⟩ := List.mem_filter.1 ha
    obtain ⟨hb1, hb2⟩ := List.mem_filter.1 hb
    have hab : K a = K b := by rw [hkey a ha1 ha2, hkey b hb1 hb2]
    have h1 : keyLt cfg.key a b = false := by
      cases h : keyLt cfg.key a b with
      | false => rfl
      | true => exact absurd ((hK a ha1 b hb1).1 h) (by rw [hab]; exact lt_irrefl _)
    have h2 : keyLt cfg.key b a = false := by
      cases h : keyLt cfg.key b a with
      | false => rfl
      | true => exact absurd ((hK b hb1 a ha1).1 h) (by rw [hab]; exact lt_irrefl _)
    simp [compareExpenses, h1, h2]
  have hsub := (jsSort_sublist (compareExpenses cfg) hpair (List.filter_sublist l)).filter
    (sameKey cfg.key x)
  simp only [List.filter_filter, Bool.and_self] at hsub
  have hlen := ((jsSort_perm (compareExpenses cfg) l).filter (sameKey cfg.key x)).length_eq
  exact (hsub.eq_of_length hlen.symm).symm

/-- With pairwise distinct keys the descending sort is the reverse of the ascending one. -/
theorem jsSort_desc_eq_reverse_asc {κ : Type} [LinearOrder κ] (K : Expense → κ)
    (key : SortKey) (l : List Expense)
    (hK : ∀ a ∈ l, ∀ b ∈ l, (keyLt key a b = true ↔ K a < K b))
    (hdistinct : l.Pairwise (fun a b => sameKey key a b = false)) :
    jsSort (compareExpenses { key := key, direction := .desc }) l
      = (jsSort (compareExpenses { key := key, direction := .asc }) l).reverse := by
  have hne : l.Pairwise (fun a b => K a ≠ K b) := by
    apply hdistinct.imp_of_mem
    intro a b ha hb hs hab
    have h1 : keyLt key a b = false := by
      cases h : keyLt key a b with
      | false => rfl
      | true => exact absurd ((hK a ha b hb).1 h) (by rw [hab]; exact lt_irrefl _)
    have h2 : keyLt key b a = false := by
      cases h : keyLt key b a with
      | false => rfl
      | true => exact absurd ((hK b hb a ha).1 h) (by rw [hab]; exact lt_irrefl _)
    simp [sameKey, h1, h2] at hs
  have hsymm : ∀ {a b : Expense}, K a ≠ K b → K b ≠ K a := fun h => Ne.symm h
  have hpa := jsSort_perm (compareExpenses { key := key, direction := .asc }) l
  have hpd := jsSort_perm (compareExpenses { key := key, direction := .desc }) l
  have hasc : (jsSort (compareExpenses { key := key, direction := .asc }) l).Pairwise
      (fun a b => K a < K b) :=
    ((jsSort_asc_pairwise K key l hK).and ((hpa.pairwise_iff hsymm).2 hne)).imp
      (fun h => lt_of_le_of_ne h.1 h.2)
  have hdesc : (jsSort (compareExpenses { key := key, direction := .desc }) l).Pairwise
      (fun a b => K b < K a) :=
    ((jsSort_desc_pairwise K key l hK).and ((hpd.pairwise_iff hsymm).2 hne)).imp
      (fun h => lt_of_le_of_ne h.1 (Ne.symm h.2))
  haveI : IsAntisymm Expense (fun a b => K b < K a) :=
    ⟨fun a b h1 h2 => absurd h1 (lt_asymm h2)⟩
  apply List.eq_of_perm_of_sorted (r := fun a b => K b < K a)
    (hpd.trans (hpa.symm.trans (List.reverse_perm _).symm)) hdesc
  exact List.pairwise_reverse.2 hasc

/-- The sorted list is in the order of the sort configuration. -/
theorem jsSort_inOrder {κ : Type} [LinearOrder κ] (K : Expense → κ) (cfg : SortConfig)
    (l : List Expense) (hK : ∀ a ∈ l, ∀ b ∈ l, (keyLt cfg.key a b = true ↔ K a < K b)) :
    (jsSort (compareExpenses cfg) l).Pairwise (fun a b => inOrder cfg a b = true) := by
  have hmem : ∀ a, a ∈ jsSort (compareExpenses cfg) l → a ∈ l :=
    fun a ha => (jsSort_perm (compareExpenses cfg) l).subset ha
  obtain ⟨key, dir⟩ := cfg
  cases dir with
  | asc =>
    apply (jsSort_asc_pairwise K key l hK).imp_of_mem
    intro a b ha hb hle
    cases h : keyLt key b a with
    | false => simp [inOrder, h]
    | true => exact absurd ((hK b (hmem b hb) a (hmem a ha)).1 h) (not_lt_of_le hle)
  | desc =>
    apply (jsSort_desc_pairwise K key l hK).imp_of_mem
    intro a b ha hb hle
    cases h : keyLt key a b with
    | false => simp [inOrder, h]
    | true => exact absurd ((hK a (hmem a ha) b (hmem b hb)).1 h) (not_lt_of_le hle)

theorem keyLt_date_iff (a b : Expense) :
    keyLt .date a b = true ↔ a.date.toList < b.date.toList := by
  simp [keyLt]

theorem keyLt_amount_iff (l : List Expense) (hreg : regularAmounts l = true) :
    ∀ a ∈ l, ∀ b ∈ l,
      (keyLt .amount a b = true ↔ a.amount.toExtended < b.amount.toExtended) := by
  intro a ha b hb
  simp only [regularAmounts, List.all_eq_true] at hreg
  have h1 := hreg a ha
  have h2 := hreg b hb
  cases hx : a.amount <;> cases hy : b.amount <;> rw [hx] at h1 <;> rw [hy] at h2 <;>
    first
    | exact absurd h1 (by decide)
    | exact absurd h2 (by decide)
    | simp [keyLt, hx, hy, JSNum.lt, JSNum.toExtended]

/-- On amounts that are neither `NaN` nor `-Infinity`, the comparator puts no record
before another exactly when their keys are in the order of the direction. -/
theorem inOrder_iff_ordered (cfg : SortConfig) (a b : Expense)
    (ha : a.amount.isRegular = true) (hb : b.amount.isRegular = true) :
    inOrder cfg a b = true ↔ ordered cfg a b := by
  obtain ⟨key, dir⟩ := cfg
  cases key <;> cases dir
  · simp only [inOrder, ordered, keyLe, keyLt, Bool.not_eq_true', decide_eq_false_iff_not,
      not_lt, String.le_iff_toList_le]
  · simp only [inOrder, ordered, keyLe, keyLt, Bool.not_eq_true', decide_eq_false_iff_not,
      not_lt, String.le_iff_toList_le]
  · cases hx : a.amount <;> cases hy : b.amount <;> rw [hx] at ha <;> rw [hy] at hb <;>
      first
      | exact absurd ha (by decide)
      | exact absurd hb (by decide)
      | simp [inOrder, ordered, keyLe, keyLt, hx, hy, JSNum.lt, JSNum.toExtended]
  · cases hx : a.amount <;> cases hy : b.amount <;> rw [hx] at ha <;> rw [hy] at hb <;>
      first
      | exact absurd ha (by decide)
      | exact absurd hb (by decide)
      | simp [inOrder, ordered, keyLe, keyLt, hx, hy, JSNum.lt, JSNum.toExtended]

/-- On amounts that are neither `NaN` nor `-Infinity`, neither key is below the other
exactly when the keys are equal. -/
theorem sameKey_eq_keyEq (key : SortKey) (a b : Expense)
    (ha : a.amount.isRegular = true) (hb : b.amount.isRegular = true) :
    sameKey key a b = keyEq key a b := by
  cases key
  · rw [Bool.eq_iff_iff]
    simp only [sameKey, keyEq, keyLt, Bool.and_eq_true, Bool.not_eq_true',
      decide_eq_false_iff_not, not_lt, decide_eq_true_eq]
    rw [← String.toList_inj]
    exact ⟨fun h => le_antisymm h.2 h.1, fun h => ⟨h.ge, h.le⟩⟩
  · cases hx : a.amount <;> cases hy : b.amount <;> rw [hx] at ha <;> rw [hy] at hb <;>
      first
      | exact absurd ha (by decide)
      | exact absurd hb (by decide)
      | (rw [Bool.eq_iff_iff]
         simp [sameKey, keyEq, keyLt, hx, hy, JSNum.lt]
         try exact ⟨fun h => le_antisymm h.2 h.1, fun h => ⟨h.ge, h.le⟩⟩)

theorem regularAmounts_filteredExpenses (lc : String → String) (s : State)
    (hreg : regularAmounts s.expenses = true) :
    regularAmounts (filteredExpenses lc s) = true := by
  simp only [regularAmounts, List.all_eq_true, filteredExpenses, List.mem_filter] at *
  intro e he
  exact hreg e he.1.1

/-! ## Filtering -/

theorem includesChars_iff (hay needle : List Char) :
    includesChars hay needle = true ↔ List.IsInfix needle hay := by
  induction hay with
  | nil =>
    cases needle with
    | nil => simp [includesChars]
    | cons c t => simp [includesChars]
  | cons c t ih =>
    rw [includesChars, Bool.or_eq_true, ih, List.infix_cons_iff, List.isPrefixOf_iff_prefix]

theorem includesChars_nil (hay : List Char) : includesChars hay [] = true :=
  (includesChars_iff hay []).2 (List.nil_infix)

/-! ## Every stored amount is a regular number -/

theorem regularAmounts_cons (e : Expense) (l : List Expense) :
    regularAmounts (e :: l) = true ↔ e.amount.isRegular = true ∧ regularAmounts l = true := by
  simp [regularAmounts]

theorem validateForm_nil_of_keys (d a : String)
    (h : ¬ (validateForm d a).keys.length > 0) : validateForm d a = [] := by
  cases hv : validateForm d a with
  | nil => rfl
  | cons p rest =>
    rw [hv] at h
    exact absurd (by simp [Obj.keys]) h

/-- On a `0x`, `0o` or `0b` integer literal `parseFloat` reads the leading `0`. -/
theorem parseFloatLit_of_nonDecimal (s : List Char) (n : Nat)
    (h : nonDecimalLiteral (trimChars s) = some n) :
    parseFloatLit s = some (.dec false 0 0) := by
  obtain ⟨w, hw1, _⟩ := trimStartChars_eq s
  unfold parseFloatLit
  rw [hw1]
  cases ht : trimChars s with
  | nil => rw [ht] at h; simp [nonDecimalLiteral] at h
  | cons z t1 =>
    cases t1 with
    | nil => rw [ht] at h; simp [nonDecimalLiteral] at h
    | cons c t2 =>
      cases t2 with
      | nil => rw [ht] at h; simp [nonDecimalLiteral] at h
      | cons d ds =>
        rw [ht] at h
        by_cases hz : z = '0'
        · subst hz
          have hc : c = 'x' ∨ c = 'X' ∨ c = 'o' ∨ c = 'O' ∨ c = 'b' ∨ c = 'B' := by
            by_contra hno
            simp only [not_or] at hno
            obtain ⟨h1, h2, h3, h4, h5, h6⟩ := hno
            simp [nonDecimalLiteral, h1, h2, h3, h4, h5, h6] at h
          have hfacts : isDecDigit c = false ∧ c ≠ '.' ∧ ¬ (c = 'e' ∨ c = 'E') := by
            rcases hc with h1 | h1 | h1 | h1 | h1 | h1 <;> subst h1 <;> decide
          obtain ⟨hd, hdot, hexp⟩ := hfacts
          have htw : List.takeWhile isDecDigit ('0' :: c :: (d :: ds ++ w)) = ['0'] := by
            have h0 : isDecDigit '0' = true := by decide
            simp [List.takeWhile_cons, h0, hd]
          have hdw : List.dropWhile isDecDigit ('0' :: c :: (d :: ds ++ w))
              = c :: (d :: ds ++ w) := by
            have h0 : isDecDigit '0' = true := by decide
            simp [List.dropWhile_cons, h0, hd]
          have hpre : "Infinity".toList.isPrefixOf ('0' :: c :: (d :: ds ++ w)) = false := by
            show (['I', 'n', 'f', 'i', 'n', 'i', 't', 'y'] : List Char).isPrefixOf _ = false
            simp [List.isPrefixOf]
          have hplus : ¬ ('0' : Char) = '+' := by decide
          have hminus : ¬ ('0' : Char) = '-' := by decide
          show Option.map (fun p => p.1) (scanDecimal ('0' :: c :: (d :: ds ++ w))) = _
          simp only [scanDecimal, hplus, hminus, if_false, scanUnsigned, hpre,
            Bool.false_eq_true, htw, hdw, scanFraction, hdot, withExponent, scanExponent, hexp]
          have hval : decDigitsVal ['0'] = 0 := by decide
          simp [hval]
        · exfalso
          revert h
          unfold nonDecimalLiteral
          split
          · rename_i heq
            simp only [List.cons.injEq] at heq
            exact absurd heq.1 hz
          · simp

/-- The amount stored for an accepted amount text is neither `NaN` nor `-Infinity`. -/
theorem parseFloat_isRegular_of_accepted (a : String)
    (hpos : JSNum.gt (Number a) (JSNum.fin 0) = true) : (parseFloat a).isRegular = true := by
  cases hnd : nonDecimalLiteral (trimChars a.toList) with
  | none =>
    have hdec : decimalText a = true := by
      unfold decimalText
      rw [hnd]
      rfl
    obtain ⟨_, h2⟩ := parseFloat_eq_Number_of_accepted a hdec hpos
    cases hv : parseFloat a with
    | nan => rw [hv] at h2; exact absurd h2 (by decide)
    | negInf => rw [hv] at h2; exact absurd h2 (by decide)
    | fin q => rfl
    | posInf => rfl
  | some n =>
    unfold parseFloat
    rw [parseFloatLit_of_nonDecimal a.toList n hnd]
    simp [litValue, NumLit.value, JSNum.ofRat_zero, JSNum.isRegular]

/-- One action keeps the amounts of the ledger regular. -/
theorem step_regularAmounts (now : Nat) (a : Action) (s : State)
    (hreg : regularAmounts s.expenses = true) :
    regularAmounts (step now a s).expenses = true := by
  cases a with
  | changeDescription v =>
    simp only [step, changeDescription]
    split <;> exact hreg
  | changeAmount v =>
    simp only [step, changeAmount]
    split <;> exact hreg
  | submitAdd iso =>
    simp only [step, handleAddExpense, showNotification]
    split
    · exact hreg
    · rename_i hk
      obtain ⟨_, _, h3⟩ := (validateForm_eq_nil_iff _ _).1 (validateForm_nil_of_keys _ _ hk)
      rw [regularAmounts_cons]
      exact ⟨parseFloat_isRegular_of_accepted _ h3, hreg⟩
  | submitEdit d am c =>
    simp only [step, handleSubmit, handleUpdateExpense, showNotification]
    split
    · exact hreg
    · split
      · exact hreg
      · rename_i hk
        obtain ⟨_, _, h3⟩ := (validateForm_eq_nil_iff _ _).1 (validateForm_nil_of_keys _ _ hk)
        simp only [regularAmounts, List.all_eq_true] at hreg ⊢
        intro e he
        simp only [updateLedger, List.mem_map] at he
        obtain ⟨e0, he0, heq⟩ := he
        split at heq
        · subst heq
          exact parseFloat_isRegular_of_accepted _ h3
        · subst heq
          exact hreg e0 he0
  | deleteExpense id =>
    simp only [step, handleDeleteExpense, showNotification, deleteFromLedger]
    simp only [regularAmounts, List.all_eq_true] at hreg ⊢
    intro e he
    exact hreg e (List.mem_filter.1 he).1
  | changeCategory v => exact hreg
  | changeSearchTerm v => exact hreg
  | changeFilterCategory v => exact hreg
  | changeSort cfg => exact hreg
  | clearFilters => exact hreg
  | loadMore => exact hreg
  | toggleTheme => exact hreg
  | beginEdit exp => exact hreg
  | cancelEdit => exact hreg

theorem run_regularAmounts (events : List (Nat × Action)) :
    ∀ s : State, regularAmounts s.expenses = true →
      regularAmounts (run events s).expenses = true := by
  induction events with
  | nil => intro s h; exact h
  | cons e rest ih =>
    intro s h
    obtain ⟨t, a⟩ := e
    exact ih _ (step_regularAmounts t a (fireDue t s) (by rw [fireDue_expenses]; exact h))

/-- Every ledger a session builds from the seed has amounts that are neither `NaN` nor
`-Infinity`. -/
theorem regularAmounts_reachable (events : List (Nat × Action)) :
    regularAmounts (run events initialState).expenses = true :=
  run_regularAmounts events initialState (by decide!)

/-! ## Every stored amount is a binary64 value that is not negative -/

theorem parseFloat_isBinary (a : String) : (parseFloat a).isBinary = true := by
  unfold parseFloat litValue
  cases parseFloatLit a.toList with
  | none => rfl
  | some l =>
    cases l with
    | inf b => cases b <;> rfl
    | dec b m e => exact JSNum.ofRat_isBinary _

/-- On a `0x`, `0o` or `0b` integer literal `parseFloat` gives `0`. -/
theorem parseFloat_of_nonDecimal (a : String) (h : decimalText a = false) :
    parseFloat a = JSNum.fin 0 := by
  unfold decimalText at h
  cases hnd : nonDecimalLiteral (trimChars a.toList) with
  | none => rw [hnd] at h; exact absurd h (by decide)
  | some n =>
    unfold parseFloat
    rw [parseFloatLit_of_nonDecimal a.toList n hnd]
    simp [litValue, NumLit.value, JSNum.ofRat_zero]

/-- The amount stored for an accepted amount text is `+Infinity` or a finite binary64 value
that is not negative. -/
theorem parseFloat_isNonneg_of_accepted (a : String)
    (hpos : JSNum.gt (Number a) (JSNum.fin 0) = true) :
    (parseFloat a).isNonneg = true ∧ (parseFloat a).isBinary = true := by
  refine ⟨?_, parseFloat_isBinary a⟩
  cases hdec : decimalText a with
  | true =>
    obtain ⟨_, h2⟩ := parseFloat_eq_Number_of_accepted a hdec hpos
    cases hv : parseFloat a with
    | nan => rw [hv] at h2; exact absurd h2 (by decide)
    | negInf => rw [hv] at h2; exact absurd h2 (by decide)
    | fin q =>
      rw [hv] at h2
      have : 0 < q := by simpa [JSNum.gt, JSNum.lt] using h2
      simpa [JSNum.isNonneg] using this.le
    | posInf => rfl
  | false =>
    rw [parseFloat_of_nonDecimal a hdec]
    simp [JSNum.isNonneg]

/-- One action keeps the amounts of the ledger binary64 values that are not negative. -/
theorem step_nonnegAmounts (now : Nat) (a : Action) (s : State)
    (hreg : nonnegAmounts s.expenses = true) :
    nonnegAmounts (step now a s).expenses = true := by
  cases a with
  | changeDescription v =>
    simp only [step, changeDescription]
    split <;> exact hreg
  | changeAmount v =>
    simp only [step, changeAmount]
    split <;> exact hreg
  | submitAdd iso =>
    simp only [step, handleAddExpense, showNotification]
    split
    · exact hreg
    · rename_i hk
      obtain ⟨_, _, h3⟩ := (validateForm_eq_nil_iff _ _).1 (validateForm_nil_of_keys _ _ hk)
      rw [nonnegAmounts_cons]
      exact ⟨parseFloat_isNonneg_of_accepted _ h3, hreg⟩
  | submitEdit d am c =>
    simp only [step, handleSubmit, handleUpdateExpense, showNotification]
    split
    · exact hreg
    · split
      · exact hreg
      · rename_i hk
        obtain ⟨_, _, h3⟩ := (validateForm_eq_nil_iff _ _).1 (validateForm_nil_of_keys _ _ hk)
        simp only [nonnegAmounts, List.all_eq_true, Bool.and_eq_true] at hreg ⊢
        intro e he
        simp only [updateLedger, List.mem_map] at he
        obtain ⟨e0, he0, heq⟩ := he
        split at heq
        · subst heq
          exact parseFloat_isNonneg_of_accepted _ h3
        · subst heq
          exact hreg e0 he0
  | deleteExpense id =>
    simp only [step, handleDeleteExpense, showNotification, deleteFromLedger]
    exact nonnegAmounts_filter _ _ hreg
  | changeCategory v => exact hreg
  | changeSearchTerm v => exact hreg
  | changeFilterCategory v => exact hreg
  | changeSort cfg => exact hreg
  | clearFilters => exact hreg
  | loadMore => exact hreg
  | toggleTheme => exact hreg
  | beginEdit exp => exact hreg
  | cancelEdit => exact hreg

theorem run_nonnegAmounts (events : List (Nat × Action)) :
    ∀ s : State, nonnegAmounts s.expenses = true →
      nonnegAmounts (run events s).expenses = true := by
  induction events with
  | nil => intro s h; exact h
  | cons e rest ih =>
    intro s h
    obtain ⟨t, a⟩ := e
    exact ih _ (step_nonnegAmounts t a (fireDue t s) (by rw [fireDue_expenses]; exact h))

/-- Every ledger a session builds from the seed has amounts that are `+Infinity` or finite
binary64 values that are not negative. -/
theorem nonnegAmounts_reachable (events : List (Nat × Action)) :
    nonnegAmounts (run events initialState).expenses = true :=
  run_nonnegAmounts events initialState (by decide!)

/-! ## Exact sums under removing and editing -/

/-- The exact sum of a ledger splits into the sum of the records kept by a deletion and
the sum of the records it drops. -/
theorem exactTotal_split (id : Nat) (l : List Expense) :
    exactTotal l = exactTotal (deleteFromLedger id l)
      + exactTotal (l.filter (fun e => decide (e.id = id))) := by
  simp only [exactTotal, deleteFromLedger]
  induction l with
  | nil => simp
  | cons x xs ih =>
    by_cases hx : x.id = id
    · simp only [List.filter_cons, hx, ne_eq, not_true_eq_false, decide_False,
        Bool.false_eq_true, if_false, decide_True, if_true, List.map_cons, List.sum_cons, ih]
      ring
    · simp only [List.filter_cons, hx, ne_eq, not_false_eq_true, decide_True, if_true,
        decide_False, Bool.false_eq_true, if_false, List.map_cons, List.sum_cons, ih]
      ring

/-- Replacing the one record of an id moves the exact sum by the difference of the
amounts. -/
theorem exactTotal_updateLedger (old new : Expense) (hid : new.id = old.id) (l : List Expense)
    (hnodup : (idsOf l).Nodup) (hmem : old ∈ l) :
    exactTotal (updateLedger new l) + old.amount.toRat = exactTotal l + new.amount.toRat := by
  simp only [exactTotal]
  induction l with
  | nil => simp at hmem
  | cons x xs ih =>
    simp only [idsOf, List.map_cons, List.nodup_cons] at hnodup
    by_cases hx : x = old
    · subst hx
      have hno : ∀ e ∈ xs, e.id ≠ new.id := by
        intro e he hid2
        exact hnodup.1 (List.mem_map.2 ⟨e, he, by rw [hid2, hid]⟩)
      have hxs := updateLedger_of_no_match new xs hno
      have hhead : updateLedger new (x :: xs) = new :: updateLedger new xs := by
        simp [updateLedger, hid]
      rw [hhead, hxs]
      simp only [List.map_cons, List.sum_cons]
      ring
    · have hmem2 : old ∈ xs := by
        rcases List.mem_cons.1 hmem with h | h
        · exact absurd h.symm hx
        · exact h
      have hne : x.id ≠ new.id := by
        intro h
        exact hnodup.1 (List.mem_map.2 ⟨old, hmem2, by rw [h, hid]⟩)
      have hhead : updateLedger new (x :: xs) = x :: updateLedger new xs := by
        simp [updateLedger, hne]
      rw [hhead]
      simp only [List.map_cons, List.sum_cons]
      have := ih hnodup.2 hmem2
      linarith

/-- Two totals, each within `n` roundings of its exact sum: their difference is the
difference of the exact sums up to the slack of `n` roundings on both sums. -/
theorem JSNum.abs_sub_sub_le {n : Nat} {T T2 q q2 : ℚ} (hq : 0 ≤ q) (hq2 : 0 ≤ q2)
    (hT : JSNum.within n (JSNum.fin T) q) (hT2 : JSNum.within n (JSNum.fin T2) q2) :
    |(T2 - T) - (q2 - q)| ≤ JSNum.roundingSlack n * (q + q2) := by
  obtain ⟨t, ht, ht1, ht2⟩ := hT
  obtain ⟨t2, ht', ht3, ht4⟩ := hT2
  simp only [JSNum.fin.injEq] at ht ht'
  subst ht ht'
  have hu := JSNum.unitRoundoff_pos
  have hu1 := JSNum.unitRoundoff_lt_one
  have hA : (1 : ℚ) ≤ (1 + JSNum.unitRoundoff) ^ n := one_le_pow₀ (by linarith)
  have hB : (1 - JSNum.unitRoundoff) ^ n ≤ 1 := pow_le_one₀ (by linarith) (by linarith)
  unfold JSNum.roundingSlack
  rw [abs_le]
  constructor <;> nlinarith

/-! ## The ledger invariant -/

theorem validLedger_iff (l : List Expense) :
    validLedger l = true ↔
      ∀ e ∈ l, JSNum.gt e.amount (JSNum.fin 0) = true ∧ trim e.description ≠ "" := by
  simp [validLedger]

/-- A record built from an accepted form with a decimal amount text satisfies the ledger
invariant. -/
theorem accepted_record_valid (d a : String) (hdec : decimalText a = true)
    (hvalid : validateForm d a = []) :
    JSNum.gt (parseFloat a) (JSNum.fin 0) = true ∧ trim d ≠ "" := by
  obtain ⟨h1, _, h3⟩ := (validateForm_eq_nil_iff d a).1 hvalid
  exact ⟨(parseFloat_eq_Number_of_accepted a hdec h3).2, h1⟩

/-- One action on number-input texts keeps the ledger invariant and a decimal amount text
in the add form. -/
theorem step_validLedger (now : Nat) (a : Action) (s : State)
    (hinput : numberInputs [(now, a)] = true)
    (hvalid : validLedger s.expenses = true) (hamount : decimalText s.amount = true) :
    validLedger (step now a s).expenses = true ∧ decimalText (step now a s).amount = true := by
  cases a with
  | changeDescription v =>
    simp only [step, changeDescription]
    split <;> exact ⟨hvalid, hamount⟩
  | changeAmount v =>
    have hv : decimalText v = true := by simpa [numberInputs] using hinput
    simp only [step, changeAmount]
    split <;> exact ⟨hvalid, hv⟩
  | submitAdd iso =>
    simp only [step, handleAddExpense, showNotification]
    split
    · exact ⟨hvalid, hamount⟩
    · rename_i hk
      have hnil := validateForm_nil_of_keys _ _ hk
      obtain ⟨h1, h2⟩ := accepted_record_valid _ _ hamount hnil
      have hempty : decimalText "" = true := by decide
      refine ⟨?_, hempty⟩
      rw [validLedger_iff] at hvalid ⊢
      intro e he
      rcases List.mem_cons.1 he with h | h
      · subst h
        exact ⟨h1, h2⟩
      · exact hvalid e h
  | submitEdit d am c =>
    have hv : decimalText am = true := by simpa [numberInputs] using hinput
    simp only [step, handleSubmit, handleUpdateExpense, showNotification]
    split
    · exact ⟨hvalid, hamount⟩
    · split
      · exact ⟨hvalid, hamount⟩
      · rename_i hk
        have hnil := validateForm_nil_of_keys _ _ hk
        obtain ⟨h1, h2⟩ := accepted_record_valid _ _ hv hnil
        refine ⟨?_, hamount⟩
        rw [validLedger_iff] at hvalid ⊢
        intro e he
        simp only [updateLedger, List.mem_map] at he
        obtain ⟨e0, he0, heq⟩ := he
        split at heq
        · subst heq
          exact ⟨h1, h2⟩
        · subst heq
          exact hvalid e0 he0
  | deleteExpense id =>
    refine ⟨?_, hamount⟩
    simp only [step, handleDeleteExpense, showNotification, deleteFromLedger]
    rw [validLedger_iff] at hvalid ⊢
    intro e he
    exact hvalid e (List.mem_filter.1 he).1
  | changeCategory v => exact ⟨hvalid, hamount⟩
  | changeSearchTerm v => exact ⟨hvalid, hamount⟩
  | changeFilterCategory v => exact ⟨hvalid, hamount⟩
  | changeSort cfg => exact ⟨hvalid, hamount⟩
  | clearFilters => exact ⟨hvalid, hamount⟩
  | loadMore => exact ⟨hvalid, hamount⟩
  | toggleTheme => exact ⟨hvalid, hamount⟩
  | beginEdit exp => exact ⟨hvalid, hamount⟩
  | cancelEdit => exact ⟨hvalid, hamount⟩

theorem fireDue_amount (t : Nat) (s : State) : (fireDue t s).amount = s.amount := by
  unfold fireDue
  split <;> rfl

theorem run_validLedger (events : List (Nat × Action)) :
    ∀ s : State, numberInputs events = true → validLedger s.expenses = true →
      decimalText s.amount = true → validLedger (run events s).expenses = true := by
  induction events with
  | nil => intro s _ h _; exact h
  | cons e rest ih =>
    intro s hin hvalid hamount
    obtain ⟨t, a⟩ := e
    simp only [numberInputs, List.all_cons, Bool.and_eq_true] at hin
    have hone : numberInputs [(t, a)] = true := by
      simp only [numberInputs, List.all_cons, List.all_nil, Bool.and_true]
      exact hin.1
    have hstep := step_validLedger t a (fireDue t s) hone
      (by rw [fireDue_expenses]; exact hvalid) (by rw [fireDue_amount]; exact hamount)
    exact ih _ hin.2 hstep.1 hstep.2

/-! ## C1: adding a valid expense -/

/-- C1 (amended): when `validateForm(description, amount)` returns the empty error set,
`handleAddExpense` yields a ledger one longer than before, whose first record is the new
one and whose other records are the old ledger in its order; the new record carries the
submitted description and category, the clock reading as id, the timestamp as date, and
as amount `parseFloat` of the submitted amount text: this is the numeric value
`Number(text)` of the text when the text is not a `0x`, `0o` or `0b` integer literal, and
`0` when it is one. -/
theorem handleAddExpense_valid (now : Nat) (iso : String) (s : State)
    (hvalid : validateForm s.description s.amount = []) :
    (handleAddExpense now iso s).expenses.length = s.expenses.length + 1 ∧
    (handleAddExpense now iso s).expenses =
      { id := now, description := s.description, amount := parseFloat s.amount,
        category := s.category, date := iso } :: s.expenses ∧
    (handleAddExpense now iso s).expenses.tail = s.expenses ∧
    (∃ r, (handleAddExpense now iso s).expenses.head? = some r ∧
      r.description = s.description ∧ r.category = s.category ∧
      r.id = now ∧ r.date = iso ∧
      (decimalText s.amount = true → r.amount = Number s.amount) ∧
      (decimalText s.amount = false → r.amount = JSNum.fin 0)) := by
  have h : (handleAddExpense now iso s).expenses =
      { id := now, description := s.description, amount := parseFloat s.amount,
        category := s.category, date := iso } :: s.expenses := by
    simp [handleAddExpense, hvalid, Obj.keys, showNotification]
  refine ⟨by rw [h]; rfl, h, by rw [h]; rfl, ?_⟩
  rw [h]
  refine ⟨_, rfl, rfl, rfl, rfl, rfl, ?_, ?_⟩
  · intro hdec
    obtain ⟨_, _, h3⟩ := (validateForm_eq_nil_iff _ _).1 hvalid
    exact (parseFloat_eq_Number_of_accepted s.amount hdec h3).1
  · intro hdec
    exact parseFloat_of_nonDecimal s.amount hdec

theorem handleAddExpense_valid_witness :
    let s : State := { initialState with description := "Lunch", amount := "12.5" }
    validateForm s.description s.amount = [] ∧
    Number "12.5" = JSNum.fin 12.5 ∧
    (handleAddExpense 1700000000000 "2023-11-14T22:13:20.000Z" s).expenses.length = 8 ∧
    (handleAddExpense 1700000000000 "2023-11-14T22:13:20.000Z" s).expenses.head?
      = some { id := 1700000000000, description := "Lunch", amount := .fin 12.5,
               category := "food", date := "2023-11-14T22:13:20.000Z" } := by
  intro s
  have h := handleAddExpense_valid 1700000000000 "2023-11-14T22:13:20.000Z" s (by decide!)
  refine ⟨by decide!, by decide!, h.1, ?_⟩
  rw [h.2.1]
  decide!

/-- C1 as stated fails on the amount text "0x10": `validateForm` returns the empty error
set, the numeric value of the text is 16, and the amount of the new record is 0. -/
theorem handleAddExpense_hex_counterexample :
    let s : State := { initialState with description := "Taxi", amount := "0x10" }
    validateForm s.description s.amount = [] ∧
    Number s.amount = JSNum.fin 16 ∧
    (handleAddExpense 1000 "2023-11-14T22:13:20.000Z" s).expenses.head?
      = some { id := 1000, description := "Taxi", amount := .fin 0, category := "food",
               date := "2023-11-14T22:13:20.000Z" } ∧
    JSNum.fin 0 ≠ Number s.amount := by
  decide!

/-! ## C2: adding an invalid expense -/

/-- C2: when the description is blank after trimming or the amount text is empty,
converts to `NaN` or converts to a value `<= 0`, `handleAddExpense` leaves the ledger as it
is and sets the error set to exactly: "Description is required." under `description` iff
the description is blank, then under `amount` "Amount is required." iff the text is empty
and "Please enter a valid positive number." iff it is non-empty and non-numeric or not
positive; no other field is present. -/
theorem handleAddExpense_invalid (now : Nat) (iso : String) (s : State)
    (hinvalid : trim s.description = "" ∨ s.amount = "" ∨ isNaN s.amount = true ∨
      (Number s.amount).le (JSNum.fin 0) = true) :
    (handleAddExpense now iso s).expenses = s.expenses ∧
    (handleAddExpense now iso s).errors =
      (if trim s.description = "" then [("description", some "Description is required.")]
        else []) ++
      (if s.amount = "" then [("amount", some "Amount is required.")]
        else if isNaN s.amount = true ∨ (Number s.amount).le (JSNum.fin 0) = true then
          [("amount", some "Please enter a valid positive number.")]
        else []) ∧
    ((handleAddExpense now iso s).errors.get "description"
        = some (some "Description is required.") ↔ trim s.description = "") ∧
    ((handleAddExpense now iso s).errors.get "description" = none ↔ trim s.description ≠ "") ∧
    ((handleAddExpense now iso s).errors.get "amount"
        = some (some "Amount is required.") ↔ s.amount = "") ∧
    ((handleAddExpense now iso s).errors.get "amount"
        = some (some "Please enter a valid positive number.") ↔
      s.amount ≠ "" ∧ (isNaN s.amount = true ∨ (Number s.amount).le (JSNum.fin 0) = true)) ∧
    (∀ k, k ∈ (handleAddExpense now iso s).errors.keys → k = "description" ∨ k = "amount") := by
  have hne : validateForm s.description s.amount ≠ [] := by
    intro h
    obtain ⟨h1, h2, h3⟩ := (validateForm_eq_nil_iff _ _).1 h
    obtain ⟨h4, h5⟩ := (JSNum.gt_zero_iff _).1 h3
    rcases hinvalid with h | h | h | h
    · exact h1 h
    · exact h2 h
    · simp [isNaN, h4] at h
    · simp [h5] at h
  have hlen : (validateForm s.description s.amount).keys.length > 0 := by
    cases hv : validateForm s.description s.amount with
    | nil => exact absurd hv hne
    | cons p rest => simp [Obj.keys]
  have herr : (handleAddExpense now iso s).errors = validateForm s.description s.amount := by
    simp [handleAddExpense, hlen]
  have hexp : (handleAddExpense now iso s).expenses = s.expenses := by
    simp [handleAddExpense, hlen]
  rw [herr, validateForm_eq]
  refine ⟨hexp, rfl, ?_, ?_, ?_, ?_, ?_⟩ <;>
    by_cases hd : trim s.description = "" <;> by_cases ha : s.amount = "" <;>
    by_cases hn : (isNaN s.amount = true ∨ (Number s.amount).le (JSNum.fin 0) = true) <;>
    simp [hd, ha, hn, Obj.get, Obj.keys]

theorem handleAddExpense_invalid_witness :
    let s : State := { initialState with description := "   ", amount := "-3" }
    (handleAddExpense 1700000000000 "2023-11-14T22:13:20.000Z" s).expenses = initialExpenses ∧
    (handleAddExpense 1700000000000 "2023-11-14T22:13:20.000Z" s).errors =
      [("description", some "Description is required."),
       ("amount", some "Please enter a valid positive number.")] := by
  intro s
  have h := handleAddExpense_invalid 1700000000000 "2023-11-14T22:13:20.000Z" s
    (Or.inl (by decide))
  refine ⟨h.1, ?_⟩
  rw [h.2.1]
  decide!

/-! ## C3: the amount entry of the error set -/

/-- C3 (amended): `validateForm` reports "Amount is required." exactly when the amount text
is empty; it reports "Please enter a valid positive number." exactly when the text is not
empty and converts (`Number`) to `NaN` or to a value `<= 0`; it reports no amount error
exactly when the text is not empty and converts to a value `> 0`, `+Infinity` included;
and the amount entry does not depend on the description. -/
theorem validateForm_amount (d a : String) :
    ((validateForm d a).get "amount" = some (some "Amount is required.") ↔ a = "") ∧
    ((validateForm d a).get "amount" = some (some "Please enter a valid positive number.") ↔
      a ≠ "" ∧ (Number a = JSNum.nan ∨ (Number a).le (JSNum.fin 0) = true)) ∧
    ((validateForm d a).get "amount" = none ↔
      a ≠ "" ∧ JSNum.gt (Number a) (JSNum.fin 0) = true) ∧
    (∀ d2 : String, (validateForm d2 a).get "amount" = (validateForm d a).get "amount") := by
  have hnan : isNaN a = true ↔ Number a = JSNum.nan := by
    unfold isNaN
    cases Number a <;> simp [JSNum.isNaN]
  have hget : ∀ d1 : String, (validateForm d1 a).get "amount" =
      if a = "" then some (some "Amount is required.")
      else if isNaN a = true ∨ (Number a).le (JSNum.fin 0) = true then
        some (some "Please enter a valid positive number.")
      else none := by
    intro d1
    rw [validateForm_eq]
    by_cases hd : trim d1 = "" <;> by_cases ha : a = "" <;>
      by_cases hn : (isNaN a = true ∨ (Number a).le (JSNum.fin 0) = true) <;>
      simp [hd, ha, hn, Obj.get]
  refine ⟨?_, ?_, ?_, ?_⟩
  · rw [hget]
    by_cases ha : a = "" <;>
      by_cases hn : (isNaN a = true ∨ (Number a).le (JSNum.fin 0) = true) <;>
      simp [ha, hn]
  · rw [hget, ← hnan]
    by_cases ha : a = "" <;>
      by_cases hn : (isNaN a = true ∨ (Number a).le (JSNum.fin 0) = true) <;>
      simp [ha, hn]
  · rw [hget, JSNum.gt_zero_iff]
    by_cases ha : a = ""
    · simp [ha]
    by_cases hn : (isNaN a = true ∨ (Number a).le (JSNum.fin 0) = true)
    · simp only [ha, hn, if_true, if_false, reduceCtorEq, ne_eq, not_false_eq_true, true_and,
        false_iff, not_and, Bool.not_eq_false]
      intro h1
      rcases hn with h | h
      · rw [isNaN, h1] at h
        exact absurd h (by decide)
      · exact h
    · simp only [ha, hn, if_false, ne_eq, not_false_eq_true, true_and, true_iff]
      simp only [not_or, Bool.not_eq_true] at hn
      exact ⟨hn.1, hn.2⟩
  · intro d2
    rw [hget, hget]

/-- C3 as stated fails on the text "Infinity": it does not convert to a finite number,
yet `validateForm` reports no amount error for it. -/
theorem validateForm_infinity_counterexample :
    Number "Infinity" = JSNum.posInf ∧
    (Number "Infinity").isFinite = false ∧
    (validateForm "Lunch" "Infinity").get "amount" = none ∧
    validateForm "Lunch" "Infinity" = [] := by
  decide!

/-! ## C4: the ledger invariant -/

/-- C4 (amended): in every ledger reached from the seed ledger by a session of actions
whose amount texts are not `0x`, `0o` or `0b` integer literals (the values an
`<input type="number">` delivers), every record has an amount above `0` and a description
that is not blank after trimming; and for every such amount text accepted by
`validateForm`, the stored amount `parseFloat(text)` equals `Number(text)` and is above
`0`. -/
theorem validLedger_of_numberInputs (events : List (Nat × Action))
    (hinputs : numberInputs events = true) :
    (∀ e ∈ (run events initialState).expenses,
      JSNum.gt e.amount (JSNum.fin 0) = true ∧ trim e.description ≠ "") ∧
    (∀ d a : String, decimalText a = true → validateForm d a = [] →
      parseFloat a = Number a ∧ JSNum.gt (parseFloat a) (JSNum.fin 0) = true) := by
  refine ⟨?_, ?_⟩
  · rw [← validLedger_iff]
    exact run_validLedger events initialState hinputs (by decide!) (by decide)
  · intro d a hdec hvalid
    obtain ⟨_, _, h3⟩ := (validateForm_eq_nil_iff d a).1 hvalid
    exact parseFloat_eq_Number_of_accepted a hdec h3

theorem validLedger_of_numberInputs_witness :
    let events : List (Nat × Action) :=
      [ (1000, .changeDescription "Tea"), (1000, .changeAmount "2.5"), (1001, .submitAdd "d1"),
        (1002, .beginEdit gasoline), (1003, .submitEdit "Gasoline" "50.00" "transport"),
        (1004, .deleteExpense 3) ]
    numberInputs events = true ∧
    (run events initialState).expenses.length = 7 ∧
    ∀ e ∈ (run events initialState).expenses,
      JSNum.gt e.amount (JSNum.fin 0) = true ∧ trim e.description ≠ "" := by
  intro events
  exact ⟨by decide, by decide!, (validLedger_of_numberInputs events (by decide)).1⟩

/-- C4 as stated fails on the amount text "0x10": `validateForm` accepts it because
`Number("0x10")` is 16, and `handleAddExpense` stores `parseFloat("0x10")`, which is 0. -/
theorem validLedger_hex_counterexample :
    let events : List (Nat × Action) :=
      [ (1000, .changeDescription "Taxi"), (1000, .changeAmount "0x10"),
        (1000, .submitAdd "2023-11-14T22:13:20.000Z") ]
    validateForm "Taxi" "0x10" = [] ∧
    Number "0x10" = JSNum.fin 16 ∧
    parseFloat "0x10" = JSNum.fin 0 ∧
    (run events initialState).expenses.head?
      = some { id := 1000, description := "Taxi", amount := .fin 0, category := "food",
               date := "2023-11-14T22:13:20.000Z" } ∧
    ¬ (∀ e ∈ (run events initialState).expenses, JSNum.gt e.amount (JSNum.fin 0) = true) := by
  decide!

/-! ## C5: ids -/

/-- C5 (amended): in every ledger reached from the seed ledger (ids 1..7) by a session of
actions in which the add form is submitted at strictly increasing clock readings, all
above 7, the ids of the records are pairwise distinct. -/
theorem ids_nodup_of_increasing_clock (events : List (Nat × Action))
    (hinc : (addClockReadings events).Pairwise (fun x y => x < y))
    (hseed : ∀ t ∈ addClockReadings events, 7 < t) :
    (idsOf (run events initialState).expenses).Nodup := by
  apply run_idsOf_nodup events initialState (by decide) hinc
  intro t ht i hi
  have h7 : i ≤ 7 := by
    have : ∀ j ∈ idsOf initialState.expenses, j ≤ 7 := by decide
    exact this i hi
  exact Nat.lt_of_le_of_lt h7 (hseed t ht)

theorem ids_nodup_of_increasing_clock_witness :
    let events : List (Nat × Action) :=
      [ (1000, .changeDescription "Tea"), (1000, .changeAmount "2"), (1000, .submitAdd "d1"),
        (1000, .changeDescription "Bun"), (1000, .changeAmount "1"), (1001, .submitAdd "d2"),
        (1002, .deleteExpense 3) ]
    addClockReadings events = [1000, 1001] ∧
    idsOf (run events initialState).expenses = [1001, 1000, 1, 2, 4, 5, 6, 7] ∧
    (idsOf (run events initialState).expenses).Nodup := by
  intro events
  exact ⟨by decide, by decide!,
    ids_nodup_of_increasing_clock events (by decide) (by decide)⟩

/-- C5 as stated fails: the add form submitted twice at the same clock reading 1000
(readings non-decreasing) leaves two records with id 1000. -/
theorem ids_same_clock_counterexample :
    let events : List (Nat × Action) :=
      [ (1000, .changeDescription "Tea"), (1000, .changeAmount "2"), (1000, .submitAdd "d1"),
        (1000, .changeDescription "Bun"), (1000, .changeAmount "1"), (1000, .submitAdd "d2") ]
    (clockReadings events).Pairwise (fun x y => x ≤ y) ∧
    idsOf (run events initialState).expenses = [1000, 1000, 1, 2, 3, 4, 5, 6, 7] ∧
    ¬ (idsOf (run events initialState).expenses).Nodup := by
  decide!

/-! ## C6: editing -/

/-- C6 (amended): an edit saved through `EditExpenseModal.handleSubmit` and
`handleUpdateExpense`, with `snapshot` the record being edited, keeps the length and the
order of the ledger; every record with another id is unchanged; a record with the edited
id becomes the snapshot with the submitted description and category and with
`parseFloat` of the submitted amount text as amount (the numeric value of the text unless
it is a `0x`, `0o` or `0b` literal, then `0`), so the edited record keeps its id and date;
the ledger is unchanged when no record has the id.  When ids are distinct and the snapshot
is in a ledger of amounts that are not negative, the exact sum of the amounts moves by the
difference of the two amounts, and the rounded totals, when finite, move by that
difference up to the slack of `n` roundings.  Editing the seed record "Gasoline" (id 6)
from 45.10 to 50.00 keeps id 6, category transport and position 5, and takes the total
from 364.08000000000004 to 368.98, which is the old total plus 4.90 after rounding. -/
theorem handleSubmit_spec (now : Nat) (d a c : String) (s : State) (snapshot : Expense)
    (hedit : s.editingExpense = some snapshot) (hvalid : validateForm d a = []) :
    (handleSubmit now d a c s).expenses.length = s.expenses.length ∧
    (∀ (i : Nat) (e : Expense), s.expenses[i]? = some e → e.id ≠ snapshot.id →
      (handleSubmit now d a c s).expenses[i]? = some e) ∧
    (∀ (i : Nat) (e : Expense), s.expenses[i]? = some e → e.id = snapshot.id →
      (handleSubmit now d a c s).expenses[i]? =
        some { id := e.id, description := d, amount := parseFloat a, category := c,
               date := snapshot.date }) ∧
    (∀ i : Nat, s.expenses[i]? = some snapshot →
      (handleSubmit now d a c s).expenses[i]? =
        some { id := snapshot.id, description := d, amount := parseFloat a, category := c,
               date := snapshot.date }) ∧
    (decimalText a = true → parseFloat a = Number a) ∧
    (decimalText a = false → parseFloat a = JSNum.fin 0) ∧
    ((∀ e ∈ s.expenses, e.id ≠ snapshot.id) →
      (handleSubmit now d a c s).expenses = s.expenses) ∧
    ((idsOf s.expenses).Nodup → snapshot ∈ s.expenses → nonnegAmounts s.expenses = true →
      exactTotal (handleSubmit now d a c s).expenses + snapshot.amount.toRat
        = exactTotal s.expenses + (parseFloat a).toRat ∧
      ∀ T T2 : ℚ, (summaryStats s).total = JSNum.fin T →
        (summaryStats (handleSubmit now d a c s)).total = JSNum.fin T2 →
        |(T2 - T) - ((parseFloat a).toRat - snapshot.amount.toRat)|
          ≤ JSNum.roundingSlack s.expenses.length
            * (exactTotal s.expenses + exactTotal (handleSubmit now d a c s).expenses)) ∧
    (let s0 : State := { initialState with editingExpense := some gasoline }
     let s1 := handleSubmit 1700000000000 "Gasoline" "50.00" "transport" s0
     initialState.expenses[5]? = some gasoline ∧
     s1.expenses[5]? = some { gasoline with amount := .fin 50 } ∧
     s1.expenses.length = 7 ∧
     (summaryStats s0).total = JSNum.ofRat 364.08000000000004 ∧
     (summaryStats s1).total = JSNum.ofRat 368.98 ∧
     (summaryStats s1).total = JSNum.add (summaryStats s0).total (JSNum.ofRat 4.90)) := by
  have hexp : (handleSubmit now d a c s).expenses
      = updateLedger (patchedExpense snapshot d a c) s.expenses := by
    simp [handleSubmit, hedit, hvalid, Obj.keys, handleUpdateExpense, showNotification]
  have hget : ∀ i : Nat, (handleSubmit now d a c s).expenses[i]? =
      (s.expenses[i]?).map
        (fun exp => if exp.id = snapshot.id then patchedExpense snapshot d a c else exp) := by
    intro i
    rw [hexp]
    simp [updateLedger, patchedExpense]
  have hsame : ∀ (i : Nat) (e : Expense), s.expenses[i]? = some e → e.id = snapshot.id →
      (handleSubmit now d a c s).expenses[i]? =
        some { id := e.id, description := d, amount := parseFloat a, category := c,
               date := snapshot.date } := by
    intro i e he hid
    rw [hget, he]
    simp [hid, patchedExpense]
  obtain ⟨_, _, hpos⟩ := (validateForm_eq_nil_iff _ _).1 hvalid
  refine ⟨by rw [hexp]; simp [updateLedger], ?_, hsame, ?_, ?_, ?_, ?_, ?_, ?_⟩
  · intro i e he hne
    rw [hget, he]
    simp [hne]
  · intro i hi
    exact hsame i snapshot hi rfl
  · intro hdec
    exact (parseFloat_eq_Number_of_accepted a hdec hpos).1
  · intro hdec
    exact parseFloat_of_nonDecimal a hdec
  · intro h
    rw [hexp]
    exact updateLedger_of_no_match _ _ h
  · intro hnodup hmem hnn
    have hsum : exactTotal (handleSubmit now d a c s).expenses + snapshot.amount.toRat
        = exactTotal s.expenses + (parseFloat a).toRat := by
      rw [hexp]
      exact exactTotal_updateLedger snapshot (patchedExpense snapshot d a c) rfl s.expenses
        hnodup hmem
    refine ⟨hsum, ?_⟩
    intro T T2 hT hT2
    have hnn2 : nonnegAmounts (handleSubmit now d a c s).expenses = true := by
      rw [hexp]
      simp only [nonnegAmounts, List.all_eq_true, Bool.and_eq_true] at hnn ⊢
      intro e he
      simp only [updateLedger, List.mem_map] at he
      obtain ⟨e0, he0, heq⟩ := he
      split at heq
      · subst heq
        exact parseFloat_isNonneg_of_accepted _ hpos
      · subst heq
        exact hnn e0 he0
    have hlen : (handleSubmit now d a c s).expenses.length = s.expenses.length := by
      rw [hexp]
      simp [updateLedger]
    have h1 := (totalOf_within s.expenses hnn T hT).1
    have h2 := (totalOf_within (handleSubmit now d a c s).expenses hnn2 T2 hT2).1
    rw [hlen] at h2
    have h3 := JSNum.abs_sub_sub_le
      (exactTotal_nonneg _ (nonnegAmounts_isNonneg _ hnn))
      (exactTotal_nonneg _ (nonnegAmounts_isNonneg _ hnn2)) h1 h2
    have e : exactTotal (handleSubmit now d a c s).expenses - exactTotal s.expenses
        = (parseFloat a).toRat - snapshot.amount.toRat := by
      linarith
    rw [e] at h3
    exact h3
  · decide!

theorem handleSubmit_spec_witness :
    let s0 : State := { initialState with editingExpense := some gasoline }
    validateForm "Gasoline" "50.00" = [] ∧
    (handleSubmit 1700000000000 "Gasoline" "50.00" "transport" s0).expenses.length = 7 ∧
    (handleSubmit 1700000000000 "Gasoline" "50.00" "transport" s0).expenses[5]?
      = some { id := 6, description := "Gasoline", amount := parseFloat "50.00",
               category := "transport", date := "2023-10-21T08:00:00Z" } ∧
    parseFloat "50.00" = JSNum.fin 50 :=
  ⟨by decide!,
    (handleSubmit_spec 1700000000000 "Gasoline" "50.00" "transport"
      { initialState with editingExpense := some gasoline } gasoline rfl (by decide!)).1,
    (handleSubmit_spec 1700000000000 "Gasoline" "50.00" "transport"
      { initialState with editingExpense := some gasoline } gasoline rfl (by decide!)).2.2.2.1 5
      (by decide!),
    by decide!⟩

/-- C6 as stated fails twice.  The edited record does not always take the submitted
amount: for the accepted text "0x10", whose numeric value is 16, the stored amount is 0.
And the edit of "Gasoline" from 45.10 to 50.00 takes the total from 364.08000000000004 to
368.98: the difference of these two binary64 values is not 4.90, and rounded to binary64
it is 4.899999999999977. -/
theorem handleSubmit_gasoline_counterexample :
    let s0 : State := { initialState with editingExpense := some gasoline }
    let s1 := handleSubmit 1700000000000 "Gasoline" "50.00" "transport" s0
    let s2 := handleSubmit 1700000000000 "Gasoline" "0x10" "transport" s0
    (validateForm "Gasoline" "0x10" = [] ∧ Number "0x10" = JSNum.fin 16 ∧
      s2.expenses[5]? = some { gasoline with amount := .fin 0 }) ∧
    (summaryStats s0).total = JSNum.ofRat 364.08000000000004 ∧
    (summaryStats s1).total = JSNum.ofRat 368.98 ∧
    (summaryStats s1).total.toRat - (summaryStats s0).total.toRat ≠ 4.90 ∧
    (summaryStats s1).total.toRat - (summaryStats s0).total.toRat
      ≠ (JSNum.ofRat 4.90).toRat ∧
    JSNum.ofRat ((summaryStats s1).total.toRat - (summaryStats s0).total.toRat)
      = JSNum.ofRat 4.899999999999977 ∧
    JSNum.ofRat 4.899999999999977 ≠ JSNum.ofRat 4.90 := by
  decide!

/-! ## C7: removing -/

/-- C7 (amended): `handleDeleteExpense(id)` yields the ledger without the records of that
id: no record with the id remains, every record with another id stays, as it was and in
the original order, and the ledger is unchanged when no record has the id.  When exactly
one record `r` has the id, the count drops by 1, the exact sum of the amounts drops by
`r.amount`, and on a ledger of amounts that are not negative the rounded totals, when
finite, differ by `r.amount` up to the slack of `n` roundings.  Deleting "Internet Bill"
(id 3) from the seed takes the count from 7 to 6 and the total from 364.08000000000004 to
304.09000000000003, which is the old total minus 59.99 after rounding. -/
theorem handleDeleteExpense_spec (now id : Nat) (s : State) :
    (handleDeleteExpense now id s).expenses
      = s.expenses.filter (fun e => decide (e.id ≠ id)) ∧
    (∀ e ∈ (handleDeleteExpense now id s).expenses, e.id ≠ id) ∧
    (∀ e, e ∈ s.expenses → e.id ≠ id → e ∈ (handleDeleteExpense now id s).expenses) ∧
    (handleDeleteExpense now id s).expenses.Sublist s.expenses ∧
    ((∀ e ∈ s.expenses, e.id ≠ id) → (handleDeleteExpense now id s).expenses = s.expenses) ∧
    (∀ r, s.expenses.filter (fun e => decide (e.id = id)) = [r] →
      (summaryStats s).count = (summaryStats (handleDeleteExpense now id s)).count + 1 ∧
      exactTotal s.expenses
        = exactTotal (handleDeleteExpense now id s).expenses + r.amount.toRat ∧
      (nonnegAmounts s.expenses = true →
        ∀ T T2 : ℚ, (summaryStats s).total = JSNum.fin T →
          (summaryStats (handleDeleteExpense now id s)).total = JSNum.fin T2 →
          |(T - T2) - r.amount.toRat| ≤ JSNum.roundingSlack s.expenses.length
            * (exactTotal (handleDeleteExpense now id s).expenses + exactTotal s.expenses))) ∧
    ((summaryStats initialState).count = 7 ∧
      (summaryStats (handleDeleteExpense now 3 initialState)).count = 6 ∧
      (summaryStats initialState).total = JSNum.ofRat 364.08000000000004 ∧
      (summaryStats (handleDeleteExpense now 3 initialState)).total
        = JSNum.ofRat 304.09000000000003 ∧
      (summaryStats (handleDeleteExpense now 3 initialState)).total
        = JSNum.ofRat ((summaryStats initialState).total.toRat - (JSNum.ofRat 59.99).toRat)) := by
  have hexp : ∀ (i : Nat) (s1 : State), (handleDeleteExpense now i s1).expenses
      = s1.expenses.filter (fun e => decide (e.id ≠ i)) := fun _ _ => rfl
  refine ⟨rfl, ?_, ?_, ?_, ?_, ?_, ?_⟩
  · intro e he
    rw [hexp] at he
    simpa using (List.mem_filter.1 he).2
  · intro e he hne
    rw [hexp]
    exact List.mem_filter.2 ⟨he, by simpa using hne⟩
  · rw [hexp]
    exact List.filter_sublist _
  · intro h
    rw [hexp, List.filter_eq_self]
    intro e he
    simpa using h e he
  · intro r hr
    have h1 := length_split id s.expenses
    have h2 := exactTotal_split id s.expenses
    rw [hr] at h1 h2
    have h3 : exactTotal [r] = r.amount.toRat := by simp [exactTotal]
    rw [h3] at h2
    have hsum : exactTotal s.expenses
        = exactTotal (handleDeleteExpense now id s).expenses + r.amount.toRat := h2
    refine ⟨h1, hsum, ?_⟩
    intro hnn T T2 hT hT2
    have hnn2 : nonnegAmounts (handleDeleteExpense now id s).expenses = true :=
      nonnegAmounts_filter _ _ hnn
    have hlen : (handleDeleteExpense now id s).expenses.length ≤ s.expenses.length :=
      List.length_filter_le _ _
    have hq2 := exactTotal_nonneg _ (nonnegAmounts_isNonneg _ hnn2)
    have hw1 := (totalOf_within s.expenses hnn T hT).1
    have hw2 := JSNum.within_mono
      (totalOf_within (handleDeleteExpense now id s).expenses hnn2 T2 hT2).1 hlen hq2
    have h4 := JSNum.abs_sub_sub_le hq2
      (exactTotal_nonneg _ (nonnegAmounts_isNonneg _ hnn)) hw2 hw1
    have e : exactTotal s.expenses - exactTotal (handleDeleteExpense now id s).expenses
        = r.amount.toRat := by
      linarith
    rw [e] at h4
    exact h4
  · have h1 : (summaryStats (handleDeleteExpense now 3 initialState)).total
        = totalOf (deleteFromLedger 3 initialExpenses) := rfl
    refine ⟨rfl, rfl, by decide!, ?_, ?_⟩
    · rw [h1]
      decide!
    · rw [h1]
      decide!

/-- C7 as stated fails.  On the seed, deleting "Internet Bill" (59.99) takes the total from
364.08000000000004 to 304.09000000000003: the difference of these two binary64 values is
not 59.99, and rounded to binary64 it is 59.99000000000001.  On the ledger reached from the
seed by adding 0.2, where the totals are 364.28 and 304.29, the new total is neither the
old total minus 59.99 nor does it give the old total when 59.99 is added, in exact and in
rounded arithmetic alike. -/
theorem handleDeleteExpense_total_counterexample :
    let s1 := handleDeleteExpense 2000 3 initialState
    let t0 := (summaryStats initialState).total
    let t1 := (summaryStats s1).total
    let events : List (Nat × Action) :=
      [ (1000, .changeDescription "Gum"), (1000, .changeAmount "0.2"), (1000, .submitAdd "d1") ]
    let u0 := (summaryStats (run events initialState)).total
    let u1 := (summaryStats (handleDeleteExpense 2000 3 (run events initialState))).total
    (initialState.expenses.filter (fun e => decide (e.id = 3))).map (fun e => e.amount)
      = [JSNum.ofRat 59.99] ∧
    t0 = JSNum.ofRat 364.08000000000004 ∧ t1 = JSNum.ofRat 304.09000000000003 ∧
    t0.toRat - t1.toRat ≠ (JSNum.ofRat 59.99).toRat ∧
    t0.toRat - t1.toRat ≠ 59.99 ∧
    JSNum.ofRat (t0.toRat - t1.toRat) = JSNum.ofRat 59.99000000000001 ∧
    JSNum.ofRat 59.99000000000001 ≠ JSNum.ofRat 59.99 ∧
    u0 = JSNum.ofRat 364.28 ∧ u1 = JSNum.ofRat 304.29 ∧
    u0.toRat - u1.toRat ≠ (JSNum.ofRat 59.99).toRat ∧
    JSNum.ofRat (u0.toRat - u1.toRat) ≠ JSNum.ofRat 59.99 ∧
    JSNum.ofRat (u0.toRat - (JSNum.ofRat 59.99).toRat) ≠ u1 ∧
    JSNum.add u1 (JSNum.ofRat 59.99) ≠ u0 := by
  decide!

/-! ## C8: filtering -/

/-- C8: `filteredAndSortedExpenses` is a permutation of exactly the ledger records whose
lower-cased description contains the lower-cased search term as a substring and whose
category equals the filter, or the filter is "all"; an empty search term excludes nothing,
a term matching no description gives the empty sequence, and the ledger is what it was
(the view is computed beside it).  On the seed ledger with filter "food" and the default
sort the result is "Groceries" 75.40 then "Coffee with friend" 8.75. -/
theorem filteredAndSortedExpenses_perm (lc : String → String) (s : State) :
    (filteredAndSortedExpenses lc s).Perm
      (s.expenses.filter (fun e =>
        matchesSearch lc s.searchTerm e && matchesCategory s.filterCategory e)) ∧
    (∀ e, matchesSearch lc s.searchTerm e = true ↔
      List.IsInfix (lc s.searchTerm).toList (lc e.description).toList) ∧
    (∀ e, matchesCategory s.filterCategory e = true ↔
      (s.filterCategory = "all" ∨ e.category = s.filterCategory)) ∧
    (∀ e, e ∈ filteredAndSortedExpenses lc s ↔
      e ∈ s.expenses ∧ List.IsInfix (lc s.searchTerm).toList (lc e.description).toList ∧
        (s.filterCategory = "all" ∨ e.category = s.filterCategory)) ∧
    (lc "" = "" → s.searchTerm = "" → ∀ e, matchesSearch lc s.searchTerm e = true) ∧
    ((∀ e ∈ s.expenses, matchesSearch lc s.searchTerm e = false) →
      filteredAndSortedExpenses lc s = []) ∧
    (lc "" = "" →
      filteredAndSortedExpenses lc { initialState with filterCategory := "food" }
        = [ { id := 1, description := "Groceries", amount := .ofRat 75.40, category := "food",
              date := "2023-10-26T10:00:00Z" },
            { id := 4, description := "Coffee with friend", amount := .ofRat 8.75,
              category := "food", date := "2023-10-23T16:00:00Z" } ]) := by
  have hsearch : ∀ e, matchesSearch lc s.searchTerm e = true ↔
      List.IsInfix (lc s.searchTerm).toList (lc e.description).toList := by
    intro e
    simp only [matchesSearch, includes, includesChars_iff]
  have hcat : ∀ e, matchesCategory s.filterCategory e = true ↔
      (s.filterCategory = "all" ∨ e.category = s.filterCategory) := by
    intro e
    simp [matchesCategory]
  have hperm : (filteredAndSortedExpenses lc s).Perm
      (s.expenses.filter (fun e =>
        matchesSearch lc s.searchTerm e && matchesCategory s.filterCategory e)) := by
    have h := jsSort_perm (compareExpenses s.sortConfig) (filteredExpenses lc s)
    have h2 : filteredExpenses lc s = s.expenses.filter (fun e =>
        matchesSearch lc s.searchTerm e && matchesCategory s.filterCategory e) := by
      simp only [filteredExpenses, List.filter_filter]
      congr 1
      funext e
      exact Bool.and_comm _ _
    rw [← h2]
    exact h
  have hempty : ∀ t : String, lc "" = "" → ∀ e, matchesSearch lc "" e = true := by
    intro _ hlc e
    simp only [matchesSearch, includes, hlc]
    exact includesChars_nil _
  refine ⟨hperm, hsearch, hcat, ?_, ?_, ?_, ?_⟩
  · intro e
    rw [hperm.mem_iff, List.mem_filter, Bool.and_eq_true, hsearch, hcat]
  · intro hlc hterm e
    rw [hterm]
    exact hempty "" hlc e
  · intro hnone
    have h0 : filteredExpenses lc s = [] := by
      simp only [filteredExpenses, List.filter_eq_nil_iff, List.mem_filter]
      intro e he
      rw [hnone e he.1] at he
      exact absurd he.2 (by decide)
    simp only [filteredAndSortedExpenses, h0, jsSort]
  · intro hlc
    have hf : filteredExpenses lc { initialState with filterCategory := "food" }
        = initialExpenses.filter (matchesCategory "food") := by
      simp only [filteredExpenses]
      congr 1
      show List.filter (matchesSearch lc "") initialExpenses = initialExpenses
      rw [List.filter_eq_self]
      intro e _
      exact hempty "" hlc e
    simp only [filteredAndSortedExpenses, hf]
    decide!

theorem filteredAndSortedExpenses_perm_witness :
    (filteredAndSortedExpenses id { initialState with filterCategory := "food" }).map
      (fun e => (e.description, e.amount))
      = [("Groceries", JSNum.ofRat 75.40), ("Coffee with friend", JSNum.ofRat 8.75)] := by
  rw [(filteredAndSortedExpenses_perm id initialState).2.2.2.2.2.2 rfl]
  rfl

/-! ## C9: sorting -/

/-- C9: on a ledger whose amounts are neither `NaN` nor `-Infinity`, as in every ledger a
session can build, and for every sort configuration, the output of
`filteredAndSortedExpenses` is ordered by the key in the direction: every pair in output
order, adjacent pairs in particular, has non-decreasing keys for asc and non-increasing
keys for desc, dates compared as strings and amounts as numbers.  The sort is stable: the
records whose key equals that of a given record appear in the same relative order as in
the filtered sequence.  When the keys of the filtered sequence are pairwise distinct, the
descending result is the reverse of the ascending one. -/
theorem filteredAndSortedExpenses_sorted_stable (lc : String → String) (s : State)
    (hfin : regularAmounts s.expenses = true) :
    (filteredAndSortedExpenses lc s).Pairwise (ordered s.sortConfig) ∧
    (filteredAndSortedExpenses lc s).Chain' (ordered s.sortConfig) ∧
    (∀ x ∈ filteredExpenses lc s,
      (filteredAndSortedExpenses lc s).filter (keyEq s.sortConfig.key x)
        = (filteredExpenses lc s).filter (keyEq s.sortConfig.key x)) ∧
    (∀ a b : Expense, List.Sublist [a, b] (filteredExpenses lc s) →
      keyEq s.sortConfig.key a b = true →
      List.Sublist [a, b] (filteredAndSortedExpenses lc s)) ∧
    ((filteredExpenses lc s).Pairwise (fun a b => keyEq s.sortConfig.key a b = false) →
      filteredAndSortedExpenses lc
          { s with sortConfig := { key := s.sortConfig.key, direction := .desc } }
        = (filteredAndSortedExpenses lc
          { s with sortConfig := { key := s.sortConfig.key, direction := .asc } }).reverse) ∧
    (∀ events : List (Nat × Action),
      regularAmounts (run events initialState).expenses = true) := by
  have hfin2 := regularAmounts_filteredExpenses lc s hfin
  have hreg : ∀ e ∈ filteredExpenses lc s, e.amount.isRegular = true := by
    simpa [regularAmounts] using hfin2
  have hmem : ∀ e, e ∈ filteredAndSortedExpenses lc s → e ∈ filteredExpenses lc s :=
    fun e he => (jsSort_perm (compareExpenses s.sortConfig) (filteredExpenses lc s)).subset he
  have hpairs : ∀ a b : Expense, List.Sublist [a, b] (filteredExpenses lc s) →
      keyEq s.sortConfig.key a b = true →
      List.Sublist [a, b] (filteredAndSortedExpenses lc s) := by
    intro a b hsub hs
    have ha := hreg a (hsub.subset (by simp))
    have hb := hreg b (hsub.subset (by simp))
    rw [← sameKey_eq_keyEq _ a b ha hb] at hs
    apply jsSort_sublist _ _ hsub
    simp only [sameKey, Bool.and_eq_true, Bool.not_eq_true'] at hs
    simp [compareExpenses, hs.1, hs.2]
  have hmain : ∀ {κ : Type} [LinearOrder κ] (K : Expense → κ),
      (∀ a ∈ filteredExpenses lc s, ∀ b ∈ filteredExpenses lc s,
        (keyLt s.sortConfig.key a b = true ↔ K a < K b)) →
      (filteredAndSortedExpenses lc s).Pairwise (fun a b => inOrder s.sortConfig a b = true) ∧
      (∀ x ∈ filteredExpenses lc s,
        (filteredAndSortedExpenses lc s).filter (sameKey s.sortConfig.key x)
          = (filteredExpenses lc s).filter (sameKey s.sortConfig.key x)) ∧
      ((filteredExpenses lc s).Pairwise (fun a b => sameKey s.sortConfig.key a b = false) →
        filteredAndSortedExpenses lc
            { s with sortConfig := { key := s.sortConfig.key, direction := .desc } }
          = (filteredAndSortedExpenses lc
            { s with sortConfig := { key := s.sortConfig.key, direction := .asc } }).reverse) := by
    intro κ _ K hK
    exact ⟨jsSort_inOrder K s.sortConfig _ hK,
      fun x hx => jsSort_filter_sameKey K s.sortConfig _ hK x hx,
      fun hd => jsSort_desc_eq_reverse_asc K s.sortConfig.key _ hK hd⟩
  have hall : (filteredAndSortedExpenses lc s).Pairwise
        (fun a b => inOrder s.sortConfig a b = true) ∧
      (∀ x ∈ filteredExpenses lc s,
        (filteredAndSortedExpenses lc s).filter (sameKey s.sortConfig.key x)
          = (filteredExpenses lc s).filter (sameKey s.sortConfig.key x)) ∧
      ((filteredExpenses lc s).Pairwise (fun a b => sameKey s.sortConfig.key a b = false) →
        filteredAndSortedExpenses lc
            { s with sortConfig := { key := s.sortConfig.key, direction := .desc } }
          = (filteredAndSortedExpenses lc
            { s with sortConfig := { key := s.sortConfig.key, direction := .asc } }).reverse) := by
    cases hk : s.sortConfig.key with
    | date =>
      have := hmain (fun e => e.date.toList) (by
        intro a _ b _
        rw [hk]
        exact keyLt_date_iff a b)
      rw [hk] at this
      exact this
    | amount =>
      have := hmain (fun e => e.amount.toExtended) (by
        rw [hk]
        exact keyLt_amount_iff _ hfin2)
      rw [hk] at this
      exact this
  have hord : (filteredAndSortedExpenses lc s).Pairwise (ordered s.sortConfig) := by
    apply hall.1.imp_of_mem
    intro a b ha hb h
    exact (inOrder_iff_ordered _ a b (hreg a (hmem a ha)) (hreg b (hmem b hb))).1 h
  refine ⟨hord, List.Pairwise.chain' hord, ?_, hpairs, ?_, regularAmounts_reachable⟩
  · intro x hx
    have h1 : (filteredAndSortedExpenses lc s).filter (keyEq s.sortConfig.key x)
        = (filteredAndSortedExpenses lc s).filter (sameKey s.sortConfig.key x) := by
      apply List.filter_congr
      intro y hy
      exact (sameKey_eq_keyEq _ x y (hreg x hx) (hreg y (hmem y hy))).symm
    have h2 : (filteredExpenses lc s).filter (keyEq s.sortConfig.key x)
        = (filteredExpenses lc s).filter (sameKey s.sortConfig.key x) := by
      apply List.filter_congr
      intro y hy
      exact (sameKey_eq_keyEq _ x y (hreg x hx) (hreg y hy)).symm
    rw [h1, h2]
    exact hall.2.1 x hx
  · intro hd
    apply hall.2.2
    apply hd.imp_of_mem
    intro a b ha hb h
    rw [sameKey_eq_keyEq _ a b (hreg a ha) (hreg b hb)]
    exact h

theorem filteredAndSortedExpenses_sorted_stable_witness :
    let byDate (d : SortDirection) : State :=
      { initialState with sortConfig := { key := .date, direction := d } }
    let byAmount (d : SortDirection) : State :=
      { initialState with sortConfig := { key := .amount, direction := d } }
    let tied : State := { initialState with
      expenses :=
        [ { id := 1, description := "A", amount := .ofRat 5, category := "food", date := "d3" },
          { id := 2, description := "B", amount := .ofRat 3, category := "food", date := "d1" },
          { id := 3, description := "C", amount := .ofRat 5, category := "food", date := "d2" } ]
      sortConfig := { key := .amount, direction := .asc } }
    regularAmounts initialState.expenses = true ∧
    (filteredAndSortedExpenses id (byDate .asc)).Pairwise (fun a b => a.date ≤ b.date) ∧
    idsOf (filteredAndSortedExpenses id (byDate .asc)) = [7, 6, 5, 4, 3, 2, 1] ∧
    idsOf (filteredAndSortedExpenses id (byDate .desc)) = [1, 2, 3, 4, 5, 6, 7] ∧
    idsOf (filteredAndSortedExpenses id (byAmount .asc)) = [4, 2, 5, 6, 3, 1, 7] ∧
    idsOf (filteredAndSortedExpenses id (byAmount .desc)) = [7, 1, 3, 6, 5, 2, 4] ∧
    idsOf (filteredAndSortedExpenses id tied) = [2, 1, 3] ∧
    idsOf (filteredAndSortedExpenses id
      { tied with sortConfig := { key := .amount, direction := .desc } }) = [1, 3, 2] := by
  intro byDate byAmount tied
  exact ⟨by decide!,
    (filteredAndSortedExpenses_sorted_stable id (byDate .asc) (by decide!)).1,
    by decide!, by decide!, by decide!, by decide!, by decide!, by decide!⟩

/-! ## C10: pagination -/

/-- C10: the page shown is the first `min(visibleCount, n)` records of the filtered and
sorted sequence of length `n`; "Load More" is rendered iff `n > visibleCount`, hence not
once `visibleCount >= n`; `visibleCount` starts at 5, a click on "Load More" adds exactly
5, no action and no timer callback lowers it, and after a session with `k` clicks on
"Load More" it is `5 * (k + 1)`. -/
theorem pagination_spec (lc : String → String) (s : State) :
    paginatedExpenses lc s = (filteredAndSortedExpenses lc s).take
      (min s.visibleCount (filteredAndSortedExpenses lc s).length) ∧
    (paginatedExpenses lc s).length
      = min s.visibleCount (filteredAndSortedExpenses lc s).length ∧
    (loadMoreVisible lc s = true ↔ (filteredAndSortedExpenses lc s).length > s.visibleCount) ∧
    (s.visibleCount ≥ (filteredAndSortedExpenses lc s).length → loadMoreVisible lc s = false) ∧
    initialState.visibleCount = 5 ∧
    (loadMore s).visibleCount = s.visibleCount + 5 ∧
    (∀ (now : Nat) (a : Action), s.visibleCount ≤ (step now a s).visibleCount) ∧
    (∀ t : Nat, (fireDue t s).visibleCount = s.visibleCount) ∧
    (∀ events : List (Nat × Action),
      (run events initialState).visibleCount = 5 * (loadMoreCalls events + 1)) := by
  refine ⟨?_, ?_, ?_, ?_, rfl, rfl, ?_, fun t => fireDue_visibleCount t s, ?_⟩
  · simp only [paginatedExpenses, slice0]
    rcases Nat.le_total s.visibleCount (filteredAndSortedExpenses lc s).length with h | h
    · rw [Nat.min_eq_left h]
    · rw [Nat.min_eq_right h, List.take_of_length_le h, List.take_length]
  · simp [paginatedExpenses, slice0, List.length_take]
  · simp [loadMoreVisible]
  · intro h
    simp only [loadMoreVisible, gt_iff_lt, decide_eq_false_iff_not, not_lt]
    exact h
  · intro now a
    rw [step_visibleCount]
    exact Nat.le_add_right _ _
  · intro events
    rw [run_visibleCount]
    show 5 + 5 * loadMoreCalls events = 5 * (loadMoreCalls events + 1)
    ring

/-! ## C11: category totals -/

/-- C11 (amended): on a ledger whose amounts are `+Infinity` or finite binary64 values that
are not negative, as in every ledger a session can build, `categoryTotals` has each key
once, has a key for a category exactly when some record of the ledger has that category,
and the value at a key is the total of the records of that category, added in ledger
order.  The sum of the values, taken in key order as `CategoryChart` takes it, and
`summaryStats.total` round the same exact sum along different orders of addition: when
finite they are within `2 n` and `n` roundings of the exact sum of the `n` amounts, hence
within the slack of `2 n` roundings of each other. -/
theorem categoryTotals_sum_near_total (s : State) (hnn : nonnegAmounts s.expenses = true) :
    (categoryTotals s).keys.Nodup ∧
    (∀ c, c ∈ (categoryTotals s).keys ↔ ∃ e ∈ s.expenses, e.category = c) ∧
    (∀ c, c ∈ (categoryTotals s).keys →
      (categoryTotals s).get c = some (totalOf (recordsOfCategory c s.expenses))) ∧
    chartTotal (categoryTotals s)
      = (Obj.values (categoryTotals s)).foldl JSNum.add (JSNum.fin 0) ∧
    (∀ T : ℚ, (summaryStats s).total = JSNum.fin T →
      JSNum.within s.expenses.length (JSNum.fin T) (exactTotal s.expenses)) ∧
    (∀ V : ℚ, chartTotal (categoryTotals s) = JSNum.fin V →
      JSNum.within (2 * s.expenses.length) (JSNum.fin V) (exactTotal s.expenses)) ∧
    (∀ T V : ℚ, (summaryStats s).total = JSNum.fin T →
      chartTotal (categoryTotals s) = JSNum.fin V →
      |T - V| ≤ JSNum.roundingSlack (2 * s.expenses.length) * exactTotal s.expenses) ∧
    (∀ events : List (Nat × Action),
      nonnegAmounts (run events initialState).expenses = true) := by
  obtain ⟨h1, h2, h3⟩ := categoryTotalsOf_spec s.expenses hnn
  have hq := exactTotal_nonneg _ (nonnegAmounts_isNonneg _ hnn)
  refine ⟨h1, h2, h3, rfl, ?_, ?_, ?_, nonnegAmounts_reachable⟩
  · intro T hT
    exact (totalOf_within s.expenses hnn T hT).1
  · intro V hV
    exact (chartTotal_within s.expenses hnn V hV).1
  · intro T V hT hV
    have hw1 := JSNum.within_mono (totalOf_within s.expenses hnn T hT).1
      (by omega : s.expenses.length ≤ 2 * s.expenses.length) hq
    exact JSNum.abs_sub_le_of_within hw1 (chartTotal_within s.expenses hnn V hV).1

theorem categoryTotals_sum_near_total_witness :
    nonnegAmounts initialState.expenses = true ∧
    (categoryTotals initialState).keys = ["food", "transport", "bills", "other"] ∧
    categoryTotals initialState
      = [("food", JSNum.ofRat 84.15), ("transport", JSNum.ofRat 67.6),
         ("bills", JSNum.ofRat 180.33), ("other", JSNum.ofRat 32)] ∧
    (categoryTotals initialState).get "food"
      = some (totalOf (recordsOfCategory "food" initialState.expenses)) :=
  ⟨by decide!, by decide!, by decide!,
    (categoryTotals_sum_near_total initialState (by decide!)).2.2.1 "food" (by decide!)⟩

/-- C11 as stated fails on the ledger reached from the seed by adding 0.11 under food: the
total is 364.19, the values 84.26, 67.6, 180.33 and 32 of `categoryTotals` add up to
364.19000000000005 in key order, and their exact sum is not the total either.  It also
fails on a ledger holding a `NaN` amount: the reducer takes the `NaN` entry for a missing
one and starts again from `0`, so the value under food is 5 while the sum of the amounts
of the food records, and the total, is `NaN`. -/
theorem categoryTotals_sum_counterexample :
    let events : List (Nat × Action) :=
      [ (1000, .changeDescription "Gum"), (1000, .changeAmount "0.11"), (1000, .submitAdd "d1") ]
    let s := run events initialState
    let s2 : State := { initialState with expenses :=
      [ { id := 1, description := "Lunch", amount := .nan, category := "food",
          date := "2023-10-26T10:00:00Z" },
        { id := 2, description := "Tea", amount := .ofRat 5, category := "food",
          date := "2023-10-27T10:00:00Z" } ] }
    (validateForm "Gum" "0.11" = [] ∧
      (summaryStats s).total = JSNum.ofRat 364.19 ∧
      categoryTotals s
        = [("food", JSNum.ofRat 84.26), ("transport", JSNum.ofRat 67.6),
           ("bills", JSNum.ofRat 180.33), ("other", JSNum.ofRat 32)] ∧
      (Obj.values (categoryTotals s)).foldl JSNum.add (JSNum.fin 0)
        = JSNum.ofRat 364.19000000000005 ∧
      JSNum.ofRat 364.19000000000005 ≠ JSNum.ofRat 364.19 ∧
      chartTotal (categoryTotals s) ≠ (summaryStats s).total ∧
      ((Obj.values (categoryTotals s)).map JSNum.toRat).sum ≠ (summaryStats s).total.toRat) ∧
    (categoryTotals s2 = [("food", JSNum.fin 5)] ∧
      totalOf (recordsOfCategory "food" s2.expenses) = JSNum.nan ∧
      (summaryStats s2).total = JSNum.nan ∧
      chartTotal (categoryTotals s2) = JSNum.fin 5) := by
  decide!

/-! ## C12: the category chart -/

/-- C12 (amended): on a ledger whose records all have a category of the catalog and whose
amounts are binary64 values that are not negative, with a total above `0` and a finite
chart total, `CategoryChart` renders one finite percentage for each of food, transport,
bills and other, and the percentages add up to `100` within `10 ^ (-13)` before display
rounding.  On every input the chart renders nothing when its total is `0`, and a percentage
is `0` without any division unless the total is positive. -/
theorem categoryChart_percentages_sum (s : State) (hnn : nonnegAmounts s.expenses = true)
    (hcat : catalogCategories s.expenses = true)
    (hfin : (chartTotal (categoryTotals s)).isFinite = true)
    (hpos : JSNum.gt (summaryStats s).total (JSNum.fin 0) = true) :
    (∃ ps : List (String × JSNum), CategoryChart (categoryTotals s) = some ps ∧
      ps.map (fun p => p.1) = CATEGORIES ∧
      (∀ p ∈ ps, p.2.isFinite = true) ∧
      |(ps.map (fun p => p.2.toRat)).sum - 100| ≤ 1 / 10 ^ 13) ∧
    (∀ data : Obj JSNum, chartTotal data = JSNum.fin 0 → CategoryChart data = none) ∧
    (∀ (data : Obj JSNum) (total : JSNum) (key : String),
      JSNum.gt total (JSNum.fin 0) = false → chartPercentage data total key = JSNum.fin 0) := by
  refine ⟨categoryChart_categoryTotalsOf s.expenses hnn hcat hfin hpos, ?_, ?_⟩
  · intro data h
    simp [CategoryChart, h]
  · intro data total key h
    simp [chartPercentage, h]

theorem categoryChart_percentages_sum_witness :
    nonnegAmounts initialState.expenses = true ∧
    catalogCategories initialState.expenses = true ∧
    chartTotal (categoryTotals initialState) = JSNum.ofRat 364.08000000000004 ∧
    JSNum.gt (summaryStats initialState).total (JSNum.fin 0) = true ∧
    ∃ ps : List (String × JSNum), CategoryChart (categoryTotals initialState) = some ps ∧
      ps.map (fun p => p.1) = CATEGORIES ∧
      (∀ p ∈ ps, p.2.isFinite = true) ∧
      |(ps.map (fun p => p.2.toRat)).sum - 100| ≤ 1 / 10 ^ 13 :=
  ⟨by decide!, by decide, by decide!, by decide!,
    (categoryChart_percentages_sum initialState (by decide!) (by decide) (by decide!)
      (by decide!)).1⟩

/-- C12 as stated fails on the seed ledger, whose total is above `0`: the four percentages
are 23.11305207646671, 18.567347835640515, 49.53032300593276 and 8.789277081960007, their
exact sum is not `100`, and added in binary64 they give 99.99999999999999.  It also fails
on a ledger holding a category outside the catalog (with 10 under "misc" and 30 under
"food" the chart shows 75 for food and 0 for the other three), on a ledger holding an
infinite amount (the total is `+Infinity`, which is above 0, and the percentage of food is
`NaN`), and on a ledger holding a negative amount (10000000000000002 under food and
-10000000000000000 under transport give the total 2 and percentages that add up to
128). -/
theorem categoryChart_percentages_counterexample :
    let s1 : State := { initialState with expenses :=
      [ { id := 1, description := "Stamps", amount := .ofRat 10, category := "misc",
          date := "2023-10-26T10:00:00Z" },
        { id := 2, description := "Lunch", amount := .ofRat 30, category := "food",
          date := "2023-10-27T10:00:00Z" } ] }
    let s2 : State := { initialState with expenses :=
      [ { id := 1, description := "Lunch", amount := .posInf, category := "food",
          date := "2023-10-27T10:00:00Z" } ] }
    let s3 : State := { initialState with expenses :=
      [ { id := 1, description := "Lunch", amount := .ofRat 10000000000000002,
          category := "food", date := "2023-10-26T10:00:00Z" },
        { id := 2, description := "Refund", amount := .ofRat (-10000000000000000),
          category := "transport", date := "2023-10-27T10:00:00Z" } ] }
    (JSNum.gt (summaryStats initialState).total (JSNum.fin 0) = true ∧
      ∃ ps, CategoryChart (categoryTotals initialState) = some ps ∧
        ps = [("food", JSNum.ofRat 23.11305207646671),
              ("transport", JSNum.ofRat 18.567347835640515),
              ("bills", JSNum.ofRat 49.53032300593276),
              ("other", JSNum.ofRat 8.789277081960007)] ∧
        (ps.map (fun p => p.2.toRat)).sum ≠ 100 ∧
        (ps.map (fun p => p.2)).foldl JSNum.add (JSNum.fin 0) = JSNum.ofRat 99.99999999999999 ∧
        JSNum.ofRat 99.99999999999999 ≠ JSNum.fin 100) ∧
    (JSNum.gt (summaryStats s1).total (JSNum.fin 0) = true ∧
      CategoryChart (categoryTotals s1)
        = some [("food", .fin 75), ("transport", .fin 0), ("bills", .fin 0),
                ("other", .fin 0)]) ∧
    (JSNum.gt (summaryStats s2).total (JSNum.fin 0) = true ∧
      CategoryChart (categoryTotals s2)
        = some [("food", .nan), ("transport", .fin 0), ("bills", .fin 0),
                ("other", .fin 0)]) ∧
    ((summaryStats s3).total = JSNum.fin 2 ∧
      CategoryChart (categoryTotals s3)
        = some [("food", .fin 500000000000000128), ("transport", .fin (-500000000000000000)),
                ("bills", .fin 0), ("other", .fin 0)]) := by
  refine ⟨⟨by decide!, _, by decide!, rfl, by decide!, by decide!, by decide!⟩,
    ⟨by decide!, by decide!⟩, ⟨by decide!, by decide!⟩, by decide!, by decide!⟩

/-! ## C13: summary statistics -/

/-- C13: `summaryStats.count` is the number of records, `summaryStats.total` is the sum of
the amounts of the whole ledger, added from `0` in ledger order, and depends on nothing but
the ledger (search term, category filter, sort and visible count play no part), and
`summaryStats.average` is `total / count` when `count > 0` and `0` when `count = 0`, so the
division never has a zero divisor.  On a ledger of amounts that are not negative a finite
total is within `n` roundings of the exact sum of the `n` amounts. -/
theorem summaryStats_count_total_average (s : State) :
    (summaryStats s).count = s.expenses.length ∧
    (summaryStats s).total
      = (s.expenses.map (fun e => e.amount)).foldl JSNum.add (JSNum.fin 0) ∧
    (∀ s2 : State, s2.expenses = s.expenses → summaryStats s2 = summaryStats s) ∧
    (0 < (summaryStats s).count →
      (summaryStats s).average
        = JSNum.div (summaryStats s).total (JSNum.ofNat (summaryStats s).count) ∧
      JSNum.ofNat (summaryStats s).count ≠ JSNum.fin 0) ∧
    ((summaryStats s).count = 0 → (summaryStats s).average = JSNum.fin 0) ∧
    (nonnegAmounts s.expenses = true → ∀ T : ℚ, (summaryStats s).total = JSNum.fin T →
      JSNum.within s.expenses.length (JSNum.fin T) (exactTotal s.expenses)) := by
  refine ⟨rfl, ?_, ?_, ?_, ?_, ?_⟩
  · show totalOf s.expenses = _
    unfold totalOf
    rw [List.foldl_map]
  · intro s2 h
    simp only [summaryStats, h]
  · intro h
    have h2 : 0 < s.expenses.length := h
    refine ⟨by simp only [summaryStats, h2, gt_iff_lt, if_true], ?_⟩
    intro hz
    simp only [JSNum.ofNat, JSNum.fin.injEq, Nat.cast_eq_zero] at hz
    omega
  · intro h
    have h2 : s.expenses.length = 0 := h
    simp [summaryStats, h2]
  · intro hnn T hT
    exact (totalOf_within s.expenses hnn T hT).1

/-! ## C14: the notification timer -/

/-- C14 (amended): `showNotification` at time `t` immediately makes the new toast the
visible one and schedules one more clearing callback at `t + 3000` without cancelling any
pending one.  With no further call, the toast is still visible at every time `T` that
comes before all pending callbacks (its own included), and it is cleared at any time `T`
by which some pending callback is due, also one scheduled by an earlier call; so when no
earlier callback is pending it stays visible throughout `[t, t + 3000)`. -/
theorem showNotification_visibility (s : State) (t : Nat) (message type : String) :
    (showNotification t message type s).notification
      = some { message := message, type := type } ∧
    (showNotification t message type s).timers = s.timers ++ [t + NOTIFICATION_DELAY] ∧
    (∀ T, (∀ d ∈ s.timers, T < d) → T < t + NOTIFICATION_DELAY →
      (fireDue T (showNotification t message type s)).notification
        = some { message := message, type := type }) ∧
    (∀ T, ((∃ d ∈ s.timers, d ≤ T) ∨ t + NOTIFICATION_DELAY ≤ T) →
      (fireDue T (showNotification t message type s)).notification = none) ∧
    (s.timers = [] → ∀ T, T < t + NOTIFICATION_DELAY →
      (fireDue T (showNotification t message type s)).notification
        = some { message := message, type := type }) := by
  have hvis : ∀ T, (∀ d ∈ s.timers, T < d) → T < t + NOTIFICATION_DELAY →
      (fireDue T (showNotification t message type s)).notification
        = some { message := message, type := type } := by
    intro T hT hlt
    have hany : (s.timers ++ [t + NOTIFICATION_DELAY]).any (fun d => decide (d ≤ T)) = false := by
      rw [List.any_eq_false]
      intro d hd
      rcases List.mem_append.1 hd with h | h
      · simpa using hT d h
      · have hd2 : d = t + NOTIFICATION_DELAY := by simpa using h
        simp only [decide_eq_true_eq, not_le, hd2]
        exact hlt
    simp only [fireDue, showNotification, hany, Bool.false_eq_true, if_false]
  refine ⟨rfl, rfl, hvis, ?_, ?_⟩
  · intro T hT
    have hany : (s.timers ++ [t + NOTIFICATION_DELAY]).any (fun d => decide (d ≤ T)) = true := by
      rw [List.any_eq_true]
      rcases hT with ⟨d, hd, hle⟩ | hle
      · exact ⟨d, List.mem_append.2 (Or.inl hd), by simpa using hle⟩
      · exact ⟨t + NOTIFICATION_DELAY, by simp, by simpa using hle⟩
    simp only [fireDue, showNotification, hany, if_true]
  · intro hnil T hlt
    exact hvis T (by simp [hnil]) hlt

/-- C14 as stated fails: toast A is shown at time 0 and toast B at time 2000; B is still
visible at 2999, but at time 3000, inside `[2000, 5000)` and with no call in between, the
callback scheduled for A has cleared it. -/
theorem showNotification_stale_timer_counterexample :
    let s1 := showNotification 0 "A" "success" initialState
    let s2 := showNotification 2000 "B" "error" (fireDue 2000 s1)
    s2.notification = some { message := "B", type := "error" } ∧
    (fireDue 2999 s2).notification = some { message := "B", type := "error" } ∧
    (fireDue 3000 s2).notification = none ∧
    s2.timers = [3000, 5000] := by
  decide

end ExpenseTracker
